import Mathlib

/-! # kubecia: tokens, provider plug-ins, the daemon and the caches

A shallow embedding of `pkg/token/token.go`, of the `token.go`, `server.go` and
`client.go` files of the provider plug-ins (`pkg/plugins/{aws,azure,gcp}`), of
`pkg/apis/router.go`, `pkg/cache`, `pkg/bytespool` and `pkg/consts`, followed
by the properties established for them. The library code these files call into
is modelled as far as they use it: the gob stream of a `Token`, the binary form
of `time.Time`, the regular expression of the Azure resource check, `path.Join`,
the unpadded URL-safe base64 encoding, a store of files with modification
times, and `singleflight.Group`.

Conventions.
* A Go `string` holding text (an option field, a cache key) is a Lean `String`.
* A Go `[]byte`, and the token value where the codecs look at its bytes, is a
  `List Nat` whose elements are the byte values.
* A Go `int64` is an `Int`; where the source relies on wrap-around the model
  reduces modulo `2^64` explicitly.
* `time.Now()` and the process environment are explicit arguments.
-/

namespace Kubecia

/-! ## `time.Time`, as far as the token code observes it -/

/-- The state of a Go `time.Time` without a monotonic reading: the seconds
elapsed since January 1 of year 1 (UTC), the nanoseconds within the second, and
the location, where `none` stands for UTC (a nil `loc`) and `some off` for a
location whose offset at this instant is `off` seconds east of UTC. -/
structure Time where
  sec : Int
  nsec : Nat
  loc : Option Int
deriving DecidableEq, Repr

namespace Time

/-- The zero value `time.Time{}`. -/
def zero : Time := ⟨0, 0, none⟩

/-- Range of the fields: `sec` is an `int64`, `nsec` lies in `[0, 999999999]`
and a zone offset is an `int`. -/
def WF (t : Time) : Prop :=
  -(2 ^ 63 : Int) ≤ t.sec ∧ t.sec < 2 ^ 63 ∧ t.nsec < 1000000000 ∧
    ∀ off ∈ t.loc, -(2 ^ 63 : Int) ≤ off ∧ off < 2 ^ 63

instance (t : Time) : Decidable t.WF :=
  inferInstanceAs (Decidable (_ ∧ _ ∧ _ ∧ ∀ off ∈ t.loc, _))

/-- The zones `Time.MarshalBinary` accepts: UTC, or an offset whose whole
minutes fit an `int16` and are not `-1`. -/
def ZoneOK (t : Time) : Prop :=
  ∀ off ∈ t.loc, -32768 ≤ Int.tdiv off 60 ∧ Int.tdiv off 60 ≠ -1 ∧ Int.tdiv off 60 ≤ 32767

instance (t : Time) : Decidable t.ZoneOK :=
  inferInstanceAs (Decidable (∀ off ∈ t.loc, _))

/-- Go `Time.IsZero`: the instant is January 1, year 1, 00:00:00 UTC. -/
def IsZero (t : Time) : Bool := t.sec == 0 && t.nsec == 0

/-- Go `Time.Before`: the instant `t` is before the instant `u`. -/
def Before (t u : Time) : Bool :=
  decide (t.sec < u.sec) || (t.sec == u.sec && decide (t.nsec < u.nsec))

/-- Go `Time.Equal`: the two values denote the same instant. -/
def Equal (t u : Time) : Bool := t.sec == u.sec && t.nsec == u.nsec

/-- The instant as a count of nanoseconds since the zero instant. -/
def nanos (t : Time) : Int := t.sec * 1000000000 + t.nsec

/-- Reduction of an integer to the `int64` range (two's complement). -/
def wrapInt64 (x : Int) : Int := (x + 2 ^ 63) % 2 ^ 64 - 2 ^ 63

/-- Go `Time.addSec`: adds `d` seconds, saturating when the `int64` sum
overflows. -/
def addSec (t : Time) (d : Int) : Time :=
  let sum := wrapInt64 (t.sec + d)
  if decide (sum > t.sec) = decide (d > 0) then { t with sec := sum }
  else if d > 0 then { t with sec := 2 ^ 63 - 1 }
  else { t with sec := -(2 ^ 63 - 1) }

/-- Go `Time.Add` for a duration `d` in nanoseconds (an `int64`); Go's `/` and `%`
truncate toward zero. -/
def Add (t : Time) (d : Int) : Time :=
  let dsec := Int.tdiv d 1000000000
  let nsec : Int := (t.nsec : Int) + Int.tmod d 1000000000
  if nsec ≥ 1000000000 then
    addSec { t with nsec := (nsec - 1000000000).toNat } (dsec + 1)
  else if nsec < 0 then
    addSec { t with nsec := (nsec + 1000000000).toNat } (dsec - 1)
  else addSec { t with nsec := nsec.toNat } dsec

/-- Go `time.Minute`, in nanoseconds. -/
def Minute : Int := 60 * 1000000000

/-- Go `time.Hour`, in nanoseconds. -/
def Hour : Int := 60 * Minute

/-- Go `Time.Local`: the same instant in the zone of the host, whose offset at
that instant is `offset` seconds east of UTC. -/
def Local (t : Time) (offset : Int) : Time := { t with loc := some offset }

end Time

/-! ## `time.Time` binary form (`Time.MarshalBinary`, `Time.UnmarshalBinary`) -/

/-- The `n` low-order bytes of `x`, most significant first. -/
def bigEndian : Nat → Nat → List Nat
  | 0, _ => []
  | n + 1, x => bigEndian n (x / 256) ++ [x % 256]

/-- The number denoted by a big-endian byte string: the loop
`x = x<<8 | uint64(b)`. -/
def beValue (bs : List Nat) : Nat := bs.foldl (fun x b => x * 256 + b) 0

/-- Reading of a `w`-bit pattern `u` as a signed integer. -/
def toSigned (w : Nat) (u : Nat) : Int :=
  if u % 2 ^ w < 2 ^ (w - 1) then ((u % 2 ^ w : Nat) : Int)
  else ((u % 2 ^ w : Nat) : Int) - 2 ^ w

/-- The `w`-bit pattern of a signed integer. -/
def toUnsigned (w : Nat) (i : Int) : Nat := (i % 2 ^ w).toNat

namespace Time

/-- Go `Time.MarshalBinary`: version byte, 8 bytes of seconds, 4 bytes of
nanoseconds, 2 bytes of zone offset in minutes (`-1` for UTC) and, in version
2, one byte of offset seconds. A zone whose offset in minutes is `-1` or does
not fit an `int16` is refused. -/
def MarshalBinary (t : Time) : Except String (List Nat) :=
  match t.loc with
  | none =>
    .ok ([1] ++ bigEndian 8 (toUnsigned 64 t.sec) ++ bigEndian 4 (toUnsigned 32 t.nsec)
      ++ bigEndian 2 (toUnsigned 16 (-1)))
  | some offset =>
    let version := if Int.tmod offset 60 ≠ 0 then 2 else 1
    let offsetSec := toSigned 8 (toUnsigned 8 (Int.tmod offset 60))
    let offsetMin := Int.tdiv offset 60
    if offsetMin < -32768 ∨ offsetMin = -1 ∨ offsetMin > 32767 then
      .error "Time.MarshalBinary: unexpected zone offset"
    else
      let enc := [version] ++ bigEndian 8 (toUnsigned 64 t.sec)
        ++ bigEndian 4 (toUnsigned 32 t.nsec) ++ bigEndian 2 (toUnsigned 16 offsetMin)
      if version = 2 then .ok (enc ++ [toUnsigned 8 offsetSec]) else .ok enc

/-- Go `Time.UnmarshalBinary`. The decoded nanoseconds are stored in the low 30
bits of the wall word, which is where `nsec()` reads them back; the byte of
offset seconds of version 2 is read as the `int8` that `MarshalBinary`
wrote. -/
def UnmarshalBinary (data : List Nat) : Except String Time :=
  match data with
  | [] => .error "Time.UnmarshalBinary: no data"
  | version :: buf =>
    if version ≠ 1 ∧ version ≠ 2 then .error "Time.UnmarshalBinary: unsupported version"
    else
      let wantLen := if version = 2 then 1 + 8 + 4 + 2 + 1 else 1 + 8 + 4 + 2
      if data.length ≠ wantLen then .error "Time.UnmarshalBinary: invalid length"
      else
        let sec := toSigned 64 (beValue (buf.take 8))
        let buf := buf.drop 8
        let nsec := toSigned 32 (beValue (buf.take 4))
        let buf := buf.drop 4
        let offset := toSigned 16 (beValue (buf.take 2)) * 60
        let offset := if version = 2 then offset + toSigned 8 (buf.getD 2 0) else offset
        let wall := toUnsigned 64 nsec
        if offset = -1 * 60 then .ok ⟨sec, wall % 2 ^ 30, none⟩
        else .ok ⟨sec, wall % 2 ^ 30, some offset⟩

end Time

/-! ## `encoding/gob`, restricted to what `Token` needs

The wire form of one `Encode` call on a fresh encoder: a type-definition
message for the struct, one for `time.Time` (a `GobEncoder` type), then the
value message. Every message is preceded by its byte count. The type ids are
handed out by the library per process and are parameters here. The decoder
consumes a type-definition message whole and records its id; it does not
re-check the field names, which coincide because both ends use the same Go
type. The library's sanity cap on the size of one message is not modelled. -/

namespace gob

/-- Number of bytes needed for a `uint64`: `8 - (bits.LeadingZeros64(x) >> 3)`. -/
def byteLen (x : Nat) : Nat :=
  if x < 2 ^ 8 then 1 else if x < 2 ^ 16 then 2 else if x < 2 ^ 24 then 3
  else if x < 2 ^ 32 then 4 else if x < 2 ^ 40 then 5 else if x < 2 ^ 48 then 6
  else if x < 2 ^ 56 then 7 else 8

/-- Go `encoderState.encodeUint`: one byte below 128, otherwise the negated byte
count followed by the big-endian bytes. -/
def encodeUint (x : Nat) : List Nat :=
  if x ≤ 0x7F then [x]
  else (256 - byteLen x) :: bigEndian (byteLen x) x

/-- Go `decoderState.decodeUint`, returning the value and the unread input. -/
def decodeUint (b : List Nat) : Except String (Nat × List Nat) :=
  match b with
  | [] => .error "EOF"
  | c :: buf =>
    if c ≤ 0x7f then .ok (c, buf)
    else
      let n := 256 - c
      if n > 8 then .error "gob: encoded unsigned integer out of range"
      else if buf.length < n then .error "invalid uint data length"
      else .ok (beValue (buf.take n), buf.drop n)

/-- Go `encoderState.encodeInt` for an `int64`. -/
def encodeInt (i : Int) : List Nat :=
  if i < 0 then encodeUint (toUnsigned 64 ((-i - 1) * 2) ||| 1)
  else encodeUint (toUnsigned 64 (i * 2))

/-- Go `decoderState.decodeInt`. -/
def decodeInt (b : List Nat) : Except String (Int × List Nat) :=
  match decodeUint b with
  | .error e => .error e
  | .ok (x, rest) =>
    if x &&& 1 ≠ 0 then .ok (-((x >>> 1 : Nat) : Int) - 1, rest)
    else .ok (((x >>> 1 : Nat) : Int), rest)

/-- Type ids the library assigned to the struct and to `time.Time`. -/
structure TypeIds where
  token : Nat
  time : Nat
deriving DecidableEq, Repr

/-- Range of the type ids: positive `int64` values, distinct from each other. -/
def TypeIds.WF (ids : TypeIds) : Prop :=
  0 < ids.token ∧ ids.token < 2 ^ 63 ∧ 0 < ids.time ∧ ids.time < 2 ^ 63 ∧
    ids.token ≠ ids.time

instance (ids : TypeIds) : Decidable ids.WF :=
  inferInstanceAs (Decidable (_ ∧ _ ∧ _ ∧ _ ∧ _))

/-- Bytes of a string: count, then content. -/
def encodeString (s : List Nat) : List Nat := encodeUint s.length ++ s

/-- A message as written by `writeMessage`: the byte count, then the bytes. -/
def message (body : List Nat) : List Nat := encodeUint body.length ++ body

/-- The bytes of an ASCII name. -/
def ascii (name : String) : List Nat := name.toList.map Char.toNat

/-- The encoded `CommonType{Name, Id}` struct. -/
def commonType (name : String) (id : Nat) : List Nat :=
  [1] ++ encodeString (ascii name) ++ [1] ++ encodeInt id ++ [0]

/-- The type-definition message of the struct `_Token`: `wireType.StructT` with
the fields `Expiration` and `Value` (`6` is the id of the built-in string). -/
def tokenTypeDef (ids : TypeIds) : List Nat :=
  message (encodeInt (-(ids.token : Int)) ++
    ([3] ++ ([1] ++ commonType "_Token" ids.token ++
      [1] ++ encodeUint 2 ++
        ([1] ++ encodeString (ascii "Expiration") ++
          [1] ++ encodeInt ids.time ++ [0]) ++
        ([1] ++ encodeString (ascii "Value") ++
          [1] ++ encodeInt 6 ++ [0]) ++
      [0]) ++ [0]))

/-- The type-definition message of `time.Time`: `wireType.GobEncoderT`. -/
def timeTypeDef (ids : TypeIds) : List Nat :=
  message (encodeInt (-(ids.time : Int)) ++
    ([5] ++ ([1] ++ commonType "Time" ids.time ++ [0]) ++ [0]))

/-- The field `Expiration` as written by the `GobEncoder` instruction: nothing
for the zero value, otherwise field delta, byte count and `GobEncode` bytes.
Returns the bytes and the field number now current. -/
def encExpiration (fieldnum : Int) (t : Time) : Except String (List Nat × Int) :=
  if t = Time.zero then .ok ([], fieldnum)
  else
    match t.MarshalBinary with
    | .error e => .error e
    | .ok data => .ok (encodeUint (0 - fieldnum).toNat ++ encodeUint data.length ++ data, 0)

/-- The field `Value` as written by `encString`: nothing when empty. -/
def encValue (fieldnum : Int) (s : List Nat) : List Nat × Int :=
  if s.length > 0 then (encodeUint (1 - fieldnum).toNat ++ encodeString s, 1)
  else ([], fieldnum)

/-- Go `Encoder.encodeStruct` on a `_Token`: the fields, then the terminator. -/
def encodeStruct (t : Time) (v : List Nat) : Except String (List Nat) :=
  match encExpiration (-1) t with
  | .error e => .error e
  | .ok (b0, fieldnum) => .ok (b0 ++ (encValue fieldnum v).1 ++ [0])

/-- Go `Encoder.Encode` on a fresh encoder writing to an empty buffer. -/
def Encode (ids : TypeIds) (t : Time) (v : List Nat) : Except String (List Nat) :=
  match encodeStruct t v with
  | .error e => .error e
  | .ok body =>
    .ok (tokenTypeDef ids ++ timeTypeDef ids ++ message (encodeInt ids.token ++ body))

/-- Go `Decoder.recvMessage`: reads a count and that many bytes. -/
def recvMessage (r : List Nat) : Except String (List Nat × List Nat) :=
  match decodeUint r with
  | .error e => .error e
  | .ok (nbytes, rest) =>
    if rest.length < nbytes then .error "unexpected EOF"
    else .ok (rest.take nbytes, rest.drop nbytes)

/-- Go `Decoder.decodeTypeSequence`: skips type definitions, recording their ids,
until a value message; returns the ids seen, the value type id and the rest of
that message. The recursion is on the number of messages that can still
follow. -/
def decodeTypeSequence : Nat → List Nat → List Int → Except String (List Int × Int × List Nat)
  | 0, _, _ => .error "unexpected EOF"
  | fuel + 1, r, seen =>
    match recvMessage r with
    | .error e => .error e
    | .ok (buf, rest) =>
      match decodeInt buf with
      | .error e => .error e
      | .ok (id, body) =>
        if id ≥ 0 then .ok (seen, id, body)
        else if (-id) ∈ seen then .error "gob: duplicate type received"
        else decodeTypeSequence fuel rest ((-id) :: seen)

/-- The decoding instruction of field `Expiration`: byte count, bytes,
`GobDecode`. -/
def decExpiration (b : List Nat) : Except String (Time × List Nat) :=
  match decodeUint b with
  | .error e => .error e
  | .ok (n, rest) =>
    if rest.length < n then .error "GobDecoder: invalid data length"
    else
      match Time.UnmarshalBinary (rest.take n) with
      | .error e => .error e
      | .ok t => .ok (t, rest.drop n)

/-- The decoding instruction of field `Value` (`decString`). -/
def decValue (b : List Nat) : Except String (List Nat × List Nat) :=
  match decodeUint b with
  | .error e => .error e
  | .ok (n, rest) =>
    if rest.length < n then .error "bad string length"
    else .ok (rest.take n, rest.drop n)

/-- Go `Decoder.decodeStruct` into a `_Token` holding `(t, v)`: reads field deltas
until the terminator or the end of the message. The recursion is on the number
of fields that can still follow. -/
def decodeStruct : Nat → Int → List Nat → Time × List Nat → Except String (Time × List Nat)
  | 0, _, _, acc => .ok acc
  | fuel + 1, fieldnum, b, acc =>
    if b.length = 0 then .ok acc
    else
      match decodeUint b with
      | .error e => .error e
      | .ok (delta, rest) =>
        if delta = 0 then .ok acc
        else if fieldnum ≥ 2 - (delta : Int) then .error "gob: bad data: field numbers out of bounds"
        else
          let fieldnum := fieldnum + delta
          if fieldnum = 0 then
            match decExpiration rest with
            | .error e => .error e
            | .ok (t, rest) => decodeStruct fuel fieldnum rest (t, acc.2)
          else
            match decValue rest with
            | .error e => .error e
            | .ok (v, rest) => decodeStruct fuel fieldnum rest (acc.1, v)

/-- Go `Decoder.Decode` into a zero `_Token`. -/
def Decode (r : List Nat) : Except String (Time × List Nat) :=
  match decodeTypeSequence (r.length + 1) r [] with
  | .error e => .error e
  | .ok (seen, id, body) =>
    if id ∉ seen then .error "gob: bad data: undefined type"
    else decodeStruct (body.length + 1) (-1) body (Time.zero, [])

end gob

/-! ## `pkg/token`: the token record -/

/-- The Go struct `token.Token`. -/
structure Token where
  Expiration : Time
  Value : List Nat
deriving DecidableEq, Repr

namespace Token

/-- Range of the fields: a well-formed expiration and a value whose length is
an `int`. -/
def WF (t : Token) : Prop := t.Expiration.WF ∧ t.Value.length < 2 ^ 63

instance (t : Token) : Decidable t.WF :=
  inferInstanceAs (Decidable (_ ∧ _))

/-- Go `Token.Expired`, with the reading of `time.Now()` passed as `now`. -/
def Expired (t : Token) (now : Time) : Bool :=
  if t.Expiration.IsZero then true
  else t.Expiration.Before now

/-- Go `Token.MarshalBinary`: the gob encoding of the record. -/
def MarshalBinary (ids : gob.TypeIds) (t : Token) : Except String (List Nat) :=
  match gob.Encode ids t.Expiration t.Value with
  | .error err => .error err
  | .ok buf => .ok buf

/-- Go `Token.UnmarshalBinary`: returns the decoded record, or the error, in which
case the receiver is left as it was. -/
def UnmarshalBinary (b : List Nat) : Except String Token :=
  match gob.Decode b with
  | .error err => .error err
  | .ok (e, v) => .ok ⟨e, v⟩

end Token

/-! ## The JSON form of the token -/

namespace json

/-- Modelled from the spec: `pkg/json` is a package of this repository that is
not among the sources; the spec has the daemon emit the raw token JSON and the
client JSON-decode it. Its encoder and the scanner of its decoder are
parameters: `encode` is `NewEncoder(&buf).Encode(v)` on a `Token` value, and
`scan` is the decoder reading the next JSON value of its input, yielding the
bytes of that value or a syntax error. -/
structure Codec where
  encode : Token → Except String (List Nat)
  scan : List Nat → Except String (List Nat)

end json

namespace Token

/-- Go `Token.MarshalJSON`: encodes the value `*t`, which has no `MarshalJSON` in
its method set, so the encoder treats it as a plain struct. -/
def MarshalJSON (c : json.Codec) (t : Token) : Except String (List Nat) :=
  match c.encode t with
  | .error err => .error err
  | .ok buf => .ok buf

/-- Go `Token.UnmarshalJSON`: hands the receiver `t`, a `*Token`, to
`NewDecoder(...).Decode`. A `*Token` implements `json.Unmarshaler` through this
very method, and a decoder given such a target reads the next JSON value and
passes its bytes to the target's `UnmarshalJSON`: the method is entered again
on those bytes. `depth` is the number of nested calls the stack still admits;
the result is `none` when it is used up before any call has returned. -/
def UnmarshalJSON (c : json.Codec) : Nat → List Nat → Option (Except String Token)
  | 0, _ => none
  | depth + 1, b =>
    match c.scan b with
    | .error err => some (.error err)
    | .ok raw => UnmarshalJSON c depth raw

end Token

/-! ## Ambient inputs and the cache interface -/

/-- What a run reads from its surroundings: `os.ExpandEnv` under the process
environment, the reading of `time.Now()`, and the gob type ids. -/
structure Ambient where
  ExpandEnv : String → String
  Now : Time
  gobIds : gob.TypeIds

/-- Go `strings.HasPrefix`. -/
def HasPrefix (s p : String) : Bool := p.toList.isPrefixOf s.toList

/-- The value an identity field has after the expansion step of `Validate`:
expanded when it begins with `$`, unchanged otherwise. -/
def expanded (w : Ambient) (s : String) : String :=
  if HasPrefix s "$" then w.ExpandEnv s else s

/-- Go `strings.Join`. -/
def Join (ss : List String) (sep : String) : String := sep.intercalate ss

namespace cache

/-- Errors of a cache back-end: the two sentinels and anything else. -/
inductive Error where
  | ErrEntryNotFound
  | ErrEntryTooBig
  | other (msg : String)
deriving DecidableEq, Repr

/-- What one `GetToken` call can observe of a `cache.Cache`: the answer of
`Get` (Go returns the bytes and the error side by side) and the answer of
`Set`. -/
structure Cache where
  Get : String → List Nat × Option Error
  Set : String → List Nat → Option Error

end cache

/-- What a run of the pipeline does besides returning. -/
inductive Event where
  | cacheGet (key : String)
  | cacheSet (key : String) (entry : List Nat)
  | mint
  | log (msg : String)
deriving DecidableEq, Repr

/-- Result of a `GetToken` run, with the events in order. -/
structure Run where
  result : Except String Token
  trace : List Event

/-- Number of invocations of the minting adapter in a trace. -/
def mintCount (tr : List Event) : Nat := tr.count Event.mint

/-- The cache-lookup block of `GetToken` (the same text in the three
providers): `Get`, then decode and expiry check when bytes came back. Returns
the token to return at once, if any, and the events. -/
def lookup (w : Ambient) (cacher : Option cache.Cache) (ck : String) :
    Option Token × List Event :=
  match cacher with
  | none => (none, [])
  | some c =>
    let (bs, err) := c.Get ck
    let tr := [Event.cacheGet ck] ++
      (if err ≠ none ∧ err ≠ some cache.Error.ErrEntryNotFound then
        [Event.log "error retrieving token from cache"] else [])
    if bs.length ≠ 0 then
      match Token.UnmarshalBinary bs with
      | .ok tk =>
        if !tk.Expired w.Now then (some tk, tr)
        else (none, tr)
      | .error _ => (none, tr ++ [Event.log "error unmarshalling cached token"])
    else (none, tr)

/-- The cache-store block of `GetToken` (the same text in the three
providers): encode, and `Set` when the encoding is not empty. -/
def store (w : Ambient) (cacher : Option cache.Cache) (ck : String) (tk : Token) :
    List Event :=
  match cacher with
  | none => []
  | some c =>
    let (bs, tr) : List Nat × List Event :=
      match tk.MarshalBinary w.gobIds with
      | .error _ => ([], [Event.log "error marshaling requested token"])
      | .ok bs => (bs, [])
    if bs.length ≠ 0 then
      tr ++ [Event.cacheSet ck bs] ++
        (if c.Set ck bs ≠ none then [Event.log "error saving token to cache"] else [])
    else tr

/-! ## `pkg/plugins/aws` -/

namespace aws

def Namespace : String := "aws"

structure TokenOptions where
  AccessKeyID : String
  SecretAccessKey : String
  Region : String
  Cluster : String
  AssumeRoleARN : String
deriving DecidableEq, Repr

/-- The state of `TokenOptions.Validate` after the two identity fields: the
options as updated so far, the flag `requiredTenant`, and the error if the
method has already returned. -/
def validateIdentity (w : Ambient) (o : TokenOptions) : TokenOptions × Bool × Option String :=
  let requiredTenant := false
  let (o, requiredTenant) :=
    if HasPrefix o.AccessKeyID "$" then
      ({ o with AccessKeyID := w.ExpandEnv o.AccessKeyID }, true)
    else (o, requiredTenant)
  if o.AccessKeyID = "" then
    if requiredTenant then (o, requiredTenant, some "hosted access key ID is required")
    else (o, requiredTenant, some "access key ID is required")
  else
    let (o, requiredTenant) :=
      if HasPrefix o.SecretAccessKey "$" then
        ({ o with SecretAccessKey := w.ExpandEnv o.SecretAccessKey }, true)
      else (o, requiredTenant)
    if o.SecretAccessKey = "" then
      if requiredTenant then (o, requiredTenant, some "hosted secret access key is required")
      else (o, requiredTenant, some "secret access key is required")
    else (o, requiredTenant, none)

/-- Go `TokenOptions.Validate`: the method has a pointer receiver, so the result
is the record as the method leaves it together with the error (`none` for
nil). -/
def TokenOptions.Validate (w : Ambient) (o : TokenOptions) : TokenOptions × Option String :=
  match validateIdentity w o with
  | (o, _, some err) => (o, some err)
  | (o, requiredTenant, none) =>
    if o.Region = "" then (o, some "region is required")
    else if o.Cluster = "" then (o, some "cluster ID is required")
    else if o.AssumeRoleARN = "" ∧ requiredTenant = true then
      (o, some "assume role ARN is required")
    else (o, none)

/-- Go `TokenOptions.Key`. -/
def TokenOptions.Key (o : TokenOptions) : String :=
  let ss := [Namespace, o.AccessKeyID, o.Region, o.Cluster, o.AssumeRoleARN]
  let ss := if o.AssumeRoleARN = "" then ss.set (ss.length - 1) "self" else ss
  Join ss "_"

/-- Go `GetToken`; `getToken` is the minting adapter. -/
def GetToken (w : Ambient) (getToken : TokenOptions → Except String Token)
    (opts : TokenOptions) (cacher : Option cache.Cache) : Run :=
  match opts.Validate w with
  | (_, some err) => ⟨.error ("invalid options: " ++ err), []⟩
  | (opts, none) =>
    let ck := opts.Key
    match lookup w cacher ck with
    | (some tk, tr) => ⟨.ok tk, tr⟩
    | (none, tr) =>
      match getToken opts with
      | .error err => ⟨.error ("error getting security token: " ++ err), tr ++ [Event.mint]⟩
      | .ok tk => ⟨.ok tk, tr ++ [Event.mint] ++ store w cacher ck tk⟩

end aws

/-! ## `regexp`, restricted to what the Azure resource check needs -/

namespace regexp

/-- Parsed regular expressions: text anchors, a character class given by its
ranges, one-or-more repetition and concatenation. -/
inductive Regexp where
  | beginText
  | endText
  | charClass (ranges : List (Char × Char))
  | plus (r : Regexp)
  | cat (a b : Regexp)
deriving Repr

/-- A position in the subject: whether it is the start of the text, and the
text that remains. -/
abbrev Pos := Bool × List Char

/-- All ways of applying `f` one or more times, at most `fuel` times. -/
def repeat1 (f : Pos → List Pos) : Nat → Pos → List Pos
  | 0, _ => []
  | fuel + 1, p => f p ++ (f p).flatMap (repeat1 f fuel)

/-- The positions at which a match of `r` starting at the given position can
end. -/
def ends : Regexp → Pos → List Pos
  | .beginText, p => if p.1 then [p] else []
  | .endText, p => if p.2.isEmpty then [p] else []
  | .charClass ranges, p =>
    match p.2 with
    | [] => []
    | c :: rest => if ranges.any (fun r => r.1 ≤ c ∧ c ≤ r.2) then [(false, rest)] else []
  | .plus r, p => repeat1 (ends r) (p.2.length + 1) p
  | .cat a b, p => (ends a p).flatMap (ends b)

/-- Whether a match starts at some position of the subject. -/
def searchFrom (r : Regexp) (atStart : Bool) : List Char → Bool
  | [] => !(ends r (atStart, [])).isEmpty
  | c :: rest => !(ends r (atStart, c :: rest)).isEmpty || searchFrom r false rest

/-- Go `regexp.MatchString` on a parsed pattern: the pattern matches some
substring. -/
def MatchString (r : Regexp) (s : String) : Bool := searchFrom r true s.toList

end regexp

/-! ## `pkg/plugins/azure` -/

namespace azure

def Namespace : String := "azure"

structure TokenOptions where
  ClientID : String
  ClientSecret : String
  Tenant : String
  Resource : String
deriving DecidableEq, Repr

/-- The pattern `^[0-9a-zA-Z-.:/]+$` as the library parses it: after the three
ranges the characters `-`, `.`, `:` and `/` stand for themselves. -/
def resourcePattern : regexp.Regexp :=
  .cat .beginText
    (.cat (.plus (.charClass [('0', '9'), ('a', 'z'), ('A', 'Z'), ('-', '-'), ('.', '.'),
      (':', ':'), ('/', '/')])) .endText)

/-- The state of `TokenOptions.Validate` after the two identity fields. -/
def validateIdentity (w : Ambient) (o : TokenOptions) : TokenOptions × Bool × Option String :=
  let requiredTenant := false
  let (o, requiredTenant) :=
    if HasPrefix o.ClientID "$" then
      ({ o with ClientID := w.ExpandEnv o.ClientID }, true)
    else (o, requiredTenant)
  if o.ClientID = "" then
    if requiredTenant then (o, requiredTenant, some "hosted client ID is required")
    else (o, requiredTenant, some "client ID is required")
  else
    let (o, requiredTenant) :=
      if HasPrefix o.ClientSecret "$" then
        ({ o with ClientSecret := w.ExpandEnv o.ClientSecret }, true)
      else (o, requiredTenant)
    if o.ClientSecret = "" then
      if requiredTenant then (o, requiredTenant, some "hosted client secret is required")
      else (o, requiredTenant, some "client secret is required")
    else (o, requiredTenant, none)

/-- Go `TokenOptions.Validate`. -/
def TokenOptions.Validate (w : Ambient) (o : TokenOptions) : TokenOptions × Option String :=
  match validateIdentity w o with
  | (o, _, some err) => (o, some err)
  | (o, _, none) =>
    if o.Tenant = "" then (o, some "tenant is required")
    else if o.Resource = "" then (o, some "resource is required")
    else if !regexp.MatchString resourcePattern o.Resource then
      (o, some "resource ID must be alphanumeric and contain only '.', ';', '-', and '/' characters")
    else (o, none)

/-- Go `TokenOptions.Key`. -/
def TokenOptions.Key (o : TokenOptions) : String :=
  let ss := [Namespace, o.ClientID, o.Tenant, o.Resource]
  Join ss "_"

/-- Go `GetToken`; `getToken` is the minting adapter. -/
def GetToken (w : Ambient) (getToken : TokenOptions → Except String Token)
    (opts : TokenOptions) (cacher : Option cache.Cache) : Run :=
  match opts.Validate w with
  | (_, some err) => ⟨.error ("invalid options: " ++ err), []⟩
  | (opts, none) =>
    let ck := opts.Key
    match lookup w cacher ck with
    | (some tk, tr) => ⟨.ok tk, tr⟩
    | (none, tr) =>
      match getToken opts with
      | .error err => ⟨.error ("error getting credential token: " ++ err), tr ++ [Event.mint]⟩
      | .ok tk => ⟨.ok tk, tr ++ [Event.mint] ++ store w cacher ck tk⟩

end azure

/-! ## `pkg/plugins/gcp` -/

namespace gcp

def Namespace : String := "gcp"

structure TokenOptions where
  ClientID : String
  ClientSecret : String
  Region : String
  Cluster : String
deriving DecidableEq, Repr

/-- The state of `TokenOptions.Validate` after the two identity fields. -/
def validateIdentity (w : Ambient) (o : TokenOptions) : TokenOptions × Bool × Option String :=
  let requiredTenant := false
  let (o, requiredTenant) :=
    if HasPrefix o.ClientID "$" then
      ({ o with ClientID := w.ExpandEnv o.ClientID }, true)
    else (o, requiredTenant)
  if o.ClientID = "" then
    if requiredTenant then (o, requiredTenant, some "hosted client ID is required")
    else (o, requiredTenant, some "client ID is required")
  else
    let (o, requiredTenant) :=
      if HasPrefix o.ClientSecret "$" then
        ({ o with ClientSecret := w.ExpandEnv o.ClientSecret }, true)
      else (o, requiredTenant)
    if o.ClientSecret = "" then
      if requiredTenant then (o, requiredTenant, some "hosted client secret is required")
      else (o, requiredTenant, some "client secret is required")
    else (o, requiredTenant, none)

/-- Go `TokenOptions.Validate`. -/
def TokenOptions.Validate (w : Ambient) (o : TokenOptions) : TokenOptions × Option String :=
  match validateIdentity w o with
  | (o, _, some err) => (o, some err)
  | (o, _, none) =>
    if o.Region = "" then (o, some "region is required")
    else if o.Cluster = "" then (o, some "cluster is required")
    else (o, none)

/-- Go `TokenOptions.Key`. -/
def TokenOptions.Key (o : TokenOptions) : String :=
  let ss := [Namespace, o.ClientID, o.Region, o.Cluster]
  Join ss "_"

/-- Go `GetToken`; `getToken` is the minting adapter. -/
def GetToken (w : Ambient) (getToken : TokenOptions → Except String Token)
    (opts : TokenOptions) (cacher : Option cache.Cache) : Run :=
  match opts.Validate w with
  | (_, some err) => ⟨.error ("invalid options: " ++ err), []⟩
  | (opts, none) =>
    let ck := opts.Key
    match lookup w cacher ck with
    | (some tk, tr) => ⟨.ok tk, tr⟩
    | (none, tr) =>
      match getToken opts with
      | .error err => ⟨.error ("error getting credential token: " ++ err), tr ++ [Event.mint]⟩
      | .ok tk => ⟨.ok tk, tr ++ [Event.mint] ++ store w cacher ck tk⟩

end gcp

/-! ## Vocabulary for statements about the pipeline -/

/-- The common shape of the three `GetToken` bodies once `Validate` has
passed: `ck` is the cache key, `m` what the minting adapter returns if it is
invoked, `errPrefix` the provider's wrapping of a minting error. -/
def pipeline (w : Ambient) (errPrefix : String) (cacher : Option cache.Cache) (ck : String)
    (m : Except String Token) : Run :=
  match lookup w cacher ck with
  | (some tk, tr) => ⟨.ok tk, tr⟩
  | (none, tr) =>
    match m with
    | .error err => ⟨.error (errPrefix ++ err), tr ++ [Event.mint]⟩
    | .ok tk => ⟨.ok tk, tr ++ [Event.mint] ++ store w cacher ck tk⟩

/-- Holds when `run` is the run of one provider's `GetToken` on options that pass
`Validate`; `key` is the cache key of the validated options and `m` the answer
of the minting adapter on them. -/
def IsValidRun (w : Ambient) (cacher : Option cache.Cache) (key : String)
    (m : Except String Token) (run : Run) : Prop :=
  (∃ (getToken : aws.TokenOptions → Except String Token) (opts : aws.TokenOptions),
    (opts.Validate w).2 = none ∧ key = (opts.Validate w).1.Key ∧
      m = getToken (opts.Validate w).1 ∧ run = aws.GetToken w getToken opts cacher) ∨
  (∃ (getToken : azure.TokenOptions → Except String Token) (opts : azure.TokenOptions),
    (opts.Validate w).2 = none ∧ key = (opts.Validate w).1.Key ∧
      m = getToken (opts.Validate w).1 ∧ run = azure.GetToken w getToken opts cacher) ∨
  (∃ (getToken : gcp.TokenOptions → Except String Token) (opts : gcp.TokenOptions),
    (opts.Validate w).2 = none ∧ key = (opts.Validate w).1.Key ∧
      m = getToken (opts.Validate w).1 ∧ run = gcp.GetToken w getToken opts cacher)

/-- The entry a working cache holds under `key` after the writes of a trace,
`before` being what it held before them. -/
def storedEntry (key : String) (before : List Nat) : List Event → List Nat
  | [] => before
  | Event.cacheSet k entry :: tr => storedEntry key (if k = key then entry else before) tr
  | _ :: tr => storedEntry key before tr

/-! ## A concrete two-call scenario

Inputs for evaluating two consecutive AWS `GetToken` calls: the clock readings
are 14 minutes 30 seconds apart, the adapter answers as `getToken` does on a
successful presign (expiration 15 minutes minus 1 minute after the call), and
the second call finds in the cache what the first one stored. -/

namespace scenario

def opts : aws.TokenOptions := ⟨"AKIA", "secret", "us-east-1", "c1", ""⟩

def key : String := "aws_AKIA_us-east-1_c1_self"

def firstCall : Ambient := ⟨fun s => s, ⟨63900000000, 0, none⟩, ⟨65, 66⟩⟩

def secondCall : Ambient := ⟨fun s => s, ⟨63900000870, 0, none⟩, ⟨65, 66⟩⟩

/-- The answer of the AWS adapter at clock reading `now` when presigning
yields a token value `value`, on a host whose zone is at offset 0:
`time.Now().Local().Add(presignedURLExpiration - 1*time.Minute)`. -/
def minted (now : Time) (value : List Nat) : aws.TokenOptions → Except String Token :=
  fun _ => .ok ⟨(now.Local 0).Add (15 * Time.Minute - 1 * Time.Minute), value⟩

/-- A cache holding nothing. -/
def emptyCache : cache.Cache :=
  ⟨fun _ => ([], some cache.Error.ErrEntryNotFound), fun _ _ => none⟩

/-- A cache holding `entry` under `k`. -/
def cacheHolding (k : String) (entry : List Nat) : cache.Cache :=
  ⟨fun k' => if k' = k then (entry, none) else ([], some cache.Error.ErrEntryNotFound),
    fun _ _ => none⟩

def firstRun : Run := aws.GetToken firstCall (minted firstCall.Now [107, 56, 115, 1]) opts
  (some emptyCache)

def secondRun : Run := aws.GetToken secondCall (minted secondCall.Now [107, 56, 115, 2]) opts
  (some (cacheHolding key (storedEntry key [] firstRun.trace)))

/-- A second call one minute after the first, while the first token is still
valid. -/
def soonCall : Ambient := ⟨fun s => s, ⟨63900000060, 0, none⟩, ⟨65, 66⟩⟩

def soonRun : Run := aws.GetToken soonCall (minted soonCall.Now [107, 56, 115, 2]) opts
  (some (cacheHolding key (storedEntry key [] firstRun.trace)))

/-- The bytes of `{"expiration":"0001-01-01T00:00:00Z","value":""}`, the JSON
form of the zero token. -/
def zeroTokenJSON : List Nat :=
  [123, 34, 101, 120, 112, 105, 114, 97, 116, 105, 111, 110, 34, 58, 34, 48,
    48, 48, 49, 45, 48, 49, 45, 48, 49, 84, 48, 48, 58, 48, 48, 58, 48, 48, 90, 34, 44,
    34, 118, 97, 108, 117, 101, 34, 58, 34, 34, 125]

/-- A codec on the zero token: the encoder appends a newline to the JSON
form, the scanner drops line feeds. -/
def zeroTokenCodec : json.Codec :=
  ⟨fun _ => .ok (zeroTokenJSON ++ [10]),
    fun b => if b = [] then .error "EOF" else .ok (b.filter (fun x => x ≠ 10))⟩

end scenario

/-! ## `strings` and `path`, as far as routing and the caches use them -/

/-- The UTF-8 bytes of a character. -/
def utf8Char (c : Char) : List Nat :=
  let n := c.toNat
  if n < 0x80 then [n]
  else if n < 0x800 then [0xC0 + n / 64, 0x80 + n % 64]
  else if n < 0x10000 then [0xE0 + n / 4096, 0x80 + n / 64 % 64, 0x80 + n % 64]
  else [0xF0 + n / 262144, 0x80 + n / 4096 % 64, 0x80 + n / 64 % 64, 0x80 + n % 64]

/-- The bytes of a Go string holding the text `s`. -/
def utf8 (s : String) : List Nat := s.toList.flatMap utf8Char

/-- The segments of a text between its `/` separators; a text without `/` is
its own single segment. -/
def splitSlash : List Char → List (List Char)
  | [] => [[]]
  | c :: cs =>
    if c = '/' then [] :: splitSlash cs
    else
      match splitSlash cs with
      | [] => [[c]]
      | seg :: segs => (c :: seg) :: segs

/-- Segments joined by `/`. -/
def joinSlash : List (List Char) → List Char
  | [] => []
  | [seg] => seg
  | seg :: segs => seg ++ '/' :: joinSlash segs

/-- Go `strings.SplitN(s, "/", n)` for `n ≥ 0`: at most `n` pieces, the last
one being the unsplit remainder. -/
def SplitN (s : List Char) : Nat → List (List Char)
  | 0 => []
  | 1 => [s]
  | n + 2 =>
    match s.span (fun c => c ≠ '/') with
    | (_, []) => [s]
    | (before, _ :: after) => before :: SplitN after (n + 1)

namespace path

/-- One step of `path.Clean` on the segments kept so far (last one first):
empty and `.` segments are dropped; `..` removes the last kept segment when
there is one that is not itself `..`, is kept in a path that is not rooted, and
is dropped at the root; any other segment is kept. -/
def cleanStep (rooted : Bool) (kept : List (List Char)) (seg : List Char) :
    List (List Char) :=
  if seg = [] ∨ seg = ['.'] then kept
  else if seg = ['.', '.'] then
    match kept with
    | [] => if rooted then [] else [seg]
    | top :: below => if top = ['.', '.'] then seg :: top :: below else below
  else seg :: kept

/-- Go `path.Clean`, segment by segment. -/
def Clean (p : String) : String :=
  if p = "" then "."
  else
    let rooted := p.toList.head? = some '/'
    let kept := ((splitSlash p.toList).foldl (cleanStep rooted) []).reverse
    if rooted then String.mk ('/' :: joinSlash kept)
    else if kept = [] then "."
    else String.mk (joinSlash kept)

/-- The buffer `path.Join` builds before cleaning: the elements separated by
`/`, leading empty elements skipped. -/
def joinBuf : List Char → List String → List Char
  | buf, [] => buf
  | buf, e :: elem =>
    if buf.length > 0 ∨ e ≠ "" then
      joinBuf ((if buf.length > 0 then buf ++ ['/'] else buf) ++ e.toList) elem
    else joinBuf buf elem

/-- Go `path.Join` (and `filepath.Join` on a Unix host). -/
def Join (elem : List String) : String :=
  if (elem.map String.length).sum = 0 then ""
  else Clean (String.mk (joinBuf [] elem))

end path

/-! ## `pkg/apis`: routes -/

namespace apis

/-- Go `RoutePrefix`. -/
def RoutePrefix (namespace_ : String) : String :=
  path.Join ["/", namespace_] ++ "/"

/-- Go `Route`. -/
def Route (namespace_ : String) (paths : List String) : String :=
  let ps := ["http", ".", namespace_]
  let ps := ps ++ paths
  path.Join ps

end apis

/-! ## The exec-credential form of the token -/

namespace clientauth

/-- The Go struct `clientauth.ExecCredentialStatus`, with the two fields the
token code fills; the certificate fields stay empty. -/
structure ExecCredentialStatus where
  ExpirationTimestamp : Option Time
  Token : List Nat
deriving DecidableEq, Repr

/-- The Go struct `clientauth.ExecCredential`, with its type meta inlined and
the zero `Spec` left out. -/
structure ExecCredential where
  APIVersion : String
  Kind : String
  Status : Option ExecCredentialStatus
deriving DecidableEq, Repr

/-- Go `SchemeGroupVersion.String()`: the group and the version joined by
`/`. -/
def SchemeGroupVersion : String := "client.authentication.k8s.io" ++ "/" ++ "v1"

end clientauth

namespace Token

/-- Go `Token.ToKubeClientExecCredential`. -/
def ToKubeClientExecCredential (t : Token) : clientauth.ExecCredential :=
  { APIVersion := clientauth.SchemeGroupVersion
    Kind := "ExecCredential"
    Status := some
      { ExpirationTimestamp := some t.Expiration
        Token := t.Value } }

/-- Go `Token.ToKubeClientExecCredentialJSON`; `marshal` is `json.Marshal` of
the package that is not among the sources. -/
def ToKubeClientExecCredentialJSON
    (marshal : clientauth.ExecCredential → Except String (List Nat)) (t : Token) :
    Except String (List Nat) :=
  marshal t.ToKubeClientExecCredential

end Token

/-! ## The provider handlers of the daemon -/

namespace http

/-- What a handler reads of a request: the method, the answer of
`r.BasicAuth()`, the path left by `http.StripPrefix`, and the value of the
header `X-KubeCIA-DeCapsuled`. -/
structure Request where
  Method : String
  BasicAuth : Option (String × String)
  Path : String
  DeCapsuled : String
deriving DecidableEq, Repr

/-- What a handler writes: status, content type and body. -/
structure Response where
  Status : Nat
  ContentType : String
  Body : List Nat
deriving DecidableEq, Repr

def StatusOK : Nat := 200
def StatusBadRequest : Nat := 400
def StatusUnauthorized : Nat := 401
def StatusMethodNotAllowed : Nat := 405
def StatusInternalServerError : Nat := 500

/-- Go `http.StatusText`, for the codes the handlers use. -/
def StatusText (code : Nat) : String :=
  if code = 400 then "Bad Request"
  else if code = 401 then "Unauthorized"
  else if code = 405 then "Method Not Allowed"
  else if code = 500 then "Internal Server Error"
  else ""

/-- Go `http.Error`: a plain-text reply with the message and a newline. -/
def Error (error : String) (code : Nat) : Response :=
  ⟨code, "text/plain; charset=utf-8", utf8 (error ++ "\n")⟩

end http

/-- What the daemon hands to a handler: the ambient inputs, the shared cache,
and the JSON encoders of the package that is not among the sources. -/
structure ServeOptions where
  w : Ambient
  Cache : Option cache.Cache
  codec : json.Codec
  marshal : clientauth.ExecCredential → Except String (List Nat)

/-- Result of serving one request: the reply, and the run of the token
pipeline when the handler got as far as calling `GetToken`. -/
structure Served where
  response : http.Response
  run : Option Run

/-- The response-shaping block of `ServeHTTP` (the same text in the three
providers): the raw token JSON when the header is `true`, the exec-credential
JSON otherwise; an encoding error is answered with 500. -/
def respond (s : ServeOptions) (r : http.Request) (tk : Token) : http.Response :=
  let res :=
    if r.DeCapsuled = "true" then tk.MarshalJSON s.codec
    else tk.ToKubeClientExecCredentialJSON s.marshal
  match res with
  | .error err => http.Error err http.StatusInternalServerError
  | .ok bs => ⟨http.StatusOK, "application/json", bs⟩

namespace aws

/-- The path block of `ServeHTTP`, `{region}/{cluster}[/{assume-role-arn}]`:
fills the fields of `o` from the pieces of the path, or gives `none` when there
are fewer than two pieces. -/
def parsePath (o : TokenOptions) (Path : String) : Option TokenOptions :=
  let paths := SplitN Path.toList 3
  if paths.length < 2 then none
  else
    let o := { o with Region := String.mk (paths.getD 0 []) }
    let o := { o with Cluster := String.mk (paths.getD 1 []) }
    if paths.length = 3 then some { o with AssumeRoleARN := String.mk (paths.getD 2 []) }
    else some o

/-- Go `apiServer.ServeHTTP` of the AWS plug-in. -/
def ServeHTTP (s : ServeOptions) (getToken : TokenOptions → Except String Token)
    (r : http.Request) : Served :=
  if r.Method ≠ "GET" then
    ⟨http.Error (http.StatusText http.StatusMethodNotAllowed) http.StatusMethodNotAllowed, none⟩
  else
    match r.BasicAuth with
    | none =>
      ⟨http.Error (http.StatusText http.StatusUnauthorized) http.StatusUnauthorized, none⟩
    | some (username, password) =>
      let o : TokenOptions := ⟨username, password, "", "", ""⟩
      match parsePath o r.Path with
      | none =>
        ⟨http.Error (http.StatusText http.StatusBadRequest) http.StatusBadRequest, none⟩
      | some o =>
        let run := GetToken s.w getToken o s.Cache
        match run.result with
        | .error err => ⟨http.Error err http.StatusInternalServerError, some run⟩
        | .ok tk => ⟨respond s r tk, some run⟩

end aws

namespace azure

/-- The path block of `ServeHTTP`, `{tenant}/{resource}`: fills the fields of
`o` from the two pieces of the path, or gives `none` when there is one. -/
def parsePath (o : TokenOptions) (Path : String) : Option TokenOptions :=
  let paths := SplitN Path.toList 2
  if paths.length < 2 then none
  else
    let o := { o with Tenant := String.mk (paths.getD 0 []) }
    some { o with Resource := String.mk (paths.getD 1 []) }

/-- Go `apiServer.ServeHTTP` of the Azure plug-in. -/
def ServeHTTP (s : ServeOptions) (getToken : TokenOptions → Except String Token)
    (r : http.Request) : Served :=
  if r.Method ≠ "GET" then
    ⟨http.Error (http.StatusText http.StatusMethodNotAllowed) http.StatusMethodNotAllowed, none⟩
  else
    match r.BasicAuth with
    | none =>
      ⟨http.Error (http.StatusText http.StatusUnauthorized) http.StatusUnauthorized, none⟩
    | some (username, password) =>
      let o : TokenOptions := ⟨username, password, "", ""⟩
      match parsePath o r.Path with
      | none =>
        ⟨http.Error (http.StatusText http.StatusBadRequest) http.StatusBadRequest, none⟩
      | some o =>
        let run := GetToken s.w getToken o s.Cache
        match run.result with
        | .error err => ⟨http.Error err http.StatusInternalServerError, some run⟩
        | .ok tk => ⟨respond s r tk, some run⟩

end azure

namespace gcp

/-- The path block of `ServeHTTP`, `{region}/{cluster}`: fills the fields of
`o` from the two pieces of the path, or gives `none` when there is one. -/
def parsePath (o : TokenOptions) (Path : String) : Option TokenOptions :=
  let paths := SplitN Path.toList 2
  if paths.length < 2 then none
  else
    let o := { o with Region := String.mk (paths.getD 0 []) }
    some { o with Cluster := String.mk (paths.getD 1 []) }

/-- Go `apiServer.ServeHTTP` of the GCP plug-in. -/
def ServeHTTP (s : ServeOptions) (getToken : TokenOptions → Except String Token)
    (r : http.Request) : Served :=
  if r.Method ≠ "GET" then
    ⟨http.Error (http.StatusText http.StatusMethodNotAllowed) http.StatusMethodNotAllowed, none⟩
  else
    match r.BasicAuth with
    | none =>
      ⟨http.Error (http.StatusText http.StatusUnauthorized) http.StatusUnauthorized, none⟩
    | some (username, password) =>
      let o : TokenOptions := ⟨username, password, "", ""⟩
      match parsePath o r.Path with
      | none =>
        ⟨http.Error (http.StatusText http.StatusBadRequest) http.StatusBadRequest, none⟩
      | some o =>
        let run := GetToken s.w getToken o s.Cache
        match run.result with
        | .error err => ⟨http.Error err http.StatusInternalServerError, some run⟩
        | .ok tk => ⟨respond s r tk, some run⟩

end gcp

/-! ## The client side: delegate to the daemon, or work in process -/

/-- Whether a text contains `//`. -/
def hasDoubleSlash : List Char → Bool
  | [] => false
  | c :: rest => (c == '/' && rest.head? == some '/') || hasDoubleSlash rest

namespace url

/-- The scan of Go `getScheme` of `net/url`, with the characters read so far
(last one first): letters go on, a digit, `+`, `-` or `.` goes on except at the
start, a `:` ends the scheme and is an error at the start, anything else
means there is no scheme. -/
def getSchemeAux : List Char → List Char → Option (List Char)
  | [], _ => some []
  | c :: rest, seen =>
    if c.isAlpha then getSchemeAux rest (c :: seen)
    else if c.isDigit ∨ c = '+' ∨ c = '-' ∨ c = '.' then
      if seen = [] then some [] else getSchemeAux rest (c :: seen)
    else if c = ':' then
      if seen = [] then none else some seen.reverse
    else some []

/-- Go `getScheme` of `net/url`, followed by the lower-casing `Parse` applies:
the scheme of a URL text, empty when it has none, `none` for the error
`missing protocol scheme`. -/
def getScheme (rawURL : String) : Option String :=
  (getSchemeAux rawURL.toList []).map (fun cs => String.mk (cs.map Char.toLower))

end url

namespace client

/-- Errors a client call returns: a `remoteCallError`, or any other error. -/
inductive Error where
  | remoteCall (msg : String)
  | other (msg : String)
deriving DecidableEq, Repr

/-- What happens to the request for a URL: it cannot be created, sending it
fails, or a response arrives with its status code, status line and the result
of reading its body. -/
inductive Exchange where
  | requestFailed (err : String)
  | doFailed (err : String)
  | responded (StatusCode : Nat) (Status : String) (body : Except String (List Nat))
deriving Repr

/-- What a client call meets: whether the socket path stats as a socket, what
becomes of a request the transport sends for a URL (or the refusal of a URL
text that cannot be parsed), the content of the buffer handed out by
`bytespool.GetBuffer`, the JSON codec with the nesting depth its stack
admits, and the answer of the in-process pipeline (`cli.getToken`). -/
structure World where
  isSocket : Bool
  exchange : String → Exchange
  buffer : List Nat
  codec : json.Codec
  depth : Nat
  getToken : Except String Token

/-- Result of `Client.GetToken`: what it returns (`none` when the call never
returns), and whether the in-process pipeline was run. -/
structure Outcome where
  result : Option (Except Error Token)
  ranLocally : Bool

/-- What `httpc.Do` of `apis.Client` answers for a URL without authority. A URL
text without `//` has no authority, so the URL parsed from it has an empty
host, and `Transport.RoundTrip` sends nothing: it refuses a scheme other than
`http` and `https`, and an `http` URL without host. -/
def refusal (rawURL : String) : Exchange :=
  match url.getScheme rawURL with
  | none => .requestFailed ("parse \"" ++ rawURL ++ "\": missing protocol scheme")
  | some scheme =>
    if scheme = "http" ∨ scheme = "https" then
      .doFailed ("Get \"" ++ rawURL ++ "\": http: no Host in request URL")
    else
      .doFailed ("Get \"" ++ rawURL ++ "\": unsupported protocol scheme \"" ++ scheme ++ "\"")

/-- The exchange a client has for a URL text through `http.NewRequestWithContext`
and the transport of `apis.Client`: a text with `//` gets what the world holds
for it; a text without is refused before anything is sent, at the creation of
the request when the world holds that the text does not parse, by the
transport otherwise. -/
def transport (e : World) (url : String) : Exchange :=
  if hasDoubleSlash url.toList then e.exchange url
  else
    match e.exchange url with
    | .requestFailed err => .requestFailed err
    | _ => refusal url

/-- The body of `Client.GetTokenByHTTP` after the URL has been built (the same
text in the providers). -/
def getTokenByURL (e : World) (url : String) : Option (Except Error Token) :=
  match transport e url with
  | .requestFailed err =>
    some (.error (.remoteCall ("error creating remote request: " ++ err)))
  | .doFailed err =>
    some (.error (.remoteCall ("error making remote request: " ++ err)))
  | .responded StatusCode Status body =>
    if StatusCode ≠ http.StatusOK then
      some (.error (.other ("error response from remote: " ++ Status)))
    else
      match body with
      | .error err => some (.error (.other ("error copying response body: " ++ err)))
      | .ok bytes =>
        match Token.UnmarshalJSON e.codec e.depth (e.buffer ++ bytes) with
        | none => none
        | some (.error err) =>
          some (.error (.other ("error unmarshalling requested token: " ++ err)))
        | some (.ok tk) => some (.ok tk)

/-- The body of `Client.GetToken` once the delegate call is fixed (the same
text in the providers): the daemon first when the socket is there, the
in-process pipeline when it is not or when the delegate call failed with a
`remoteCallError`. -/
def getTokenWith (e : World) (byHTTP : Option (Except Error Token)) : Outcome :=
  let locally : Outcome :=
    match e.getToken with
    | .ok tk => ⟨some (.ok tk), true⟩
    | .error err => ⟨some (.error (.other ("error getting token locally: " ++ err))), true⟩
  if e.isSocket then
    match byHTTP with
    | none => ⟨none, false⟩
    | some (.ok tk) => ⟨some (.ok tk), false⟩
    | some (.error (.other msg)) => ⟨some (.error (.other msg)), false⟩
    | some (.error (.remoteCall _)) => locally
  else locally

end client

namespace aws

/-- The Go struct `aws.Client`. -/
structure Client where
  Socket : String
  AccessKeyID : String
  SecretAccessKey : String
  Region : String
  Cluster : String
  AssumeRoleARN : String
deriving DecidableEq, Repr

/-- Go `Client.GetTokenByHTTP` of the AWS plug-in. -/
def Client.GetTokenByHTTP (cli : Client) (e : client.World) :
    Option (Except client.Error Token) :=
  let url := apis.Route Namespace [cli.Region, cli.Cluster, cli.AssumeRoleARN]
  client.getTokenByURL e url

/-- Go `Client.GetToken` of the AWS plug-in. -/
def Client.GetToken (cli : Client) (e : client.World) : client.Outcome :=
  client.getTokenWith e (cli.GetTokenByHTTP e)

end aws

namespace gcp

/-- The Go struct `gcp.Client`. -/
structure Client where
  Socket : String
  ClientID : String
  ClientSecret : String
  Region : String
  Cluster : String
deriving DecidableEq, Repr

/-- Go `Client.GetTokenByHTTP` of the GCP plug-in. -/
def Client.GetTokenByHTTP (cli : Client) (e : client.World) :
    Option (Except client.Error Token) :=
  let url := apis.Route Namespace [cli.Region, cli.Cluster]
  client.getTokenByURL e url

/-- Go `Client.GetToken` of the GCP plug-in. -/
def Client.GetToken (cli : Client) (e : client.World) : client.Outcome :=
  client.getTokenWith e (cli.GetTokenByHTTP e)

end gcp

/-! ## Vocabulary for statements about the handlers -/

/-- Holds when `served` is what one provider's handler makes of the request
`r`. -/
def IsServed (s : ServeOptions) (r : http.Request) (served : Served) : Prop :=
  (∃ getToken : aws.TokenOptions → Except String Token, served = aws.ServeHTTP s getToken r) ∨
  (∃ getToken : azure.TokenOptions → Except String Token,
    served = azure.ServeHTTP s getToken r) ∨
  (∃ getToken : gcp.TokenOptions → Except String Token, served = gcp.ServeHTTP s getToken r)

/-- The text before the first `/`. -/
def beforeSlash (s : List Char) : List Char := s.takeWhile (fun c => c ≠ '/')

/-- The text after the first `/`. -/
def afterSlash (s : List Char) : List Char := (s.dropWhile (fun c => c ≠ '/')).drop 1

/-! ## Concrete requests -/

namespace scenario

/-- The daemon side of the scenario: the clock of the first call, an empty
cache, the codec of the zero token and an exec-credential encoder that always
yields `{}`. -/
def serveOptions : ServeOptions :=
  ⟨firstCall, some emptyCache, zeroTokenCodec, fun _ => .ok [123, 125]⟩

/-- A well-formed AWS request asking for the raw token. -/
def goodRequest : http.Request :=
  ⟨"GET", some ("AKIA", "secret"), "us-east-1/c1", "true"⟩

end scenario

/-! ## `pkg/cache`: the filesystem cache -/

/-- Go `unicode.IsSpace`. -/
def isSpace (c : Char) : Bool :=
  let n := c.toNat
  (9 ≤ n && n ≤ 13) || n == 32 || n == 0x85 || n == 0xA0 || n == 0x1680 ||
    (0x2000 ≤ n && n ≤ 0x200A) || n == 0x2028 || n == 0x2029 || n == 0x202F ||
    n == 0x205F || n == 0x3000

/-- Go `strings.TrimSpace`. -/
def TrimSpace (s : String) : String :=
  String.mk ((s.toList.dropWhile isSpace).reverse.dropWhile isSpace).reverse

/-- The decimal digit `d` as a character. -/
def digitChar (d : Nat) : Char := Char.ofNat (48 + d)

/-- The digits of `x`, most significant first, in front of `acc`; `fuel` bounds
the number of digits. -/
def formatUintAux : Nat → Nat → List Char → List Char
  | 0, _, acc => acc
  | fuel + 1, x, acc =>
    if x < 10 then digitChar x :: acc
    else formatUintAux fuel (x / 10) (digitChar (x % 10) :: acc)

/-- Go `strconv.FormatUint(x, 10)` for a `uint64`, which has at most 20
digits. -/
def FormatUint (x : Nat) : String := String.mk (formatUintAux 20 x [])

/-- Go `fnv.New64a`, `Write` and `Sum64`: the 64-bit FNV-1a hash of a byte
string. -/
def fnv1a64 (bs : List Nat) : Nat :=
  bs.foldl (fun h b => (h ^^^ b) * 1099511628211 % 2 ^ 64) 14695981039346656037

namespace path

/-- Go `path.Dir` (and `filepath.Dir` on a Unix host): the path up to its last
`/`, cleaned. -/
def Dir (p : String) : String :=
  Clean (String.mk (p.toList.reverse.dropWhile (fun c => c ≠ '/')).reverse)

end path

namespace afero

/-- Errors of a file operation, as far as the cache tells them apart. -/
inductive Error where
  | notExist
  | exist
  | shortWrite
  | other (msg : String)
deriving DecidableEq, Repr

/-- The text of a file error. -/
def Error.text : Error → String
  | .notExist => "file does not exist"
  | .exist => "file already exists"
  | .shortWrite => "short write"
  | .other msg => msg

/-- A regular file: its content and its modification time. -/
structure File where
  data : List Nat
  modTime : Time
deriving DecidableEq, Repr

/-- The regular files under the data directory, by cleaned path. Directories
are implicit and every operation on the store succeeds unless the file it
needs is absent: permissions, full disks, a file standing where a directory is
needed and the timestamp granularity of the host are left out. -/
abbrev Fs := String → Option File

/-- Go `Fs.MkdirAll`. -/
def MkdirAll (fs : Fs) (_dir : String) : Fs × Option Error := (fs, none)

/-- Go `afero.WriteFile` at clock reading `now`: creates or truncates the
file. -/
def WriteFile (fs : Fs) (now : Time) (name : String) (data : List Nat) : Fs × Option Error :=
  (fun p => if p = name then some ⟨data, now⟩ else fs p, none)

/-- Go `Fs.Chtimes`, of which the modification time is kept. -/
def Chtimes (fs : Fs) (name : String) (mtime : Time) : Fs × Option Error :=
  match fs name with
  | none => (fs, some .notExist)
  | some f => (fun p => if p = name then some { f with modTime := mtime } else fs p, none)

/-- Go `afero.ReadFile`. -/
def ReadFile (fs : Fs) (name : String) : Except Error (List Nat) :=
  match fs name with
  | none => .error .notExist
  | some f => .ok f.data

/-- Go `Fs.Remove`. -/
def Remove (fs : Fs) (name : String) : Fs × Option Error :=
  match fs name with
  | none => (fs, some .notExist)
  | some _ => (fun p => if p = name then none else fs p, none)

/-- Go `Fs.Stat`, of which `ModTime()` is kept. -/
def Stat (fs : Fs) (name : String) : Except Error Time :=
  match fs name with
  | none => .error .notExist
  | some f => .ok f.modTime

end afero

namespace cache

/-- The Go struct `FileConfig`; `EntryMaxAge` is a duration in nanoseconds. -/
structure FileConfig where
  Namespace : String
  EntryMaxAge : Int
  LazyEntryEviction : Bool
  Buckets : Int
deriving DecidableEq, Repr

/-- Go `FileConfig.Default`. -/
def FileConfig.Default (c : FileConfig) : FileConfig :=
  let c := { c with Namespace := TrimSpace c.Namespace }
  let c := if c.EntryMaxAge = 0 then { c with EntryMaxAge := 15 * Time.Minute } else c
  if c.Buckets = 0 then { c with Buckets := 12 } else c

/-- Go `FileConfig.Validate`. -/
def FileConfig.Validate (c : FileConfig) : Option String :=
  if c.EntryMaxAge < 0 then some "invalid entry max age: negative"
  else if c.Buckets < 0 then some "invalid buckets: negative"
  else none

/-- The Go struct `fileCache`: the bucket count (a `uint64`), the namespace,
the entry lifetime in nanoseconds and the eviction mode. The store it works on
is passed to each operation. -/
structure fileCache where
  bucket : Nat
  namespace_ : String
  expiration : Int
  lazyEvict : Bool
deriving DecidableEq, Repr

/-- Go `NewFileWithConfig`, as far as the cache value goes: default, validate,
and fill in the fields. -/
def NewFileWithConfig (cfg : FileConfig) : Except String fileCache :=
  let cfg := cfg.Default
  match cfg.Validate with
  | some err => .error err
  | none =>
    .ok ⟨(cfg.Buckets % 2 ^ 64).toNat, cfg.Namespace, cfg.EntryMaxAge, cfg.LazyEntryEviction⟩

/-- Go `NewFile`. -/
def NewFile : Except String fileCache := NewFileWithConfig ⟨"", 0, false, 0⟩

/-- The Go constant `pathSep` on a Unix host. -/
def pathSep : String := "/"

/-- Go `fileCache.wrapKey`. The cache is built with a bucket count of at least
one; Go panics on a zero count, where this definition yields the hash
itself. -/
def fileCache.wrapKey (c : fileCache) (s : String) : String :=
  let r := path.Join [pathSep, c.namespace_, s]
  let p := FormatUint (fnv1a64 (utf8 r) % c.bucket)
  path.Join [pathSep, p, r]

/-- Go `wrapFileError`. -/
def wrapFileError : Option afero.Error → Option Error
  | none => none
  | some .notExist => some .ErrEntryNotFound
  | some .shortWrite => some .ErrEntryTooBig
  | some err => some (.other err.text)

/-- Go `fileCache.Set` at clock reading `now`. -/
def fileCache.Set (c : fileCache) (now : Time) (fs : afero.Fs) (key : String)
    (entry : List Nat) : afero.Fs × Option Error :=
  let wk := c.wrapKey key
  let (fs, err) := afero.MkdirAll fs (path.Dir wk)
  if err ≠ none ∧ err ≠ some .exist then (fs, err.map (fun e => .other e.text))
  else
    let (fs, err) := afero.WriteFile fs now wk entry
    if err ≠ none ∧ err ≠ some .exist then (fs, wrapFileError err)
    else
      let (fs, err) := afero.Chtimes fs wk now
      if err ≠ none then (fs, wrapFileError err)
      else (fs, none)

/-- Go `fileCache.Delete` at clock reading `now`. -/
def fileCache.Delete (c : fileCache) (now : Time) (fs : afero.Fs) (key : String) :
    afero.Fs × (List Nat × Option Error) :=
  let wk := c.wrapKey key
  match afero.ReadFile fs wk with
  | .error err => (fs, ([], wrapFileError (some err)))
  | .ok entry =>
    let (fs, err) :=
      if !c.lazyEvict then afero.Chtimes fs wk (now.Add (Time.wrapInt64 (-c.expiration)))
      else afero.Remove fs wk
    if err ≠ none then (fs, ([], wrapFileError err))
    else (fs, (entry, none))

/-- Go `fileCache.Get` at clock reading `now`, on a host whose zone is at
offset `zone`. -/
def fileCache.Get (c : fileCache) (now : Time) (zone : Int) (fs : afero.Fs) (key : String) :
    afero.Fs × (List Nat × Option Error) :=
  let wk := c.wrapKey key
  match afero.Stat fs wk with
  | .error err => (fs, ([], wrapFileError (some err)))
  | .ok modTime =>
    if ((modTime.Local zone).Add c.expiration).Before now then
      let fs := if c.lazyEvict then (afero.Remove fs wk).1 else fs
      (fs, ([], some .ErrEntryNotFound))
    else
      match afero.ReadFile fs wk with
      | .error err => (fs, ([], wrapFileError (some err)))
      | .ok entry => (fs, (entry, none))

/-- One round of the background loop `NewFileWithConfig` starts when eviction
is not lazy: the walk removes every file whose modification time plus the
lifetime is before the clock reading. -/
def fileCache.sweep (c : fileCache) (now : Time) (zone : Int) (fs : afero.Fs) : afero.Fs :=
  if c.lazyEvict then fs
  else fun p =>
    match fs p with
    | none => none
    | some f =>
      if !((f.modTime.Local zone).Add c.expiration).Before now then some f else none

/-- What may happen to the store between two calls under study: a `Get` of some
key, or a round of the background loop. -/
inductive Step where
  | get (now : Time) (key : String)
  | sweep (now : Time)
deriving DecidableEq, Repr

/-- The clock reading of a step. -/
def Step.now : Step → Time
  | .get now _ => now
  | .sweep now => now

/-- The store after a sequence of steps. -/
def fileCache.run (c : fileCache) (zone : Int) (fs : afero.Fs) : List Step → afero.Fs
  | [] => fs
  | .get now key :: rest => c.run zone (c.Get now zone fs key).1 rest
  | .sweep now :: rest => c.run zone (c.sweep now zone fs) rest

/-- Go `memoryCache.wrapKey`, for a cache with the namespace `namespace_`. -/
def memoryWrapKey (namespace_ : String) (s : String) : String :=
  path.Join ["/", namespace_, s]

end cache

/-- A name that `path.Clean` leaves alone inside a path: every segment between
its `/` separators is non-empty and is neither `.` nor `..`. -/
def CleanName (s : String) : Prop :=
  ∀ seg ∈ splitSlash s.toList, seg ≠ [] ∧ seg ≠ ['.'] ∧ seg ≠ ['.', '.']

instance (s : String) : Decidable (CleanName s) :=
  inferInstanceAs (Decidable (∀ seg ∈ splitSlash s.toList, _))

namespace consts

/-- Go `DataDir`; `home` is the answer of `os.UserHomeDir`. -/
def DataDir (home : Except String String) : String :=
  let hd :=
    match home with
    | .ok hd => hd
    | .error _ => "/var/run/kubecia"
  path.Clean (path.Join [hd, ".kubecia"])

end consts

namespace scenario

/-- The filesystem cache as `NewFile` builds it, with the eviction mode
chosen. -/
def fileCache (lazyEvict : Bool) : cache.fileCache := ⟨12, "", 15 * Time.Minute, lazyEvict⟩

/-- A store without files. -/
def emptyFs : afero.Fs := fun _ => none

end scenario

/-! ## `pkg/cache`: the configuration of the in-memory cache -/

namespace bigcache

/-- The fields of the library's `Config` that `NewMemoryWithConfig` sets;
durations are in nanoseconds. -/
structure Config where
  Shards : Int
  LifeWindow : Int
  CleanWindow : Int
  MaxEntriesInWindow : Int
  MaxEntrySize : Int
  HardMaxCacheSize : Int
  StatsEnabled : Bool
  Verbose : Bool
deriving DecidableEq, Repr

end bigcache

namespace cache

/-- The Go struct `MemoryConfig`. -/
structure MemoryConfig where
  Namespace : String
  EntryMaxAge : Int
  LazyEntryEviction : Bool
  Buckets : Int
  BucketCapacity : Int
  LazyBucketCapacityScale : Bool
deriving DecidableEq, Repr

/-- Go `MemoryConfig.Default`. -/
def MemoryConfig.Default (c : MemoryConfig) : MemoryConfig :=
  let c := { c with Namespace := TrimSpace c.Namespace }
  let c := if c.EntryMaxAge = 0 then { c with EntryMaxAge := 15 * Time.Minute } else c
  let c := if c.Buckets = 0 then { c with Buckets := 64 } else c
  if c.BucketCapacity = 0 then { c with BucketCapacity := 1 } else c

/-- Go `MemoryConfig.Validate`. -/
def MemoryConfig.Validate (c : MemoryConfig) : Option String :=
  if c.EntryMaxAge < 0 then some "invalid entry max age: negative"
  else if c.Buckets < 0 then some "invalid buckets: negative"
  else if c.BucketCapacity < 0 then some "invalid bucket capacity: negative"
  else none

/-- Go `x << n` on an `int` of 64 bits. -/
def shl (x : Int) (n : Nat) : Int := Time.wrapInt64 (x * 2 ^ n)

/-- Go `x >> n` on an `int`: the arithmetic shift, which rounds down. -/
def shr (x : Int) (n : Nat) : Int := x / 2 ^ n

/-- The `underlayCfg` that `NewMemoryWithConfig` hands to `bigcache.New`, or the
error of the validation. -/
def memoryUnderlayConfig (cfg : MemoryConfig) : Except String bigcache.Config :=
  let cfg := cfg.Default
  match cfg.Validate with
  | some err => .error err
  | none =>
    let capacity := Time.wrapInt64 (cfg.BucketCapacity * cfg.Buckets)
    let underlayCfg : bigcache.Config :=
      { Shards := cfg.Buckets
        LifeWindow := cfg.EntryMaxAge
        CleanWindow := 0
        MaxEntriesInWindow := shl cfg.Buckets 4
        MaxEntrySize := shl cfg.BucketCapacity (20 - 4)
        HardMaxCacheSize := capacity
        StatsEnabled := false
        Verbose := false }
    let underlayCfg :=
      if !cfg.LazyEntryEviction then { underlayCfg with CleanWindow := 3 * Time.Minute }
      else underlayCfg
    let underlayCfg :=
      if cfg.LazyBucketCapacityScale then
        { underlayCfg with MaxEntrySize := shr underlayCfg.MaxEntrySize 2 }
      else underlayCfg
    .ok underlayCfg

end cache

/-! ## `pkg/bytespool` -/

namespace bytespool

def defaultBytesSize : Nat := 32 * 1024

/-- A byte slice: its backing array from the start of the slice up to the
capacity, and its length. -/
structure Bytes where
  array : List Nat
  len : Nat
deriving DecidableEq, Repr

/-- The Go type `bytes.Buffer`, as its unread content. -/
structure Buffer where
  content : List Nat
deriving DecidableEq, Repr

/-- Go `bytes.NewBuffer`: the bytes of the slice are the initial content. -/
def NewBuffer (buf : Bytes) : Buffer := ⟨buf.array.take buf.len⟩

/-- Go `Buffer.Reset`. -/
def Buffer.Reset (_b : Buffer) : Buffer := ⟨[]⟩

/-- Go `Buffer.Len`. -/
def Buffer.Len (b : Buffer) : Nat := b.content.length

/-- Go `Buffer.Bytes`. -/
def Buffer.Bytes (b : Buffer) : List Nat := b.content

/-- Go `io.Copy(buf, body)` for a body that reads as `p` without error. -/
def Buffer.Copy (b : Buffer) (p : List Nat) : Buffer := ⟨b.content ++ p⟩

/-- The two pools of the package: what has been put back and not handed out
again, most recent first. An empty pool calls its `New`. -/
structure Pools where
  bytesPool : List Bytes
  bufferPool : List Buffer
deriving DecidableEq, Repr

/-- Go `GetBytes`. -/
def GetBytes (pool : List Bytes) (length : Int) : Bytes × List Bytes :=
  let (bs, rest) :=
    match pool with
    | [] => (Bytes.mk (List.replicate defaultBytesSize 0) defaultBytesSize, [])
    | b :: rest => (b, rest)
  let length := if length ≤ 0 then defaultBytesSize else length.toNat
  if bs.array.length ≥ length then (⟨bs.array, length⟩, rest)
  else (⟨List.replicate length 0, length⟩, bs :: rest)

/-- Go `GetBuffer`. -/
def GetBuffer (s : Pools) : Buffer × Pools :=
  match s.bufferPool with
  | [] =>
    let (bs, bytesPool) := GetBytes s.bytesPool 0
    (NewBuffer bs, ⟨bytesPool, []⟩)
  | b :: rest => (b, ⟨s.bytesPool, rest⟩)

/-- Go `Put` of a `*bytes.Buffer`. -/
def PutBuffer (s : Pools) (t : Buffer) : Pools := ⟨s.bytesPool, t.Reset :: s.bufferPool⟩

end bytespool

/-! ## `encoding/base64`, the unpadded URL-safe encoding -/

namespace base64

/-- The Go constant `encodeURL`, as bytes. -/
def encodeURL : List Nat :=
  utf8 "ABCDEFGHIJKLMNOPQRSTUVWXYZabcdefghijklmnopqrstuvwxyz0123456789-_"

/-- The character of a 6-bit value. -/
def enc (v : Nat) : Nat := encodeURL.getD v 0

/-- The library's `decodeMap`: the 6-bit value of a character of the
alphabet. -/
def dec (b : Nat) : Option Nat :=
  if encodeURL.indexOf b < 64 then some (encodeURL.indexOf b) else none

/-- Go `RawURLEncoding.EncodeToString`: three bytes give four characters, a
remainder of one or two bytes gives two or three, without padding. -/
def EncodeToString : List Nat → List Nat
  | a :: b :: c :: rest =>
    let val := a * 65536 + b * 256 + c
    [enc (val / 262144 % 64), enc (val / 4096 % 64), enc (val / 64 % 64), enc (val % 64)]
      ++ EncodeToString rest
  | [a, b] =>
    let val := a * 65536 + b * 256
    [enc (val / 262144 % 64), enc (val / 4096 % 64), enc (val / 64 % 64)]
  | [a] =>
    let val := a * 65536
    [enc (val / 262144 % 64), enc (val / 4096 % 64)]
  | [] => []

/-- The quanta of the decoder, on input without line breaks: four characters
give three bytes, a tail of three or two characters gives two or one byte, a
single trailing character and a character outside the alphabet are
refused. -/
def decodeQuanta : List Nat → Except String (List Nat)
  | a :: b :: c :: d :: rest =>
    match dec a, dec b, dec c, dec d with
    | some a, some b, some c, some d =>
      let val := a * 262144 + b * 4096 + c * 64 + d
      match decodeQuanta rest with
      | .ok out => .ok ([val / 65536 % 256, val / 256 % 256, val % 256] ++ out)
      | .error err => .error err
    | _, _, _, _ => .error "illegal base64 data"
  | [a, b, c] =>
    match dec a, dec b, dec c with
    | some a, some b, some c =>
      let val := a * 262144 + b * 4096 + c * 64
      .ok [val / 65536 % 256, val / 256 % 256]
    | _, _, _ => .error "illegal base64 data"
  | [a, b] =>
    match dec a, dec b with
    | some a, some b =>
      let val := a * 262144 + b * 4096
      .ok [val / 65536 % 256]
    | _, _ => .error "illegal base64 data"
  | [_] => .error "illegal base64 data"
  | [] => .ok []

/-- Go `RawURLEncoding.DecodeString`: carriage returns and line feeds are
skipped. -/
def DecodeString (s : List Nat) : Except String (List Nat) :=
  decodeQuanta (s.filter (fun b => b ≠ 13 ∧ b ≠ 10))

end base64

namespace aws

def presignedURLExpiration : Int := 15 * Time.Minute

def tokenPrefix : String := "k8s-aws-v1."

/-- Go `getToken` of the AWS plug-in at clock reading `now` on a host whose
zone is at offset `zone`; `session` is the error of `session.NewSession`, if
any, and `presign` the answer of `req.Presign`. -/
def getToken (now : Time) (zone : Int) (session : Option String)
    (presign : Except String String) : Except String Token :=
  match session with
  | some err => .error ("error creating session: " ++ err)
  | none =>
    match presign with
    | .error err => .error err
    | .ok presignedURLString =>
      .ok
        { Expiration := (now.Local zone).Add (presignedURLExpiration - 1 * Time.Minute)
          Value := utf8 tokenPrefix ++ base64.EncodeToString (utf8 presignedURLString) }

end aws

/-! ## `pkg/cache`: the single-flight wrapper -/

namespace singleflight

/-- The three operations of a `Cache` that the wrapper forwards. -/
inductive Op where
  | get
  | set (entry : List Nat)
  | delete
deriving DecidableEq, Repr

/-- The library's `Result`, with `Val` as the `[]byte` all three closures
return. -/
structure Result where
  Val : List Nat
  Err : Option cache.Error
deriving DecidableEq, Repr

/-- The library's `call`: an execution in flight. `owner` is the caller whose
closure runs, and with it the context that closure captured; `op` is what the
closure does; `chans` are the callers subscribed to the result, in order of
arrival. -/
structure Call where
  owner : Nat
  op : Op
  chans : List Nat
deriving DecidableEq, Repr

/-- What happens to a wrapper, one step at a time: a caller enters `Get`, `Set`
or `Delete` and reaches `DoChan`; the closure in flight for a key returns and
`doCall` delivers; the context of a caller is cancelled; the `select` of a
blocked caller is scheduled, `preferDone` telling which case it takes when
both are ready. -/
inductive Event where
  | call (caller : Nat) (key : String) (op : Op)
  | finish (key : String)
  | cancel (caller : Nat)
  | receive (caller : Nat) (preferDone : Bool)
deriving DecidableEq, Repr

/-- The wrapped cache: the answer of an operation on a key, given whether the
context it was handed is cancelled by the time it returns. -/
abbrev Underlay := String → Op → Bool → Result

/-- The closure each method hands to `DoChan`: `Get` and `Delete` return what
the wrapped cache returns, `Set` returns the entry and the error. -/
def closure (under : Underlay) (key : String) (op : Op) (ctxDone : Bool) : Result :=
  match op with
  | .get => under key .get ctxDone
  | .delete => under key .delete ctxDone
  | .set entry => ⟨entry, (under key (.set entry) ctxDone).Err⟩

/-- The state of a `singleFlightCache` and its callers: the map `g.m` of the
group, each caller's channel, the method a caller is blocked in, the cancelled
contexts, the executions launched on the wrapped cache (key, operation and
owner of the context) and what the callers' methods returned. -/
structure State where
  m : String → Option Call
  chan : Nat → Option Result
  waiting : Nat → Option Op
  done : Nat → Bool
  started : List (String × Op × Nat)
  returned : List (Nat × (List Nat × Option cache.Error))

/-- A wrapper nobody has called yet. -/
def init : State := ⟨fun _ => none, fun _ => none, fun _ => none, fun _ => false, [], []⟩

/-- The error `ctx.Err()` of a cancelled context. -/
def canceled : cache.Error := .other "context canceled"

/-- What a method returns from a delivered result: `Get` and `Delete` return
`r.Val.([]byte), r.Err`, `Set` returns `r.Err`. -/
def deliver (op : Op) (r : Result) : List Nat × Option cache.Error :=
  match op with
  | .get => (r.Val, r.Err)
  | .delete => (r.Val, r.Err)
  | .set _ => ([], r.Err)

/-- One step of the wrapper. `call` is `DoChan`: a caller joins the call in
flight for its key or, when there is none, registers its own closure and
launches it. `finish` is the end of `doCall`: the key is freed and the result
is sent to every subscribed channel. `receive` is the `select` of the
method. -/
def step (under : Underlay) (s : State) : Event → State
  | .call caller key op =>
    match s.m key with
    | some c =>
      { s with
        m := fun k => if k = key then some { c with chans := c.chans ++ [caller] } else s.m k
        waiting := fun i => if i = caller then some op else s.waiting i }
    | none =>
      { s with
        m := fun k => if k = key then some ⟨caller, op, [caller]⟩ else s.m k
        waiting := fun i => if i = caller then some op else s.waiting i
        started := s.started ++ [(key, op, caller)] }
  | .finish key =>
    match s.m key with
    | none => s
    | some c =>
      let r := closure under key c.op (s.done c.owner)
      { s with
        m := fun k => if k = key then none else s.m k
        chan := fun i => if i ∈ c.chans then some r else s.chan i }
  | .cancel caller => { s with done := fun i => if i = caller then true else s.done i }
  | .receive caller preferDone =>
    match s.waiting caller with
    | none => s
    | some op =>
      match s.chan caller, s.done caller with
      | none, false => s
      | none, true =>
        { s with
          waiting := fun i => if i = caller then none else s.waiting i
          returned := s.returned ++ [(caller, ([], some canceled))] }
      | some r, done =>
        if done && preferDone then
          { s with
            waiting := fun i => if i = caller then none else s.waiting i
            returned := s.returned ++ [(caller, ([], some canceled))] }
        else
          { s with
            waiting := fun i => if i = caller then none else s.waiting i
            returned := s.returned ++ [(caller, deliver op r)] }

/-- The state after a sequence of steps. -/
def run (under : Underlay) (s : State) (evs : List Event) : State :=
  evs.foldl (step under) s

/-- The callers that enter a method in a sequence of steps, in order. -/
def callers : List Event → List Nat
  | [] => []
  | .call caller _ _ :: rest => caller :: callers rest
  | _ :: rest => callers rest

end singleflight

namespace scenario

/-- A wrapped cache that honours its context: a cancelled context makes every
operation fail with the context's error; otherwise `Get` and `Delete` find the
bytes 1, 2, 3 and `Set` succeeds. -/
def honouring : singleflight.Underlay :=
  fun _ op ctxDone =>
    if ctxDone then ⟨[], some singleflight.canceled⟩
    else
      match op with
      | .set _ => ⟨[], none⟩
      | _ => ⟨[1, 2, 3], none⟩

/-- A wrapped cache that holds nothing under any key and ignores its
context. -/
def missing : singleflight.Underlay :=
  fun _ op _ =>
    match op with
    | .set _ => ⟨[], none⟩
    | _ => ⟨[], some .ErrEntryNotFound⟩

end scenario

namespace singleflight

/-- What holds of a wrapper that has only seen callers `cs` enter `Get` on the
key `k`, none of whose calls has finished: the first of them owns the one call
in flight, nothing was delivered, and whoever returned did so on its own
cancelled context. -/
structure PreInv (k : String) (cs : List Nat) (s : State) : Prop where
  map : s.m k = cs.head?.map (fun l => Call.mk l .get cs)
  chan : ∀ i, s.chan i = none
  started : s.started = (cs.head?.map (fun l => (k, Op.get, l))).toList
  waiting : ∀ i op, s.waiting i = some op → op = .get ∧ i ∈ cs
  live : ∀ i ∈ cs, s.waiting i = some .get ∨ (i, (([] : List Nat), some canceled)) ∈ s.returned
  returned : ∀ i out, (i, out) ∈ s.returned → s.done i = true ∧ out = ([], some canceled)

/-- What holds once the call owned by `l` has finished with the result `r` and
been delivered to the callers `cs`. -/
structure PostInv (k : String) (l : Nat) (r : Result) (cs : List Nat) (s : State) : Prop where
  chan : ∀ i ∈ cs, s.chan i = some r
  waiting : ∀ i op, s.waiting i = some op → op = .get ∧ i ∈ cs
  live : ∀ i ∈ cs, s.waiting i = some .get ∨ ∃ out, (i, out) ∈ s.returned
  returned : ∀ i out, (i, out) ∈ s.returned →
    out = (r.Val, r.Err) ∨ (s.done i = true ∧ out = ([], some canceled))
  started : s.started = [(k, .get, l)]

end singleflight

end Kubecia

/-! # Properties -/

namespace Kubecia

/-! ## Expiry -/

theorem Time.before_iff_nanos (t u : Time) (ht : t.nsec < 1000000000)
    (hu : u.nsec < 1000000000) : t.Before u = true ↔ t.nanos < u.nanos := by
  simp only [Time.Before, Time.nanos, Bool.or_eq_true, Bool.and_eq_true, decide_eq_true_eq,
    beq_iff_eq]
  constructor
  · rintro (h | ⟨h1, h2⟩) <;> omega
  · intro h
    by_cases h1 : t.sec < u.sec
    · exact Or.inl h1
    · right
      constructor <;> omega

theorem Time.add_hour_eq (now : Time) (hwf : now.WF) (hpos : 0 ≤ now.sec) :
    now.Add Time.Hour = { now with sec := now.sec + 3600 } ∨
    now.Add Time.Hour = { now with sec := 2 ^ 63 - 1 } := by
  obtain ⟨h1, h2, h3, -⟩ := hwf
  have hd : Int.tdiv Time.Hour 1000000000 = 3600 := by decide
  have hm : Int.tmod Time.Hour 1000000000 = 0 := by decide
  have e63 : (2 : Int) ^ 63 = 9223372036854775808 := by norm_num
  have e64 : (2 : Int) ^ 64 = 18446744073709551616 := by norm_num
  rw [e63] at h1 h2
  simp only [Time.Add, hd, hm, add_zero]
  rw [if_neg (by omega), if_neg (by omega)]
  simp only [Time.addSec, Time.wrapInt64, e63, e64, Int.toNat_ofNat]
  split
  · rename_i h
    simp only [gt_iff_lt, show (0 : Int) < 3600 by decide, decide_True, decide_eq_true_eq] at h
    left
    congr 1
    omega
  · rw [if_pos (by decide)]
    right
    rfl

/-- C3: `Token.Expired` is true for every token whose expiration is the zero
instant; for a non-zero expiration it is true exactly when the expiration is
strictly before the current time; and a token expiring one hour after the
current time is not expired (the clock reading `now` lies in year 1 or
later). -/
theorem Token.expired_spec (tk : Token) (now : Time) (v : List Nat)
    (htk : tk.Expiration.WF) (hnow : now.WF) (hpos : 0 ≤ now.sec) :
    (tk.Expiration.IsZero = true → tk.Expired now = true) ∧
    (tk.Expiration.IsZero = false →
      (tk.Expired now = true ↔ tk.Expiration.nanos < now.nanos)) ∧
    Token.Expired ⟨now.Add Time.Hour, v⟩ now = false := by
  refine ⟨?_, ?_, ?_⟩
  · intro h
    simp [Token.Expired, h]
  · intro h
    simp only [Token.Expired, h, Bool.false_eq_true, if_false]
    exact Time.before_iff_nanos _ _ htk.2.2.1 hnow.2.2.1
  · have e63 : (2 : Int) ^ 63 = 9223372036854775808 := by norm_num
    have h2 := hnow.2.1
    rw [e63] at h2
    rcases Time.add_hour_eq now hnow hpos with h | h <;> rw [h] <;>
      simp only [Token.Expired, Time.IsZero, Time.Before, e63] <;>
      simp <;> omega

/-- C3 at a concrete token and clock reading. -/
theorem Token.expired_spec_witness :
    (Time.IsZero ⟨63900000000, 0, none⟩ = true →
      Token.Expired ⟨⟨63900000000, 0, none⟩, [1]⟩ ⟨63900000100, 5, none⟩ = true) ∧
    (Time.IsZero ⟨63900000000, 0, none⟩ = false →
      (Token.Expired ⟨⟨63900000000, 0, none⟩, [1]⟩ ⟨63900000100, 5, none⟩ = true ↔
        Time.nanos ⟨63900000000, 0, none⟩ < Time.nanos ⟨63900000100, 5, none⟩)) ∧
    Token.Expired ⟨Time.Add ⟨63900000100, 5, none⟩ Time.Hour, [7]⟩
      ⟨63900000100, 5, none⟩ = false :=
  Token.expired_spec ⟨⟨63900000000, 0, none⟩, [1]⟩ ⟨63900000100, 5, none⟩ [7]
    (by decide) (by decide) (by decide)

/-! ## Cache keys -/

theorem join4 (a b c d sep : String) :
    Join [a, b, c, d] sep = a ++ sep ++ b ++ sep ++ c ++ sep ++ d := by
  simp [Join, String.intercalate, String.intercalate.go]

theorem join5 (a b c d e sep : String) :
    Join [a, b, c, d, e] sep = a ++ sep ++ b ++ sep ++ c ++ sep ++ d ++ sep ++ e := by
  simp [Join, String.intercalate, String.intercalate.go]

/-- C4: the cache key of each provider is its namespace and the identifying
fields joined by `_` (for AWS with `self` in place of an empty assume-role
ARN), so that changing only the secret leaves the key unchanged. -/
theorem key_spec :
    (∀ o : aws.TokenOptions,
      o.Key = "aws" ++ "_" ++ o.AccessKeyID ++ "_" ++ o.Region ++ "_" ++ o.Cluster ++ "_" ++
        (if o.AssumeRoleARN = "" then "self" else o.AssumeRoleARN)) ∧
    (∀ o : azure.TokenOptions,
      o.Key = "azure" ++ "_" ++ o.ClientID ++ "_" ++ o.Tenant ++ "_" ++ o.Resource) ∧
    (∀ o : gcp.TokenOptions,
      o.Key = "gcp" ++ "_" ++ o.ClientID ++ "_" ++ o.Region ++ "_" ++ o.Cluster) ∧
    (∀ (o : aws.TokenOptions) (secret : String),
      aws.TokenOptions.Key { o with SecretAccessKey := secret } = o.Key) ∧
    (∀ (o : azure.TokenOptions) (secret : String),
      azure.TokenOptions.Key { o with ClientSecret := secret } = o.Key) ∧
    (∀ (o : gcp.TokenOptions) (secret : String),
      gcp.TokenOptions.Key { o with ClientSecret := secret } = o.Key) := by
  refine ⟨?_, ?_, ?_, ?_, ?_, ?_⟩
  · intro o
    unfold aws.TokenOptions.Key
    by_cases h : o.AssumeRoleARN = ""
    · simp only [h, if_true]
      exact join5 _ _ _ _ _ _
    · simp only [h, if_false]
      exact join5 _ _ _ _ _ _
  · intro o
    exact join4 _ _ _ _ _
  · intro o
    exact join4 _ _ _ _ _
  · intro o secret
    rfl
  · intro o secret
    rfl
  · intro o secret
    rfl

/-! ## Validation -/

theorem aws.awsIdentity_fst (w : Ambient) (o : aws.TokenOptions) :
    (aws.validateIdentity w o).1 =
      { o with
        AccessKeyID := expanded w o.AccessKeyID
        SecretAccessKey :=
          if expanded w o.AccessKeyID = "" then o.SecretAccessKey
          else expanded w o.SecretAccessKey } := by
  obtain ⟨a, s, r, c, arn⟩ := o
  unfold aws.validateIdentity expanded
  by_cases h1 : HasPrefix a "$" = true <;>
    by_cases h2 : HasPrefix s "$" = true <;>
    simp only [h1, h2, if_true, if_false, Bool.false_eq_true] <;>
    split <;> (try split) <;> simp_all

theorem aws.awsIdentity_ok (w : Ambient) (o : aws.TokenOptions)
    (h1 : expanded w o.AccessKeyID ≠ "") (h2 : expanded w o.SecretAccessKey ≠ "") :
    (aws.validateIdentity w o).2 =
      (HasPrefix o.AccessKeyID "$" || HasPrefix o.SecretAccessKey "$", none) := by
  unfold aws.validateIdentity
  unfold expanded at h1 h2
  by_cases c1 : HasPrefix o.AccessKeyID "$" = true <;>
    by_cases c2 : HasPrefix o.SecretAccessKey "$" = true <;>
    simp only [c1, c2, if_true, if_false, Bool.false_eq_true] at h1 h2 ⊢ <;>
    simp [h1, h2]

theorem aws.awsValidate_fst (w : Ambient) (o : aws.TokenOptions) :
    (o.Validate w).1 = (aws.validateIdentity w o).1 := by
  unfold aws.TokenOptions.Validate
  split
  · rename_i h; rw [h]
  · rename_i h; rw [h]
    split <;> (try split) <;> (try split) <;> rfl

theorem azure.azureIdentity_fst (w : Ambient) (o : azure.TokenOptions) :
    (azure.validateIdentity w o).1 =
      { o with
        ClientID := expanded w o.ClientID
        ClientSecret :=
          if expanded w o.ClientID = "" then o.ClientSecret
          else expanded w o.ClientSecret } := by
  obtain ⟨a, s, r, c⟩ := o
  unfold azure.validateIdentity expanded
  by_cases h1 : HasPrefix a "$" = true <;>
    by_cases h2 : HasPrefix s "$" = true <;>
    simp only [h1, h2, if_true, if_false, Bool.false_eq_true] <;>
    split <;> (try split) <;> simp_all

theorem azure.azureIdentity_ok (w : Ambient) (o : azure.TokenOptions)
    (h1 : expanded w o.ClientID ≠ "") (h2 : expanded w o.ClientSecret ≠ "") :
    (azure.validateIdentity w o).2 =
      (HasPrefix o.ClientID "$" || HasPrefix o.ClientSecret "$", none) := by
  unfold azure.validateIdentity
  unfold expanded at h1 h2
  by_cases c1 : HasPrefix o.ClientID "$" = true <;>
    by_cases c2 : HasPrefix o.ClientSecret "$" = true <;>
    simp only [c1, c2, if_true, if_false, Bool.false_eq_true] at h1 h2 ⊢ <;>
    simp [h1, h2]

theorem azure.azureValidate_fst (w : Ambient) (o : azure.TokenOptions) :
    (o.Validate w).1 = (azure.validateIdentity w o).1 := by
  unfold azure.TokenOptions.Validate
  split
  · rename_i h; rw [h]
  · rename_i h; rw [h]
    split <;> (try split) <;> (try split) <;> rfl

theorem gcp.gcpIdentity_fst (w : Ambient) (o : gcp.TokenOptions) :
    (gcp.validateIdentity w o).1 =
      { o with
        ClientID := expanded w o.ClientID
        ClientSecret :=
          if expanded w o.ClientID = "" then o.ClientSecret
          else expanded w o.ClientSecret } := by
  obtain ⟨a, s, r, c⟩ := o
  unfold gcp.validateIdentity expanded
  by_cases h1 : HasPrefix a "$" = true <;>
    by_cases h2 : HasPrefix s "$" = true <;>
    simp only [h1, h2, if_true, if_false, Bool.false_eq_true] <;>
    split <;> (try split) <;> simp_all

theorem gcp.gcpIdentity_ok (w : Ambient) (o : gcp.TokenOptions)
    (h1 : expanded w o.ClientID ≠ "") (h2 : expanded w o.ClientSecret ≠ "") :
    (gcp.validateIdentity w o).2 =
      (HasPrefix o.ClientID "$" || HasPrefix o.ClientSecret "$", none) := by
  unfold gcp.validateIdentity
  unfold expanded at h1 h2
  by_cases c1 : HasPrefix o.ClientID "$" = true <;>
    by_cases c2 : HasPrefix o.ClientSecret "$" = true <;>
    simp only [c1, c2, if_true, if_false, Bool.false_eq_true] at h1 h2 ⊢ <;>
    simp [h1, h2]

theorem gcp.gcpValidate_fst (w : Ambient) (o : gcp.TokenOptions) :
    (o.Validate w).1 = (gcp.validateIdentity w o).1 := by
  unfold gcp.TokenOptions.Validate
  split
  · rename_i h; rw [h]
  · rename_i h; rw [h]
    split <;> (try split) <;> rfl

/-- C8, as stated, fails: with `AWS_REGION` set in the environment, valid AWS
options whose region is `$AWS_REGION` pass `Validate` with the region left
as the literal `$AWS_REGION`. -/
theorem validate_substitution_counterexample :
    HasPrefix "$AWS_REGION" "$" = true ∧
    aws.TokenOptions.Validate
        ⟨fun s => if s = "$AWS_REGION" then "us-east-1" else s, Time.zero, ⟨65, 66⟩⟩
        ⟨"AKIA", "secret", "$AWS_REGION", "c1", ""⟩ =
      (⟨"AKIA", "secret", "$AWS_REGION", "c1", ""⟩, none) ∧
    (aws.TokenOptions.Validate
        ⟨fun s => if s = "$AWS_REGION" then "us-east-1" else s, Time.zero, ⟨65, 66⟩⟩
        ⟨"AKIA", "secret", "$AWS_REGION", "c1", ""⟩).1.Region ≠
      (fun s => if s = "$AWS_REGION" then "us-east-1" else s) "$AWS_REGION" := by
  decide

/-- C8, amended: `Validate` substitutes from the environment only the identity
pair. The first identity field is expanded when it begins with `$`; the second
one likewise unless the first is empty after its expansion (the method has
then returned); every other field is left as given. -/
theorem validate_substitutes_identity_only (w : Ambient) :
    (∀ o : aws.TokenOptions,
      (o.Validate w).1 =
        { o with
          AccessKeyID := expanded w o.AccessKeyID
          SecretAccessKey :=
            if expanded w o.AccessKeyID = "" then o.SecretAccessKey
            else expanded w o.SecretAccessKey }) ∧
    (∀ o : azure.TokenOptions,
      (o.Validate w).1 =
        { o with
          ClientID := expanded w o.ClientID
          ClientSecret :=
            if expanded w o.ClientID = "" then o.ClientSecret
            else expanded w o.ClientSecret }) ∧
    (∀ o : gcp.TokenOptions,
      (o.Validate w).1 =
        { o with
          ClientID := expanded w o.ClientID
          ClientSecret :=
            if expanded w o.ClientID = "" then o.ClientSecret
            else expanded w o.ClientSecret }) :=
  ⟨fun o => (aws.awsValidate_fst w o).trans (aws.awsIdentity_fst w o),
    fun o => (azure.azureValidate_fst w o).trans (azure.azureIdentity_fst w o),
    fun o => (gcp.gcpValidate_fst w o).trans (gcp.gcpIdentity_fst w o)⟩

theorem aws.validate_snd (w : Ambient) (o : aws.TokenOptions)
    (hid : expanded w o.AccessKeyID ≠ "") (hsec : expanded w o.SecretAccessKey ≠ "") :
    (o.Validate w).2 =
      if o.Region = "" then some "region is required"
      else if o.Cluster = "" then some "cluster ID is required"
      else if o.AssumeRoleARN = "" ∧
          (HasPrefix o.AccessKeyID "$" || HasPrefix o.SecretAccessKey "$") = true then
        some "assume role ARN is required"
      else none := by
  have h1 := aws.awsIdentity_fst w o
  have h2 := aws.awsIdentity_ok w o hid hsec
  unfold aws.TokenOptions.Validate
  generalize aws.validateIdentity w o = x at h1 h2
  obtain ⟨o1, rt, e⟩ := x
  simp only [Prod.mk.injEq] at h1 h2
  obtain ⟨h2a, h2b⟩ := h2
  subst h1 h2a h2b
  simp only
  split <;> (try split) <;> (try split) <;> simp_all

/-- C9: for AWS options whose identity fields are non-empty after expansion
and whose region and cluster are non-empty, the hosted flag is set exactly
when the access key ID or the secret access key begins with `$`, and `Validate`
rejects an empty assume-role ARN when the flag is set and accepts it
otherwise. -/
theorem aws.hosted_mode_spec (w : Ambient) (o : aws.TokenOptions)
    (hid : expanded w o.AccessKeyID ≠ "") (hsec : expanded w o.SecretAccessKey ≠ "")
    (hr : o.Region ≠ "") (hc : o.Cluster ≠ "") (harn : o.AssumeRoleARN = "") :
    (aws.validateIdentity w o).2.1 =
      (HasPrefix o.AccessKeyID "$" || HasPrefix o.SecretAccessKey "$") ∧
    ((HasPrefix o.AccessKeyID "$" || HasPrefix o.SecretAccessKey "$") = true →
      (o.Validate w).2 = some "assume role ARN is required") ∧
    ((HasPrefix o.AccessKeyID "$" || HasPrefix o.SecretAccessKey "$") = false →
      (o.Validate w).2 = none) := by
  refine ⟨?_, ?_, ?_⟩
  · rw [aws.awsIdentity_ok w o hid hsec]
  · intro h
    rw [aws.validate_snd w o hid hsec, if_neg hr, if_neg hc, if_pos ⟨harn, h⟩]
  · intro h
    rw [aws.validate_snd w o hid hsec, if_neg hr, if_neg hc, if_neg (by simp [h])]

/-- C9 at hosted options (`$AWS_KEY` expands to `AKIA`) with an empty
assume-role ARN. -/
theorem aws.hosted_mode_spec_witness :
    (aws.validateIdentity ⟨fun _ => "AKIA", Time.zero, ⟨65, 66⟩⟩
        ⟨"$AWS_KEY", "secret", "us-east-1", "c1", ""⟩).2.1 =
      (HasPrefix "$AWS_KEY" "$" || HasPrefix "secret" "$") ∧
    ((HasPrefix "$AWS_KEY" "$" || HasPrefix "secret" "$") = true →
      (aws.TokenOptions.Validate ⟨fun _ => "AKIA", Time.zero, ⟨65, 66⟩⟩
        ⟨"$AWS_KEY", "secret", "us-east-1", "c1", ""⟩).2 =
        some "assume role ARN is required") ∧
    ((HasPrefix "$AWS_KEY" "$" || HasPrefix "secret" "$") = false →
      (aws.TokenOptions.Validate ⟨fun _ => "AKIA", Time.zero, ⟨65, 66⟩⟩
        ⟨"$AWS_KEY", "secret", "us-east-1", "c1", ""⟩).2 = none) :=
  aws.hosted_mode_spec ⟨fun _ => "AKIA", Time.zero, ⟨65, 66⟩⟩
    ⟨"$AWS_KEY", "secret", "us-east-1", "c1", ""⟩
    (by decide) (by decide) (by decide) (by decide) (by decide)

/-! ## The Azure resource pattern -/

/-- Membership in the character class `[0-9a-zA-Z-.:/]`. -/
theorem regexp.resource_class (c : Char) :
    ([('0', '9'), ('a', 'z'), ('A', 'Z'), ('-', '-'), ('.', '.'), (':', ':'),
        ('/', '/')].any (fun r : Char × Char => decide (r.1 ≤ c ∧ c ≤ r.2))) = true ↔
      (('0' ≤ c ∧ c ≤ '9') ∨ ('a' ≤ c ∧ c ≤ 'z') ∨ ('A' ≤ c ∧ c ≤ 'Z') ∨
        c = '-' ∨ c = '.' ∨ c = ':' ∨ c = '/') := by
  have e : ∀ d : Char, (d ≤ c ∧ c ≤ d) ↔ c = d := by
    intro d
    constructor
    · rintro ⟨h1, h2⟩
      exact Char.le_antisymm h2 h1
    · rintro rfl
      exact ⟨Char.le_refl _, Char.le_refl _⟩
  simp only [List.any_cons, List.any_nil, Bool.or_false, Bool.or_eq_true, decide_eq_true_eq, e]

theorem regexp.repeat1_class (R : List (Char × Char)) :
    ∀ (fuel : Nat) (b : Bool) (s : List Char), s.length ≤ fuel →
      ((∃ q ∈ regexp.repeat1 (regexp.ends (.charClass R)) fuel (b, s), q.2 = []) ↔
        (s ≠ [] ∧ ∀ c ∈ s, R.any (fun r => decide (r.1 ≤ c ∧ c ≤ r.2)) = true)) := by
  intro fuel
  induction fuel with
  | zero =>
    intro b s hs
    have : s = [] := List.length_eq_zero.mp (Nat.le_zero.mp hs)
    subst this
    simp [regexp.repeat1]
  | succ fuel ih =>
    intro b s hs
    cases s with
    | nil => simp [regexp.repeat1, regexp.ends]
    | cons c rest =>
      have hrest : rest.length ≤ fuel := by simpa using hs
      by_cases hc : R.any (fun r => decide (r.1 ≤ c ∧ c ≤ r.2)) = true
      · have hf : regexp.ends (.charClass R) (b, c :: rest) = [(false, rest)] := by
          simp only [regexp.ends, hc, if_true]
        simp only [regexp.repeat1, hf, List.flatMap_cons, List.flatMap_nil, List.append_nil,
          List.singleton_append, List.mem_cons, exists_eq_or_imp, ih false rest hrest]
        constructor
        · rintro (h | ⟨-, h⟩)
          · subst h
            exact ⟨by simp, by simpa using hc⟩
          · refine ⟨by simp, ?_⟩
            intro d hd
            rcases hd with rfl | hd
            · exact hc
            · exact h d hd
        · rintro ⟨-, h⟩
          by_cases hr : rest = []
          · exact Or.inl hr
          · exact Or.inr ⟨hr, fun d hd => h d (Or.inr hd)⟩
      · have hf : regexp.ends (.charClass R) (b, c :: rest) = [] := by
          simp only [regexp.ends, hc, Bool.false_eq_true, if_false]
        simp only [regexp.repeat1, hf, List.flatMap_nil, List.append_nil, List.not_mem_nil,
          false_and, exists_false, false_iff, not_and, not_forall]
        intro _
        exact ⟨c, List.mem_cons_self _ _, hc⟩

theorem regexp.searchFrom_anchored_false (X : regexp.Regexp) (s : List Char) :
    regexp.searchFrom (.cat .beginText X) false s = false := by
  induction s with
  | nil => simp [regexp.searchFrom, regexp.ends]
  | cons c rest ih => simp [regexp.searchFrom, regexp.ends, ih]

/-- The pattern `^[0-9a-zA-Z-.:/]+$` matches exactly the non-empty strings made
of characters of the class. -/
theorem azure.resourcePattern_match (s : String) :
    regexp.MatchString azure.resourcePattern s = true ↔
      (s ≠ "" ∧ ∀ c ∈ s.toList,
        (('0' ≤ c ∧ c ≤ '9') ∨ ('a' ≤ c ∧ c ≤ 'z') ∨ ('A' ≤ c ∧ c ≤ 'Z') ∨
          c = '-' ∨ c = '.' ∨ c = ':' ∨ c = '/')) := by
  have hne : s ≠ "" ↔ s.toList ≠ [] := by
    constructor
    · intro h h2
      exact h (String.ext h2)
    · intro h h2
      exact h (by rw [h2]; rfl)
  rw [hne]
  simp only [← regexp.resource_class]
  rw [← regexp.repeat1_class _ (s.toList.length + 1) true s.toList (Nat.le_succ _)]
  have key : ∀ l : List Char,
      regexp.searchFrom azure.resourcePattern true l =
        !(regexp.ends azure.resourcePattern (true, l)).isEmpty := by
    intro l
    cases l with
    | nil => simp [regexp.searchFrom]
    | cons c rest =>
      simp only [regexp.searchFrom, azure.resourcePattern,
        regexp.searchFrom_anchored_false, Bool.or_false]
  have h2 : ∀ l : List Char,
      regexp.ends azure.resourcePattern (true, l) =
        (regexp.repeat1 (regexp.ends (.charClass [('0', '9'), ('a', 'z'), ('A', 'Z'),
          ('-', '-'), ('.', '.'), (':', ':'), ('/', '/')])) (l.length + 1) (true, l)).flatMap
          (regexp.ends .endText) := by
    intro l
    unfold azure.resourcePattern
    rw [regexp.ends.eq_5, regexp.ends.eq_1]
    simp only [if_true, List.flatMap_cons, List.flatMap_nil, List.append_nil]
    rw [regexp.ends.eq_5, regexp.ends.eq_4]
  rw [regexp.MatchString, key, h2]
  simp only [Bool.not_eq_true', List.isEmpty_eq_false, ne_eq, List.flatMap_eq_nil_iff,
    not_forall, regexp.ends.eq_2]
  constructor
  · rintro ⟨q, hq, h⟩
    refine ⟨q, hq, ?_⟩
    by_contra hcon
    apply h
    rw [if_neg (by simpa using hcon)]
  · rintro ⟨q, hq, h⟩
    exact ⟨q, hq, by simp [h]⟩

/-- C10: for Azure options whose client ID, client secret and tenant are
non-empty and do not begin with `$`, `Validate` succeeds if and only if the
resource is non-empty and consists only of the characters `0-9`, `a-z`, `A-Z`,
`-`, `.`, `:` and `/`. -/
theorem azure.validate_resource_spec (w : Ambient) (o : azure.TokenOptions)
    (hid : o.ClientID ≠ "") (hid2 : HasPrefix o.ClientID "$" = false)
    (hsec : o.ClientSecret ≠ "") (hsec2 : HasPrefix o.ClientSecret "$" = false)
    (hten : o.Tenant ≠ "") :
    (o.Validate w).2 = none ↔
      (o.Resource ≠ "" ∧ ∀ c ∈ o.Resource.toList,
        (('0' ≤ c ∧ c ≤ '9') ∨ ('a' ≤ c ∧ c ≤ 'z') ∨ ('A' ≤ c ∧ c ≤ 'Z') ∨
          c = '-' ∨ c = '.' ∨ c = ':' ∨ c = '/')) := by
  have e1 : expanded w o.ClientID = o.ClientID := by simp [expanded, hid2]
  have e2 : expanded w o.ClientSecret = o.ClientSecret := by simp [expanded, hsec2]
  have h1 := azure.azureIdentity_fst w o
  have h2 := azure.azureIdentity_ok w o (by rw [e1]; exact hid) (by rw [e2]; exact hsec)
  rw [e1, e2, if_neg hid] at h1
  rw [← azure.resourcePattern_match]
  unfold azure.TokenOptions.Validate
  generalize azure.validateIdentity w o = x at h1 h2
  obtain ⟨o1, rt, e⟩ := x
  simp only [Prod.mk.injEq] at h1 h2
  obtain ⟨h2a, h2b⟩ := h2
  subst h1 h2a h2b
  simp only [if_neg hten]
  by_cases hres : o.Resource = ""
  · simp only [hres, if_true]
    constructor
    · intro h
      cases h
    · intro h
      have := (azure.resourcePattern_match "").mp h
      exact absurd rfl this.1
  · simp only [hres, if_false]
    by_cases hm : regexp.MatchString azure.resourcePattern o.Resource = true
    · simp [hm]
    · simp [hm]

/-- C10 at the resource `https://management.azure.com/.default`. -/
theorem azure.validate_resource_spec_witness :
    (azure.TokenOptions.Validate ⟨fun s => s, Time.zero, ⟨65, 66⟩⟩
        ⟨"client", "secret", "tenant123", "https://management.azure.com/.default"⟩).2 = none ↔
      ("https://management.azure.com/.default" ≠ "" ∧
        ∀ c ∈ "https://management.azure.com/.default".toList,
          (('0' ≤ c ∧ c ≤ '9') ∨ ('a' ≤ c ∧ c ≤ 'z') ∨ ('A' ≤ c ∧ c ≤ 'Z') ∨
            c = '-' ∨ c = '.' ∨ c = ':' ∨ c = '/')) :=
  azure.validate_resource_spec ⟨fun s => s, Time.zero, ⟨65, 66⟩⟩
    ⟨"client", "secret", "tenant123", "https://management.azure.com/.default"⟩
    (by decide) (by decide) (by decide) (by decide) (by decide)

/-! ## Binary round trip -/

theorem bigEndian_length (n x : Nat) : (bigEndian n x).length = n := by
  induction n generalizing x with
  | zero => rfl
  | succ n ih => simp [bigEndian, ih]

theorem beValue_snoc (l : List Nat) (b : Nat) : beValue (l ++ [b]) = beValue l * 256 + b := by
  simp [beValue, List.foldl_append]

theorem beValue_bigEndian (n x : Nat) (h : x < 256 ^ n) : beValue (bigEndian n x) = x := by
  induction n generalizing x with
  | zero =>
    have : x = 0 := by simpa using h
    subst this
    rfl
  | succ n ih =>
    rw [bigEndian, beValue_snoc, ih]
    · omega
    · rw [pow_succ] at h
      exact Nat.div_lt_of_lt_mul (by rw [Nat.mul_comm]; exact h)

theorem toSigned_toUnsigned_64 (i : Int) (h1 : -(2 ^ 63 : Int) ≤ i) (h2 : i < 2 ^ 63) :
    toSigned 64 (toUnsigned 64 i) = i := by
  unfold toSigned toUnsigned
  norm_num at h1 h2 ⊢
  split <;> omega

theorem toSigned_toUnsigned_32 (i : Int) (h1 : -(2 ^ 31 : Int) ≤ i) (h2 : i < 2 ^ 31) :
    toSigned 32 (toUnsigned 32 i) = i := by
  unfold toSigned toUnsigned
  norm_num at h1 h2 ⊢
  split <;> omega

theorem toSigned_toUnsigned_16 (i : Int) (h1 : -(2 ^ 15 : Int) ≤ i) (h2 : i < 2 ^ 15) :
    toSigned 16 (toUnsigned 16 i) = i := by
  unfold toSigned toUnsigned
  norm_num at h1 h2 ⊢
  split <;> omega

theorem toUnsigned_lt (w : Nat) (i : Int) : toUnsigned w i < 2 ^ w := by
  unfold toUnsigned
  have hpos : (0 : Int) < 2 ^ w := by positivity
  have h1 := Int.emod_nonneg i (ne_of_gt hpos)
  have h2 := Int.emod_lt_of_pos i hpos
  zify
  rw [Int.toNat_of_nonneg h1]
  exact_mod_cast h2

namespace gob

theorem byteLen_bounds (x : Nat) : 1 ≤ byteLen x ∧ byteLen x ≤ 8 := by
  unfold byteLen
  repeat' split
  all_goals omega

theorem lt_pow_byteLen (x : Nat) (h : x < 2 ^ 64) : x < 256 ^ byteLen x := by
  unfold byteLen
  norm_num at h ⊢
  repeat' split
  all_goals omega

theorem encodeUint_length (x : Nat) : 1 ≤ (encodeUint x).length ∧ (encodeUint x).length ≤ 9 := by
  unfold encodeUint
  have := byteLen_bounds x
  split
  · simp
  · simp only [List.length_cons, bigEndian_length]
    omega

theorem decodeUint_encodeUint (x : Nat) (h : x < 2 ^ 64) (tail : List Nat) :
    decodeUint (encodeUint x ++ tail) = .ok (x, tail) := by
  have hb := byteLen_bounds x
  unfold encodeUint
  split
  · rename_i hx
    simp only [List.singleton_append, decodeUint]
    rw [if_pos hx]
  · rename_i hx
    simp only [List.cons_append, decodeUint]
    rw [if_neg (by omega)]
    have e : 256 - (256 - byteLen x) = byteLen x := by omega
    simp only [e]
    rw [if_neg (by omega), if_neg (by simp [bigEndian_length])]
    have ht : List.take (byteLen x) (bigEndian (byteLen x) x ++ tail) = bigEndian (byteLen x) x := by
      rw [List.take_append_of_le_length (by simp [bigEndian_length])]
      exact List.take_of_length_le (by simp [bigEndian_length])
    have hd : List.drop (byteLen x) (bigEndian (byteLen x) x ++ tail) = tail := by
      have := List.drop_left (bigEndian (byteLen x) x) tail
      rwa [bigEndian_length] at this
    rw [ht, hd, beValue_bigEndian _ _ (lt_pow_byteLen x h)]

end gob

theorem two_mul_lor_one (k : Nat) : 2 * k ||| 1 = 2 * k + 1 := by
  apply Nat.eq_of_testBit_eq
  intro i
  cases i with
  | zero => simp [Nat.testBit_lor]; omega
  | succ i =>
    have h1 : 2 * k / 2 = k := by omega
    have h2 : (2 * k + 1) / 2 = k := by omega
    have h3 : 1 / 2 = 0 := by norm_num
    rw [Nat.testBit_lor, Nat.testBit_succ, Nat.testBit_succ, Nat.testBit_succ, h1, h2, h3]
    simp

theorem tdiv_tmod_60 (a : Int) :
    a = 60 * Int.tdiv a 60 + Int.tmod a 60 ∧ -60 < Int.tmod a 60 ∧ Int.tmod a 60 < 60 := by
  rcases le_or_lt 0 a with h | h
  · rw [Int.tdiv_eq_ediv h (by decide), Int.tmod_eq_emod h (by decide)]
    omega
  · have e : Int.tdiv a 60 = -((-a) / 60) := by
      have := Int.neg_tdiv (-a) 60
      rw [neg_neg] at this
      rw [this, Int.tdiv_eq_ediv (by omega) (by decide)]
    rw [Int.tmod_def, e]
    omega

theorem take_drop_layout (a b c : Nat) (extra : List Nat) :
    let buf := bigEndian 8 a ++ bigEndian 4 b ++ bigEndian 2 c ++ extra
    buf.take 8 = bigEndian 8 a ∧ (buf.drop 8).take 4 = bigEndian 4 b ∧
      ((buf.drop 8).drop 4).take 2 = bigEndian 2 c ∧
      ((buf.drop 8).drop 4).getD 2 0 = extra.getD 0 0 ∧
      buf.length = 14 + extra.length := by
  intro buf
  have l8 := bigEndian_length 8 a
  have l4 := bigEndian_length 4 b
  have l2 := bigEndian_length 2 c
  have d8 : buf.drop 8 = bigEndian 4 b ++ bigEndian 2 c ++ extra := by
    show List.drop 8 (bigEndian 8 a ++ bigEndian 4 b ++ bigEndian 2 c ++ extra) = _
    rw [List.append_assoc, List.append_assoc, List.drop_left' l8, List.append_assoc]
  have d4 : (buf.drop 8).drop 4 = bigEndian 2 c ++ extra := by
    rw [d8, List.append_assoc, List.drop_left' l4]
  refine ⟨?_, ?_, ?_, ?_, ?_⟩
  · show List.take 8 (bigEndian 8 a ++ bigEndian 4 b ++ bigEndian 2 c ++ extra) = _
    rw [List.append_assoc, List.append_assoc, List.take_left' l8]
  · rw [d8, List.append_assoc, List.take_left' l4]
  · rw [d4, List.take_left' l2]
  · rw [d4, List.getD_append_right _ _ _ _ (by omega), l2]
  · show (bigEndian 8 a ++ bigEndian 4 b ++ bigEndian 2 c ++ extra).length = _
    simp only [List.length_append, l8, l4, l2]

theorem Time.unmarshal_layout (version a b c : Nat) (extra : List Nat)
    (hv : (version = 1 ∧ extra = []) ∨ (version = 2 ∧ extra.length = 1)) :
    Time.UnmarshalBinary
        (version :: (bigEndian 8 a ++ bigEndian 4 b ++ bigEndian 2 c ++ extra)) =
      .ok ⟨toSigned 64 (beValue (bigEndian 8 a)),
        toUnsigned 64 (toSigned 32 (beValue (bigEndian 4 b))) % 2 ^ 30,
        if toSigned 16 (beValue (bigEndian 2 c)) * 60 +
            (if version = 2 then toSigned 8 (extra.getD 0 0) else 0) = -60 then none
        else some (toSigned 16 (beValue (bigEndian 2 c)) * 60 +
            (if version = 2 then toSigned 8 (extra.getD 0 0) else 0))⟩ := by
  obtain ⟨h8, h4, h2, hg, hl⟩ := take_drop_layout a b c extra
  unfold Time.UnmarshalBinary
  simp only [h8, h4, h2, hg, List.length_cons, hl]
  rcases hv with ⟨rfl, rfl⟩ | ⟨rfl, he⟩
  · simp
    split <;> rfl
  · simp [he]
    split <;> rfl

theorem Time.unmarshal_marshal (t : Time) (hwf : t.WF) (hz : t.ZoneOK) :
    ∃ data t', t.MarshalBinary = .ok data ∧ 15 ≤ data.length ∧ data.length ≤ 16 ∧
      Time.UnmarshalBinary data = .ok t' ∧ t'.sec = t.sec ∧ t'.nsec = t.nsec ∧
      ((∀ off ∈ t.loc, 0 ≤ Int.tmod off 60) → t' = t) := by
  obtain ⟨sec, nsec, loc⟩ := t
  obtain ⟨h1, h2, h3, -⟩ := hwf
  simp only at h1 h2 h3
  have hsec : toSigned 64 (beValue (bigEndian 8 (toUnsigned 64 sec))) = sec := by
    rw [beValue_bigEndian _ _ (by have := toUnsigned_lt 64 sec; norm_num at this ⊢; exact this)]
    exact toSigned_toUnsigned_64 sec h1 h2
  have hnsec : toUnsigned 64 (toSigned 32 (beValue (bigEndian 4 (toUnsigned 32 (nsec : Int)))))
      % 2 ^ 30 = nsec := by
    rw [beValue_bigEndian _ _ (by have := toUnsigned_lt 32 nsec; norm_num at this ⊢; exact this)]
    rw [toSigned_toUnsigned_32 _ (by norm_num; omega) (by norm_num; omega)]
    unfold toUnsigned
    norm_num
    omega
  have hoff : ∀ m : Int, -32768 ≤ m → m ≤ 32767 →
      toSigned 16 (beValue (bigEndian 2 (toUnsigned 16 m))) = m := by
    intro m hm1 hm2
    rw [beValue_bigEndian _ _ (by have := toUnsigned_lt 16 m; norm_num at this ⊢; exact this)]
    exact toSigned_toUnsigned_16 m (by norm_num; omega) (by norm_num; omega)
  cases loc with
  | none =>
    have hl := Time.unmarshal_layout 1 (toUnsigned 64 sec) (toUnsigned 32 nsec)
      (toUnsigned 16 (-1)) [] (Or.inl ⟨rfl, rfl⟩)
    rw [List.append_nil, hsec, hnsec, hoff (-1) (by decide) (by decide)] at hl
    simp only [show ¬ (1 = 2) by decide, if_false, add_zero,
      show ((-1 : Int) * 60 = -60) by decide, if_true] at hl
    refine ⟨_, _, rfl, ?_, ?_, hl, rfl, rfl, fun _ => rfl⟩
    · simp [bigEndian_length]
    · simp [bigEndian_length]
  | some off =>
    obtain ⟨hz1, hz2, hz3⟩ := hz off rfl
    obtain ⟨hq, hr1, hr2⟩ := tdiv_tmod_60 off
    by_cases hr : Int.tmod off 60 = 0
    · have hm : Time.MarshalBinary ⟨sec, nsec, some off⟩ =
          .ok (1 :: (bigEndian 8 (toUnsigned 64 sec) ++ bigEndian 4 (toUnsigned 32 nsec) ++
            bigEndian 2 (toUnsigned 16 (Int.tdiv off 60)))) := by
        unfold Time.MarshalBinary
        simp only [hr, ne_eq, not_true_eq_false, if_false]
        rw [if_neg (by omega)]
        rfl
      have hl := Time.unmarshal_layout 1 (toUnsigned 64 sec) (toUnsigned 32 nsec)
        (toUnsigned 16 (Int.tdiv off 60)) [] (Or.inl ⟨rfl, rfl⟩)
      rw [List.append_nil, hsec, hnsec, hoff _ hz1 hz3] at hl
      simp only [show ¬ (1 = 2) by decide, if_false, add_zero] at hl
      rw [if_neg (by omega)] at hl
      refine ⟨_, _, hm, ?_, ?_, hl, rfl, rfl, fun _ => ?_⟩
      · simp [bigEndian_length]
      · simp [bigEndian_length]
      · have : Int.tdiv off 60 * 60 = off := by omega
        rw [this]
    · have hm : Time.MarshalBinary ⟨sec, nsec, some off⟩ =
          .ok (2 :: (bigEndian 8 (toUnsigned 64 sec) ++ bigEndian 4 (toUnsigned 32 nsec) ++
            bigEndian 2 (toUnsigned 16 (Int.tdiv off 60)) ++
            [toUnsigned 8 (toSigned 8 (toUnsigned 8 (Int.tmod off 60)))])) := by
        unfold Time.MarshalBinary
        simp only [hr, ne_eq, not_false_eq_true, if_true]
        rw [if_neg (by omega)]
        rfl
      have hl := Time.unmarshal_layout 2 (toUnsigned 64 sec) (toUnsigned 32 nsec)
        (toUnsigned 16 (Int.tdiv off 60))
        [toUnsigned 8 (toSigned 8 (toUnsigned 8 (Int.tmod off 60)))] (Or.inr ⟨rfl, rfl⟩)
      rw [hsec, hnsec, hoff _ hz1 hz3] at hl
      simp only [if_true, List.getD_cons_zero] at hl
      refine ⟨_, _, hm, ?_, ?_, hl, rfl, rfl, fun hnn => ?_⟩
      · simp [bigEndian_length]
      · simp [bigEndian_length]
      · have hnn := hnn off rfl
        have e : toSigned 8 (toUnsigned 8 (toSigned 8 (toUnsigned 8 (Int.tmod off 60)))) =
            Int.tmod off 60 := by
          unfold toSigned toUnsigned
          norm_num
          split <;> split <;> omega
        rw [e]
        have : Int.tdiv off 60 * 60 + Int.tmod off 60 = off := by omega
        rw [this, if_neg (by omega)]

namespace gob

theorem encodeInt_length (i : Int) : (encodeInt i).length ≤ 9 := by
  unfold encodeInt
  split
  · exact (encodeUint_length _).2
  · exact (encodeUint_length _).2

theorem decodeInt_encodeInt (i : Int) (h1 : -(2 ^ 63 : Int) ≤ i) (h2 : i < 2 ^ 63)
    (tail : List Nat) : decodeInt (encodeInt i ++ tail) = .ok (i, tail) := by
  norm_num at h1 h2
  unfold encodeInt decodeInt
  by_cases hneg : i < 0
  · rw [if_pos hneg]
    have e : toUnsigned 64 ((-i - 1) * 2) = 2 * (-i - 1).toNat := by
      unfold toUnsigned
      norm_num
      omega
    rw [e, two_mul_lor_one, decodeUint_encodeUint _ (by norm_num; omega)]
    simp only [Nat.and_one_is_mod, Nat.shiftRight_eq_div_pow, pow_one]
    rw [if_pos (by omega)]
    congr 2
    omega
  · rw [if_neg hneg]
    have e : toUnsigned 64 (i * 2) = 2 * i.toNat := by
      unfold toUnsigned
      norm_num
      omega
    rw [e, decodeUint_encodeUint _ (by norm_num; omega)]
    simp only [Nat.and_one_is_mod, Nat.shiftRight_eq_div_pow, pow_one]
    rw [if_neg (by omega)]
    congr 2
    omega

theorem recvMessage_message (body rest : List Nat) (h : body.length < 2 ^ 64) :
    recvMessage (message body ++ rest) = .ok (body, rest) := by
  unfold recvMessage message
  rw [List.append_assoc, decodeUint_encodeUint _ h]
  simp only [List.length_append]
  rw [if_neg (by omega), List.take_left, List.drop_left]

theorem decodeTypeSequence_typeDef (fuel n : Nat) (wire rest : List Nat) (seen : List Int)
    (h0 : 0 < n) (h1 : n < 2 ^ 63) (hs : (n : Int) ∉ seen)
    (hl : (encodeInt (-(n : Int)) ++ wire).length < 2 ^ 64) :
    decodeTypeSequence (fuel + 1) (message (encodeInt (-(n : Int)) ++ wire) ++ rest) seen =
      decodeTypeSequence fuel rest ((n : Int) :: seen) := by
  rw [decodeTypeSequence, recvMessage_message _ _ hl]
  simp only
  rw [decodeInt_encodeInt _ (by norm_num at h1 ⊢; omega) (by norm_num at h1 ⊢; omega)]
  simp only [neg_neg]
  rw [if_neg (by omega), if_neg hs]

theorem decodeTypeSequence_value (fuel n : Nat) (body rest : List Nat) (seen : List Int)
    (h1 : n < 2 ^ 63) (hl : (encodeInt (n : Int) ++ body).length < 2 ^ 64) :
    decodeTypeSequence (fuel + 1) (message (encodeInt (n : Int) ++ body) ++ rest) seen =
      .ok (seen, (n : Int), body) := by
  rw [decodeTypeSequence, recvMessage_message _ _ hl]
  simp only
  rw [decodeInt_encodeInt _ (by norm_num at h1 ⊢; omega) (by norm_num at h1 ⊢; omega)]
  simp only
  rw [if_pos (by omega)]

theorem decodeStruct_terminator (fuel : Nat) (fieldnum : Int) (rest : List Nat)
    (acc : Time × List Nat) :
    decodeStruct (fuel + 1) fieldnum (0 :: rest) acc = .ok acc := by
  simp [decodeStruct, decodeUint]

theorem decodeStruct_expiration (fuel : Nat) (data rest : List Nat) (t : Time)
    (acc : Time × List Nat) (hd : data.length ≤ 16)
    (ht : Time.UnmarshalBinary data = .ok t) :
    decodeStruct (fuel + 1) (-1) ([1] ++ encodeUint data.length ++ data ++ rest) acc =
      decodeStruct fuel 0 rest (t, acc.2) := by
  have e : encodeUint data.length = [data.length] := by
    unfold encodeUint
    rw [if_pos (by omega)]
  rw [e]
  simp only [decodeStruct, List.singleton_append, List.cons_append, List.length_cons,
    decodeUint, decExpiration, Nat.add_one_ne_zero, if_false]
  norm_num
  rw [if_pos (by omega)]
  simp only [List.length_append]
  rw [if_neg (by omega), List.take_left, List.drop_left, ht]

theorem decodeStruct_value (fuel : Nat) (fieldnum : Int) (v rest : List Nat)
    (acc : Time × List Nat) (hf : fieldnum = -1 ∨ fieldnum = 0) (hv : v.length < 2 ^ 64) :
    decodeStruct (fuel + 1) fieldnum (encodeUint (1 - fieldnum).toNat ++ encodeString v ++ rest)
        acc =
      decodeStruct fuel 1 rest (acc.1, v) := by
  have hdv : decValue (encodeString v ++ rest) = .ok (v, rest) := by
    unfold decValue encodeString
    rw [List.append_assoc, decodeUint_encodeUint _ hv]
    simp only [List.length_append]
    rw [if_neg (by omega), List.take_left, List.drop_left]
  rcases hf with rfl | rfl
  · have e : encodeUint (1 - (-1 : Int)).toNat = [2] := by decide
    rw [e, List.append_assoc]
    simp only [decodeStruct, List.singleton_append, List.length_cons, decodeUint,
      Nat.add_one_ne_zero, if_false]
    norm_num
    rw [hdv]
  · have e : encodeUint (1 - (0 : Int)).toNat = [1] := by decide
    rw [e, List.append_assoc]
    simp only [decodeStruct, List.singleton_append, List.length_cons, decodeUint,
      Nat.add_one_ne_zero, if_false]
    norm_num
    rw [hdv]

theorem decodeStruct_encodeStruct (t : Time) (v : List Nat) (hwf : t.WF) (hz : t.ZoneOK)
    (hv : v.length < 2 ^ 63) :
    ∃ body t', encodeStruct t v = .ok body ∧ body.length ≤ v.length + 40 ∧
      (∀ fuel, body.length + 1 ≤ fuel →
        decodeStruct fuel (-1) body (Time.zero, []) = .ok (t', v)) ∧
      t'.sec = t.sec ∧ t'.nsec = t.nsec ∧
      ((∀ off ∈ t.loc, 0 ≤ Int.tmod off 60) → t' = t) := by
  have hv64 : v.length < 2 ^ 64 := by
    have : (2 : Nat) ^ 63 < 2 ^ 64 := by norm_num
    omega
  have hes := encodeUint_length v.length
  by_cases htz : t = Time.zero
  · subst htz
    by_cases hve : v = []
    · subst hve
      refine ⟨[0], Time.zero, rfl, by simp, ?_, rfl, rfl, fun _ => rfl⟩
      intro fuel hfuel
      obtain ⟨f, rfl⟩ : ∃ f, fuel = f + 1 := ⟨fuel - 1, by simp at hfuel; omega⟩
      exact decodeStruct_terminator _ _ _ _
    · have hlen : v.length > 0 := List.length_pos.mpr hve
      refine ⟨encodeUint (1 - (-1 : Int)).toNat ++ encodeString v ++ [0], Time.zero, ?_, ?_, ?_,
        rfl, rfl, fun _ => rfl⟩
      · simp only [encodeStruct, encExpiration, if_true, encValue, hlen, List.nil_append]
      · have e : encodeUint (1 - (-1 : Int)).toNat = [2] := by decide
        simp only [e, encodeString, List.length_append, List.length_cons, List.length_nil]
        omega
      · intro fuel hfuel
        obtain ⟨f, rfl⟩ : ∃ f, fuel = f + 2 := ⟨fuel - 2, by
          simp only [List.length_append, List.length_cons, List.length_nil] at hfuel
          omega⟩
        rw [decodeStruct_value _ _ _ _ _ (Or.inl rfl) hv64]
        exact decodeStruct_terminator _ _ _ _
  · obtain ⟨data, t', hm, hd1, hd2, hu, hsec, hnsec, hloc⟩ := Time.unmarshal_marshal t hwf hz
    have hexp : encExpiration (-1) t =
        .ok ([1] ++ encodeUint data.length ++ data, 0) := by
      simp only [encExpiration, htz, if_false, hm]
      rfl
    have hel := encodeUint_length data.length
    by_cases hve : v = []
    · subst hve
      refine ⟨[1] ++ encodeUint data.length ++ data ++ [0], t', ?_, ?_, ?_, hsec, hnsec, hloc⟩
      · simp only [encodeStruct, hexp, encValue, List.length_nil, gt_iff_lt, Nat.lt_irrefl,
          if_false, List.append_nil]
      · simp only [List.length_append, List.length_cons, List.length_nil]
        omega
      · intro fuel hfuel
        obtain ⟨f, rfl⟩ : ∃ f, fuel = f + 2 := ⟨fuel - 2, by
          simp only [List.length_append, List.length_cons, List.length_nil] at hfuel
          omega⟩
        rw [decodeStruct_expiration _ _ _ _ _ hd2 hu]
        exact decodeStruct_terminator _ _ _ _
    · have hlen : v.length > 0 := List.length_pos.mpr hve
      refine ⟨[1] ++ encodeUint data.length ++ data ++
        (encodeUint (1 - (0 : Int)).toNat ++ encodeString v ++ [0]), t', ?_, ?_, ?_,
        hsec, hnsec, hloc⟩
      · simp only [encodeStruct, hexp, encValue, hlen, if_true, List.append_assoc]
      · have e : encodeUint (1 - (0 : Int)).toNat = [1] := by decide
        simp only [e, encodeString, List.length_append, List.length_cons, List.length_nil]
        omega
      · intro fuel hfuel
        obtain ⟨f, rfl⟩ : ∃ f, fuel = f + 3 := ⟨fuel - 3, by
          simp only [List.length_append, List.length_cons, List.length_nil] at hfuel
          omega⟩
        rw [decodeStruct_expiration _ _ _ _ _ hd2 hu,
          decodeStruct_value _ _ _ _ _ (Or.inr rfl) hv64]
        exact decodeStruct_terminator _ _ _ _

theorem message_length_pos (body : List Nat) : 1 ≤ (message body).length := by
  have := (encodeUint_length body.length).1
  simp only [message, List.length_append]
  omega

theorem typeDef_lengths (ids : TypeIds) :
    (encodeInt (-(ids.token : Int)) ++
      ([3] ++ ([1] ++ commonType "_Token" ids.token ++
        [1] ++ encodeUint 2 ++
          ([1] ++ encodeString (ascii "Expiration") ++ [1] ++ encodeInt ids.time ++ [0]) ++
          ([1] ++ encodeString (ascii "Value") ++ [1] ++ encodeInt 6 ++ [0]) ++
        [0]) ++ [0])).length < 2 ^ 64 ∧
    (encodeInt (-(ids.time : Int)) ++
      ([5] ++ ([1] ++ commonType "Time" ids.time ++ [0]) ++ [0])).length < 2 ^ 64 := by
  have a1 : (ascii "_Token").length = 6 := by decide
  have a2 : (ascii "Expiration").length = 10 := by decide
  have a3 : (ascii "Value").length = 5 := by decide
  have a4 : (ascii "Time").length = 4 := by decide
  have b1 := encodeInt_length (-(ids.token : Int))
  have b2 := encodeInt_length (ids.token : Int)
  have b3 := encodeInt_length (ids.time : Int)
  have b4 := encodeInt_length (-(ids.time : Int))
  have b5 := encodeInt_length 6
  have c1 := (encodeUint_length 6).2
  have c2 := (encodeUint_length 10).2
  have c3 := (encodeUint_length 5).2
  have c4 := (encodeUint_length 4).2
  have c5 := (encodeUint_length 2).2
  have big : (1000 : Nat) < 2 ^ 64 := by norm_num
  constructor
  · simp only [commonType, encodeString, List.length_append, List.length_cons, List.length_nil,
      a1, a2, a3]
    omega
  · simp only [commonType, encodeString, List.length_append, List.length_cons, List.length_nil,
      a4]
    omega

theorem decode_encode (ids : TypeIds) (t : Time) (v : List Nat) (hids : ids.WF) (hwf : t.WF)
    (hz : t.ZoneOK) (hv : v.length < 2 ^ 63) :
    ∃ bs t', Encode ids t v = .ok bs ∧ Decode bs = .ok (t', v) ∧
      t'.sec = t.sec ∧ t'.nsec = t.nsec ∧
      ((∀ off ∈ t.loc, 0 ≤ Int.tmod off 60) → t' = t) := by
  obtain ⟨body, t', henc, hlen, hdec, hsec, hnsec, hloc⟩ :=
    decodeStruct_encodeStruct t v hwf hz hv
  obtain ⟨i1, i2, i3, i4, i5⟩ := hids
  obtain ⟨l1, l2⟩ := typeDef_lengths ids
  have l3 : (encodeInt (ids.token : Int) ++ body).length < 2 ^ 64 := by
    have := encodeInt_length (ids.token : Int)
    have e63 : (2 : Nat) ^ 63 = 9223372036854775808 := by norm_num
    have e64 : (2 : Nat) ^ 64 = 18446744073709551616 := by norm_num
    simp only [List.length_append]
    omega
  refine ⟨tokenTypeDef ids ++ timeTypeDef ids ++ message (encodeInt ids.token ++ body), t',
    ?_, ?_, hsec, hnsec, hloc⟩
  · simp only [Encode, henc]
  · have hfuel : ∃ f, (tokenTypeDef ids ++ timeTypeDef ids ++
        message (encodeInt ids.token ++ body)).length + 1 = f + 3 := by
      have p1 := message_length_pos (encodeInt (-(ids.token : Int)) ++
        ([3] ++ ([1] ++ commonType "_Token" ids.token ++
          [1] ++ encodeUint 2 ++
            ([1] ++ encodeString (ascii "Expiration") ++ [1] ++ encodeInt ids.time ++ [0]) ++
            ([1] ++ encodeString (ascii "Value") ++ [1] ++ encodeInt 6 ++ [0]) ++
          [0]) ++ [0]))
      have p2 := message_length_pos (encodeInt (-(ids.time : Int)) ++
        ([5] ++ ([1] ++ commonType "Time" ids.time ++ [0]) ++ [0]))
      have p3 := message_length_pos (encodeInt (ids.token : Int) ++ body)
      refine ⟨(tokenTypeDef ids ++ timeTypeDef ids ++
        message (encodeInt ids.token ++ body)).length + 1 - 3, ?_⟩
      simp only [tokenTypeDef, timeTypeDef, List.length_append] at p1 p2 p3 ⊢
      omega
    obtain ⟨f, hf⟩ := hfuel
    unfold Decode
    rw [hf, List.append_assoc]
    unfold tokenTypeDef
    rw [decodeTypeSequence_typeDef _ _ _ _ _ i1 i2 (by simp) l1]
    unfold timeTypeDef
    rw [decodeTypeSequence_typeDef _ _ _ _ _ i3 i4 (by
      simp only [List.mem_singleton]
      intro h
      exact i5 (by exact_mod_cast h.symm)) l2]
    rw [← List.append_nil (message (encodeInt (ids.token : Int) ++ body)),
      decodeTypeSequence_value _ _ _ _ _ i2 l3]
    simp only
    rw [if_neg (by simp)]
    exact hdec _ (Nat.le_refl _)

end gob

/-- C1: for every token (any expiration instant, the zero instant included, any
value), `UnmarshalBinary` applied to the bytes produced by `MarshalBinary`
succeeds and yields a token with the same expiration instant and the same
value; the whole record is reproduced, location included, when the expiration
is in UTC or in a zone whose offset has no negative seconds part. The
hypotheses are the ranges of the Go types and the zones `Time.MarshalBinary`
accepts. -/
theorem Token.binary_roundtrip (ids : gob.TypeIds) (t : Token) (hids : ids.WF) (ht : t.WF)
    (hz : t.Expiration.ZoneOK) :
    ∃ bs t', t.MarshalBinary ids = .ok bs ∧ Token.UnmarshalBinary bs = .ok t' ∧
      t'.Expiration.Equal t.Expiration = true ∧ t'.Value = t.Value ∧
      ((∀ off ∈ t.Expiration.loc, 0 ≤ Int.tmod off 60) → t' = t) := by
  obtain ⟨bs, e, henc, hdec, hsec, hnsec, hloc⟩ :=
    gob.decode_encode ids t.Expiration t.Value hids ht.1 hz ht.2
  refine ⟨bs, ⟨e, t.Value⟩, ?_, ?_, ?_, rfl, ?_⟩
  · simp only [Token.MarshalBinary, henc]
  · simp only [Token.UnmarshalBinary, hdec]
  · simp [Time.Equal, hsec, hnsec]
  · intro h
    rw [hloc h]

/-- C1 at a token expiring in a zone one hour west of UTC. -/
theorem Token.binary_roundtrip_witness :
    ∃ bs t', Token.MarshalBinary ⟨65, 66⟩ ⟨⟨63900000000, 5, some (-3600)⟩, [107, 56, 115]⟩ =
        .ok bs ∧
      Token.UnmarshalBinary bs = .ok t' ∧
      t'.Expiration.Equal (Time.mk 63900000000 5 (some (-3600))) = true ∧
      t'.Value = [107, 56, 115] ∧
      ((∀ off ∈ (some (-3600) : Option Int), 0 ≤ Int.tmod off 60) →
        t' = ⟨⟨63900000000, 5, some (-3600)⟩, [107, 56, 115]⟩) :=
  Token.binary_roundtrip ⟨65, 66⟩ ⟨⟨63900000000, 5, some (-3600)⟩, [107, 56, 115]⟩
    (by decide) (by decide) (by decide)

/-! ## The token pipeline -/

theorem Token.unmarshalBinary_nil : ∃ e, Token.UnmarshalBinary [] = .error e :=
  ⟨_, rfl⟩

theorem mintCount_append (a b : List Event) : mintCount (a ++ b) = mintCount a + mintCount b := by
  simp [mintCount, List.count_append]

theorem mintCount_lookup (w : Ambient) (cacher : Option cache.Cache) (ck : String) :
    mintCount (lookup w cacher ck).2 = 0 := by
  unfold lookup
  cases cacher with
  | none => rfl
  | some c =>
    simp only
    have h0 : ∀ err : Option cache.Error, mintCount ([Event.cacheGet ck] ++
        (if err ≠ none ∧ err ≠ some cache.Error.ErrEntryNotFound then
          [Event.log "error retrieving token from cache"] else [])) = 0 := by
      intro err
      split <;> rfl
    split
    · split
      · split
        · exact h0 _
        · exact h0 _
      · rw [mintCount_append, h0]
        rfl
    · exact h0 _

theorem mintCount_store (w : Ambient) (cacher : Option cache.Cache) (ck : String) (tk : Token) :
    mintCount (store w cacher ck tk) = 0 := by
  unfold store
  cases cacher with
  | none => rfl
  | some c =>
    simp only
    cases tk.MarshalBinary w.gobIds with
    | error e => rfl
    | ok bs =>
      simp only
      split
      · rw [mintCount_append, mintCount_append]
        split <;> rfl
      · rfl

theorem lookup_some_iff (w : Ambient) (c : cache.Cache) (ck : String) (tk : Token) :
    (lookup w (some c) ck).1 = some tk ↔
      (Token.UnmarshalBinary (c.Get ck).1 = .ok tk ∧ tk.Expired w.Now = false) := by
  unfold lookup
  simp only
  by_cases hb : (c.Get ck).1.length ≠ 0
  · rw [if_pos hb]
    cases hu : Token.UnmarshalBinary (c.Get ck).1 with
    | error e => simp
    | ok tk1 =>
      simp only
      by_cases he : tk1.Expired w.Now = true
      · simp [he]
        intro h
        subst h
        exact he
      · simp only [Bool.not_eq_true] at he
        simp [he]
        intro h
        subst h
        exact he
  · rw [if_neg hb]
    have : (c.Get ck).1 = [] := List.length_eq_zero.mp (by simpa using hb)
    rw [this]
    obtain ⟨e, he⟩ := Token.unmarshalBinary_nil
    simp [he]

theorem pipeline_hit (w : Ambient) (pre : String) (cacher : Option cache.Cache) (ck : String)
    (m : Except String Token) (tk : Token) (h : (lookup w cacher ck).1 = some tk) :
    (pipeline w pre cacher ck m).result = .ok tk ∧
      mintCount (pipeline w pre cacher ck m).trace = 0 := by
  have hc := mintCount_lookup w cacher ck
  unfold pipeline
  generalize lookup w cacher ck = x at h hc
  obtain ⟨r, tr⟩ := x
  simp only at h hc
  subst h
  exact ⟨rfl, hc⟩

theorem pipeline_miss (w : Ambient) (pre : String) (cacher : Option cache.Cache) (ck : String)
    (m : Except String Token) (h : (lookup w cacher ck).1 = none) :
    mintCount (pipeline w pre cacher ck m).trace = 1 ∧
      (pipeline w pre cacher ck m).result =
        (match m with
          | .error err => .error (pre ++ err)
          | .ok tk => .ok tk) := by
  have hc := mintCount_lookup w cacher ck
  unfold pipeline
  generalize lookup w cacher ck = x at h hc
  obtain ⟨r, tr⟩ := x
  simp only at h hc
  subst h
  cases m with
  | error e =>
    refine ⟨?_, rfl⟩
    simp only [mintCount_append, hc]
    rfl
  | ok tk =>
    refine ⟨?_, rfl⟩
    simp only [mintCount_append, hc, mintCount_store]
    rfl

theorem IsValidRun.eq_pipeline {w : Ambient} {cacher : Option cache.Cache} {key : String}
    {m : Except String Token} {run : Run} (h : IsValidRun w cacher key m run) :
    ∃ pre, run = pipeline w pre cacher key m := by
  rcases h with ⟨g, opts, hv, hk, hm, hr⟩ | ⟨g, opts, hv, hk, hm, hr⟩ | ⟨g, opts, hv, hk, hm, hr⟩
  · refine ⟨"error getting security token: ", ?_⟩
    subst hk hm hr
    unfold aws.GetToken pipeline
    generalize opts.Validate w = x at hv
    obtain ⟨o, e⟩ := x
    simp only at hv
    subst hv
    rfl
  · refine ⟨"error getting credential token: ", ?_⟩
    subst hk hm hr
    unfold azure.GetToken pipeline
    generalize opts.Validate w = x at hv
    obtain ⟨o, e⟩ := x
    simp only at hv
    subst hv
    rfl
  · refine ⟨"error getting credential token: ", ?_⟩
    subst hk hm hr
    unfold gcp.GetToken pipeline
    generalize opts.Validate w = x at hv
    obtain ⟨o, e⟩ := x
    simp only at hv
    subst hv
    rfl

/-- C5: for options that pass validation and a cache: when the bytes returned
by `Get` decode to a token that is not expired, `GetToken` returns exactly that
token and does not invoke the minting adapter; when `Get` returns no bytes, or
bytes that do not decode, or a token that is expired, the minting adapter is
invoked exactly once. -/
theorem getToken_cache_spec (w : Ambient) (c : cache.Cache) (key : String)
    (m : Except String Token) (run : Run) (h : IsValidRun w (some c) key m run) :
    (∀ tk, Token.UnmarshalBinary (c.Get key).1 = .ok tk → tk.Expired w.Now = false →
      run.result = .ok tk ∧ mintCount run.trace = 0) ∧
    (((c.Get key).1 = [] ∨ (∃ e, Token.UnmarshalBinary (c.Get key).1 = .error e) ∨
        (∃ tk, Token.UnmarshalBinary (c.Get key).1 = .ok tk ∧ tk.Expired w.Now = true)) →
      mintCount run.trace = 1) := by
  obtain ⟨pre, rfl⟩ := h.eq_pipeline
  constructor
  · intro tk hu he
    exact pipeline_hit w pre _ key m tk ((lookup_some_iff w c key tk).mpr ⟨hu, he⟩)
  · intro hcase
    have hnone : (lookup w (some c) key).1 = none := by
      cases hl : (lookup w (some c) key).1 with
      | none => rfl
      | some tk =>
        exfalso
        obtain ⟨hu, he⟩ := (lookup_some_iff w c key tk).mp hl
        rcases hcase with h0 | ⟨e, h1⟩ | ⟨tk2, h2, h3⟩
        · rw [h0] at hu
          obtain ⟨e, he2⟩ := Token.unmarshalBinary_nil
          rw [he2] at hu
          cases hu
        · rw [h1] at hu
          cases hu
        · rw [h2] at hu
          cases hu
          rw [he] at h3
          cases h3
    exact (pipeline_miss w pre _ key m hnone).1

/-- C5 at an AWS call that finds nothing in the cache. -/
theorem getToken_cache_spec_witness :
    (∀ tk, Token.UnmarshalBinary (scenario.emptyCache.Get scenario.key).1 = .ok tk →
      tk.Expired scenario.firstCall.Now = false →
      scenario.firstRun.result = .ok tk ∧ mintCount scenario.firstRun.trace = 0) ∧
    (((scenario.emptyCache.Get scenario.key).1 = [] ∨
        (∃ e, Token.UnmarshalBinary (scenario.emptyCache.Get scenario.key).1 = .error e) ∨
        (∃ tk, Token.UnmarshalBinary (scenario.emptyCache.Get scenario.key).1 = .ok tk ∧
          tk.Expired scenario.firstCall.Now = true)) →
      mintCount scenario.firstRun.trace = 1) :=
  getToken_cache_spec scenario.firstCall scenario.emptyCache scenario.key
    (scenario.minted scenario.firstCall.Now [107, 56, 115, 1]
      (scenario.opts.Validate scenario.firstCall).1)
    scenario.firstRun
    (Or.inl ⟨_, scenario.opts, by decide, by decide, rfl, rfl⟩)

/-- C7: for options that pass validation, `GetToken` fails if and only if the
minting adapter is invoked and fails, whatever `Get` and `Set` of the cache
answer; and when the adapter is invoked and succeeds, the minted token is
returned. -/
theorem getToken_failure_spec (w : Ambient) (cacher : Option cache.Cache) (key : String)
    (m : Except String Token) (run : Run) (h : IsValidRun w cacher key m run) :
    ((∃ e, run.result = .error e) ↔ (mintCount run.trace = 1 ∧ ∃ e, m = .error e)) ∧
    (mintCount run.trace = 1 → ∀ tk, m = .ok tk → run.result = .ok tk) := by
  obtain ⟨pre, rfl⟩ := h.eq_pipeline
  cases hl : (lookup w cacher key).1 with
  | some tk =>
    obtain ⟨h1, h2⟩ := pipeline_hit w pre cacher key m tk hl
    constructor
    · constructor
      · rintro ⟨e, he⟩
        rw [h1] at he
        cases he
      · rintro ⟨hc, -⟩
        rw [h2] at hc
        cases hc
    · intro hc
      rw [h2] at hc
      cases hc
  | none =>
    obtain ⟨h1, h2⟩ := pipeline_miss w pre cacher key m hl
    constructor
    · constructor
      · rintro ⟨e, he⟩
        refine ⟨h1, ?_⟩
        cases m with
        | error e2 => exact ⟨e2, rfl⟩
        | ok tk =>
          rw [h2] at he
          cases he
      · rintro ⟨-, e, he⟩
        subst he
        exact ⟨_, h2⟩
    · intro _ tk hm
      subst hm
      exact h2

/-- C7 at an Azure call whose cache fails on both `Get` and `Set`. -/
theorem getToken_failure_spec_witness :
    ((∃ e, (azure.GetToken ⟨fun s => s, ⟨63900000000, 0, none⟩, ⟨65, 66⟩⟩
          (fun _ => .ok ⟨⟨63900003600, 0, none⟩, [97]⟩)
          ⟨"client", "secret", "tenant123", "https://management.azure.com/.default"⟩
          (some ⟨fun _ => ([], some (.other "i/o error")),
            fun _ _ => some (.other "i/o error")⟩)).result = .error e) ↔
      (mintCount (azure.GetToken ⟨fun s => s, ⟨63900000000, 0, none⟩, ⟨65, 66⟩⟩
          (fun _ => .ok ⟨⟨63900003600, 0, none⟩, [97]⟩)
          ⟨"client", "secret", "tenant123", "https://management.azure.com/.default"⟩
          (some ⟨fun _ => ([], some (.other "i/o error")),
            fun _ _ => some (.other "i/o error")⟩)).trace = 1 ∧
        ∃ e, (.ok ⟨⟨63900003600, 0, none⟩, [97]⟩ : Except String Token) = .error e)) ∧
    (mintCount (azure.GetToken ⟨fun s => s, ⟨63900000000, 0, none⟩, ⟨65, 66⟩⟩
          (fun _ => .ok ⟨⟨63900003600, 0, none⟩, [97]⟩)
          ⟨"client", "secret", "tenant123", "https://management.azure.com/.default"⟩
          (some ⟨fun _ => ([], some (.other "i/o error")),
            fun _ _ => some (.other "i/o error")⟩)).trace = 1 →
      ∀ tk, (.ok ⟨⟨63900003600, 0, none⟩, [97]⟩ : Except String Token) = .ok tk →
        (azure.GetToken ⟨fun s => s, ⟨63900000000, 0, none⟩, ⟨65, 66⟩⟩
          (fun _ => .ok ⟨⟨63900003600, 0, none⟩, [97]⟩)
          ⟨"client", "secret", "tenant123", "https://management.azure.com/.default"⟩
          (some ⟨fun _ => ([], some (.other "i/o error")),
            fun _ _ => some (.other "i/o error")⟩)).result = .ok tk) :=
  getToken_failure_spec ⟨fun s => s, ⟨63900000000, 0, none⟩, ⟨65, 66⟩⟩
    (some ⟨fun _ => ([], some (.other "i/o error")), fun _ _ => some (.other "i/o error")⟩)
    "azure_client_tenant123_https://management.azure.com/.default"
    (.ok ⟨⟨63900003600, 0, none⟩, [97]⟩) _
    (Or.inr (Or.inl ⟨fun _ => .ok ⟨⟨63900003600, 0, none⟩, [97]⟩,
      ⟨"client", "secret", "tenant123", "https://management.azure.com/.default"⟩,
      by decide, by decide, rfl, rfl⟩))

/-! ## Two consecutive calls -/

theorem storedEntry_append (key : String) (before : List Nat) (a b : List Event) :
    storedEntry key before (a ++ b) = storedEntry key (storedEntry key before a) b := by
  induction a generalizing before with
  | nil => rfl
  | cons e a ih =>
    cases e <;> simp only [List.cons_append, storedEntry] <;> exact ih _

theorem storedEntry_lookup (w : Ambient) (cacher : Option cache.Cache) (ck key : String)
    (before : List Nat) : storedEntry key before (lookup w cacher ck).2 = before := by
  unfold lookup
  cases cacher with
  | none => rfl
  | some c =>
    simp only
    have h0 : ∀ err : Option cache.Error, storedEntry key before ([Event.cacheGet ck] ++
        (if err ≠ none ∧ err ≠ some cache.Error.ErrEntryNotFound then
          [Event.log "error retrieving token from cache"] else [])) = before := by
      intro err
      split <;> rfl
    split
    · split
      · split
        · exact h0 _
        · exact h0 _
      · rw [storedEntry_append, h0]
        rfl
    · exact h0 _

theorem storedEntry_store (w : Ambient) (c : cache.Cache) (key : String) (tk : Token)
    (before bs : List Nat) (hm : tk.MarshalBinary w.gobIds = .ok bs) (hne : bs ≠ []) :
    storedEntry key before (store w (some c) key tk) = bs := by
  have hlen : bs.length ≠ 0 := fun h => hne (List.length_eq_zero.mp h)
  unfold store
  simp only [hm, hlen, ne_eq, not_false_eq_true, if_true, List.nil_append]
  split <;> simp [storedEntry]

theorem pipeline_hit_trace (w : Ambient) (pre : String) (cacher : Option cache.Cache)
    (ck : String) (m : Except String Token) (tk : Token)
    (h : (lookup w cacher ck).1 = some tk) :
    (pipeline w pre cacher ck m).trace = (lookup w cacher ck).2 := by
  unfold pipeline
  generalize lookup w cacher ck = x at h
  obtain ⟨r, tr⟩ := x
  simp only at h
  subst h
  rfl

theorem pipeline_miss_trace (w : Ambient) (pre : String) (cacher : Option cache.Cache)
    (ck : String) (tk : Token) (h : (lookup w cacher ck).1 = none) :
    (pipeline w pre cacher ck (.ok tk)).trace =
      (lookup w cacher ck).2 ++ [Event.mint] ++ store w cacher ck tk := by
  unfold pipeline
  generalize lookup w cacher ck = x at h
  obtain ⟨r, tr⟩ := x
  simp only at h
  subst h
  rfl

theorem Token.expired_congr (a b : Token) (now : Time)
    (h1 : a.Expiration.sec = b.Expiration.sec) (h2 : a.Expiration.nsec = b.Expiration.nsec) :
    a.Expired now = b.Expired now := by
  simp only [Token.Expired, Time.IsZero, Time.Before, h1, h2]

/-- C6, as stated, fails: two AWS calls with the same valid options, 14 minutes
30 seconds apart (within the default `entry_max_age` of 15 minutes), the second
finding in the cache the entry the first one stored, return different tokens,
because the first token (valid for 14 minutes) has expired and the second call
mints again. -/
theorem getToken_repeat_counterexample :
    (scenario.opts.Validate scenario.firstCall).2 = none ∧
    scenario.secondCall.Now.nanos - scenario.firstCall.Now.nanos ≤ 15 * Time.Minute ∧
    storedEntry scenario.key [] scenario.firstRun.trace ≠ [] ∧
    scenario.firstRun.result = .ok ⟨⟨63900000840, 0, some 0⟩, [107, 56, 115, 1]⟩ ∧
    scenario.secondRun.result = .ok ⟨⟨63900001710, 0, some 0⟩, [107, 56, 115, 2]⟩ ∧
    mintCount scenario.secondRun.trace = 1 :=
  ⟨by decide, by decide, by decide, rfl, rfl, by decide⟩

/-- C6, amended: for valid options, when a first `GetToken` call returned the
token `tk`, a second call on the same key that finds in the cache what the
first call left there (the entry it stored, or the one it read when it stored
none), and at whose clock reading `tk` is not expired, returns a token with the
same value and the same expiration instant without invoking the minting
adapter. The token is in the range of the Go types and in a zone
`Time.MarshalBinary` accepts. -/
theorem getToken_repeat_spec (w1 w2 : Ambient) (c1 c2 : cache.Cache) (key : String)
    (m1 m2 : Except String Token) (run1 run2 : Run) (tk : Token)
    (hids : w1.gobIds.WF)
    (h1 : IsValidRun w1 (some c1) key m1 run1) (h2 : IsValidRun w2 (some c2) key m2 run2)
    (hres : run1.result = .ok tk) (hwf : tk.WF) (hz : tk.Expiration.ZoneOK)
    (hcache : (c2.Get key).1 = storedEntry key (c1.Get key).1 run1.trace)
    (hfresh : tk.Expired w2.Now = false) :
    ∃ tk2, run2.result = .ok tk2 ∧ tk2.Value = tk.Value ∧
      tk2.Expiration.Equal tk.Expiration = true ∧ mintCount run2.trace = 0 := by
  obtain ⟨pre1, rfl⟩ := h1.eq_pipeline
  obtain ⟨pre2, rfl⟩ := h2.eq_pipeline
  cases hl : (lookup w1 (some c1) key).1 with
  | some tk1 =>
    obtain ⟨hr, -⟩ := pipeline_hit w1 pre1 _ key m1 tk1 hl
    rw [hr] at hres
    cases hres
    rw [pipeline_hit_trace w1 pre1 _ key m1 tk hl, storedEntry_lookup] at hcache
    obtain ⟨hu, -⟩ := (lookup_some_iff w1 c1 key tk).mp hl
    rw [← hcache] at hu
    obtain ⟨r2, c2'⟩ := pipeline_hit w2 pre2 _ key m2 tk
      ((lookup_some_iff w2 c2 key tk).mpr ⟨hu, hfresh⟩)
    exact ⟨tk, r2, rfl, by simp [Time.Equal], c2'⟩
  | none =>
    obtain ⟨-, hr⟩ := pipeline_miss w1 pre1 _ key m1 hl
    rw [hr] at hres
    cases m1 with
    | error e => cases hres
    | ok tk1 =>
      simp only at hres
      cases hres
      obtain ⟨bs, t', henc, hdec, hsec, hnsec, -⟩ :=
        gob.decode_encode w1.gobIds tk.Expiration tk.Value hids hwf.1 hz hwf.2
      have hm : tk.MarshalBinary w1.gobIds = .ok bs := by
        simp only [Token.MarshalBinary, henc]
      have hu : Token.UnmarshalBinary bs = .ok ⟨t', tk.Value⟩ := by
        simp only [Token.UnmarshalBinary, hdec]
      have hne : bs ≠ [] := by
        intro h
        rw [h] at hu
        obtain ⟨e, he⟩ := Token.unmarshalBinary_nil
        rw [he] at hu
        cases hu
      rw [pipeline_miss_trace w1 pre1 _ key tk hl, storedEntry_append, storedEntry_append,
        storedEntry_store w1 c1 key tk _ bs hm hne] at hcache
      rw [← hcache] at hu
      have he : Token.Expired ⟨t', tk.Value⟩ w2.Now = false := by
        rw [Token.expired_congr ⟨t', tk.Value⟩ tk w2.Now hsec hnsec]
        exact hfresh
      obtain ⟨r2, c2'⟩ := pipeline_hit w2 pre2 _ key m2 ⟨t', tk.Value⟩
        ((lookup_some_iff w2 c2 key _).mpr ⟨hu, he⟩)
      exact ⟨⟨t', tk.Value⟩, r2, rfl, by simp [Time.Equal, hsec, hnsec], c2'⟩

/-- C6, amended, at the scenario in which the second call comes one minute
after the first. -/
theorem getToken_repeat_spec_witness :
    ∃ tk2, scenario.soonRun.result = .ok tk2 ∧ tk2.Value = [107, 56, 115, 1] ∧
      tk2.Expiration.Equal (Time.mk 63900000840 0 (some 0)) = true ∧
      mintCount scenario.soonRun.trace = 0 :=
  getToken_repeat_spec scenario.firstCall scenario.soonCall scenario.emptyCache
    (scenario.cacheHolding scenario.key (storedEntry scenario.key [] scenario.firstRun.trace))
    scenario.key
    (scenario.minted scenario.firstCall.Now [107, 56, 115, 1]
      (scenario.opts.Validate scenario.firstCall).1)
    (scenario.minted scenario.soonCall.Now [107, 56, 115, 2]
      (scenario.opts.Validate scenario.soonCall).1)
    scenario.firstRun scenario.soonRun ⟨⟨63900000840, 0, some 0⟩, [107, 56, 115, 1]⟩
    (by decide)
    (Or.inl ⟨_, scenario.opts, by decide, by decide, rfl, rfl⟩)
    (Or.inl ⟨_, scenario.opts, by decide, by decide, rfl, rfl⟩)
    rfl (by decide) (by decide) (by decide) (by decide)

/-! ## JSON round trip -/

/-- C2 fails on the code: on the bytes `MarshalJSON` produced (or any input the
decoder accepts as a JSON value) `UnmarshalJSON` re-enters itself without end,
so that no nesting depth suffices for it to return a token. The scanner is
taken to accept again, unchanged, a value it has returned. -/
theorem Token.unmarshalJSON_never_returns (c : json.Codec) (t : Token) (bs raw : List Nat)
    (depth : Nat) (_hm : t.MarshalJSON c = .ok bs) (hs : c.scan bs = .ok raw)
    (hi : c.scan raw = .ok raw) :
    Token.UnmarshalJSON c depth bs = none := by
  have hraw : ∀ d, Token.UnmarshalJSON c d raw = none := by
    intro d
    induction d with
    | zero => rfl
    | succ d ih => simp only [Token.UnmarshalJSON, hi, ih]
  cases depth with
  | zero => rfl
  | succ d => simp only [Token.UnmarshalJSON, hs, hraw d]

/-- C2 at the zero token, whose JSON form is
`{"expiration":"0001-01-01T00:00:00Z","value":""}` followed by a newline, with
room for a million nested calls. -/
theorem Token.unmarshalJSON_never_returns_witness :
    Token.UnmarshalJSON scenario.zeroTokenCodec 1000000 (scenario.zeroTokenJSON ++ [10]) =
      none :=
  Token.unmarshalJSON_never_returns scenario.zeroTokenCodec ⟨Time.zero, []⟩
    (scenario.zeroTokenJSON ++ [10]) scenario.zeroTokenJSON 1000000 rfl rfl rfl

/-! ## The provider handlers -/

theorem SplitN_length_pos (s : List Char) (n : Nat) : 1 ≤ (SplitN s (n + 1)).length := by
  induction n generalizing s with
  | zero => simp [SplitN]
  | succ n ih =>
    unfold SplitN
    split
    · simp
    · simp

theorem SplitN_short_iff (s : List Char) (n : Nat) :
    (SplitN s (n + 2)).length < 2 ↔ '/' ∉ s := by
  unfold SplitN
  have hspan := List.span_eq_take_drop (fun c => decide (c ≠ '/')) s
  generalize List.span (fun c => decide (c ≠ '/')) s = x at hspan
  obtain ⟨a, b⟩ := x
  simp only [Prod.mk.injEq] at hspan
  obtain ⟨ha, hb⟩ := hspan
  cases b with
  | nil =>
    simp only [List.length_singleton, Nat.one_lt_ofNat, true_iff]
    intro hmem
    have : List.dropWhile (fun c => decide (c ≠ '/')) s = [] := hb.symm
    rw [List.dropWhile_eq_nil_iff] at this
    have := this '/' hmem
    simp at this
  | cons c rest =>
    have h1 := SplitN_length_pos rest n
    simp only [List.length_cons]
    constructor
    · intro h
      omega
    · intro hno
      exfalso
      have hmem : c ∈ List.dropWhile (fun c => decide (c ≠ '/')) s := by
        rw [← hb]
        exact List.mem_cons_self _ _
      have hc : c = '/' := by
        have hne : List.dropWhile (fun c => decide (c ≠ '/')) s ≠ [] := by
          rw [← hb]
          simp
        have := List.head_dropWhile_not (fun c => decide (c ≠ '/')) s hne
        simp only [← hb, List.head_cons] at this
        simpa using this
      subst hc
      exact hno ((List.dropWhile_sublist _).subset hmem)

theorem dropWhile_slash (s : List Char) (h : '/' ∈ s) :
    s.dropWhile (fun c => decide (c ≠ '/')) = '/' :: afterSlash s := by
  induction s with
  | nil => cases h
  | cons c cs ih =>
    by_cases hc : c = '/'
    · subst hc
      simp [afterSlash, List.dropWhile]
    · have hmem : '/' ∈ cs := by
        rcases List.mem_cons.mp h with h | h
        · exact absurd h.symm hc
        · exact h
      have e : (c :: cs).dropWhile (fun c => decide (c ≠ '/')) =
          cs.dropWhile (fun c => decide (c ≠ '/')) := by
        simp [List.dropWhile, hc]
      have e2 : afterSlash (c :: cs) = afterSlash cs := by
        unfold afterSlash
        rw [e]
      rw [e, ih hmem, e2]

theorem span_slash (s : List Char) (h : '/' ∈ s) :
    s.span (fun c => decide (c ≠ '/')) = (beforeSlash s, '/' :: afterSlash s) := by
  rw [List.span_eq_take_drop, dropWhile_slash s h]
  rfl

theorem span_no_slash (s : List Char) (h : '/' ∉ s) :
    s.span (fun c => decide (c ≠ '/')) = (s, []) := by
  rw [List.span_eq_take_drop]
  have h1 : s.takeWhile (fun c => decide (c ≠ '/')) = s := by
    rw [List.takeWhile_eq_self_iff]
    intro c hc
    simp only [ne_eq, decide_not, Bool.not_eq_true', decide_eq_false_iff_not]
    intro e
    exact h (e ▸ hc)
  have h2 : s.dropWhile (fun c => decide (c ≠ '/')) = [] := by
    rw [List.dropWhile_eq_nil_iff]
    intro c hc
    simp only [ne_eq, decide_not, Bool.not_eq_true', decide_eq_false_iff_not]
    intro e
    exact h (e ▸ hc)
  rw [h1, h2]

theorem before_after_slash (s : List Char) (h : '/' ∈ s) :
    beforeSlash s ++ '/' :: afterSlash s = s := by
  have := List.takeWhile_append_dropWhile (fun c => decide (c ≠ '/')) s
  rw [dropWhile_slash s h] at this
  exact this

theorem SplitN_two (s : List Char) (h : '/' ∈ s) :
    SplitN s 2 = [beforeSlash s, afterSlash s] := by
  rw [SplitN, span_slash s h]
  simp [SplitN]

theorem SplitN_three (s : List Char) (h : '/' ∈ s) :
    SplitN s 3 =
      if '/' ∈ afterSlash s then
        [beforeSlash s, beforeSlash (afterSlash s), afterSlash (afterSlash s)]
      else [beforeSlash s, afterSlash s] := by
  rw [SplitN, span_slash s h]
  simp only
  by_cases h2 : '/' ∈ afterSlash s
  · rw [if_pos h2, SplitN_two _ h2]
  · rw [if_neg h2, SplitN, span_no_slash _ h2]

theorem aws.awsParsePath_none (o : aws.TokenOptions) (p : String) :
    aws.parsePath o p = none ↔ '/' ∉ p.toList := by
  unfold aws.parsePath
  simp only
  rw [← SplitN_short_iff p.toList 1]
  constructor
  · intro h
    by_contra hcon
    rw [if_neg hcon] at h
    split at h <;> cases h
  · intro h
    rw [if_pos h]

theorem azure.azureParsePath_none (o : azure.TokenOptions) (p : String) :
    azure.parsePath o p = none ↔ '/' ∉ p.toList := by
  unfold azure.parsePath
  simp only
  rw [← SplitN_short_iff p.toList 0]
  constructor
  · intro h
    by_contra hcon
    rw [if_neg hcon] at h
    cases h
  · intro h
    rw [if_pos h]

theorem gcp.gcpParsePath_none (o : gcp.TokenOptions) (p : String) :
    gcp.parsePath o p = none ↔ '/' ∉ p.toList := by
  unfold gcp.parsePath
  simp only
  rw [← SplitN_short_iff p.toList 0]
  constructor
  · intro h
    by_contra hcon
    rw [if_neg hcon] at h
    cases h
  · intro h
    rw [if_pos h]

/-- C11: in every provider handler the checks run in the order method,
Basic-Auth, path arity: a request that is not a GET is answered 405 whatever
else it carries, a GET without Basic-Auth 401, a GET with Basic-Auth whose
stripped path has no `/` 400, and in the three cases `GetToken` is not
called. -/
theorem serve_checks_spec (s : ServeOptions) (r : http.Request) (served : Served)
    (h : IsServed s r served) :
    (r.Method ≠ "GET" → served.response.Status = 405 ∧ served.run = none) ∧
    (r.Method = "GET" → r.BasicAuth = none →
      served.response.Status = 401 ∧ served.run = none) ∧
    (r.Method = "GET" → r.BasicAuth ≠ none → '/' ∉ r.Path.toList →
      served.response.Status = 400 ∧ served.run = none) := by
  rcases h with ⟨g, rfl⟩ | ⟨g, rfl⟩ | ⟨g, rfl⟩
  · refine ⟨?_, ?_, ?_⟩
    · intro hm
      simp only [aws.ServeHTTP, hm, ne_eq, not_false_eq_true, if_true]
      constructor <;> first | rfl | trivial
    · intro hm hb
      simp only [aws.ServeHTTP, hm, hb, ne_eq, not_true_eq_false, if_false]
      constructor <;> first | rfl | trivial
    · intro hm hb hp
      cases hba : r.BasicAuth with
      | none => exact absurd hba hb
      | some up =>
        obtain ⟨u, pw⟩ := up
        simp only [aws.ServeHTTP, hm, hba, ne_eq, not_true_eq_false, if_false,
          (aws.awsParsePath_none _ _).mpr hp]
        constructor <;> first | rfl | trivial
  · refine ⟨?_, ?_, ?_⟩
    · intro hm
      simp only [azure.ServeHTTP, hm, ne_eq, not_false_eq_true, if_true]
      constructor <;> first | rfl | trivial
    · intro hm hb
      simp only [azure.ServeHTTP, hm, hb, ne_eq, not_true_eq_false, if_false]
      constructor <;> first | rfl | trivial
    · intro hm hb hp
      cases hba : r.BasicAuth with
      | none => exact absurd hba hb
      | some up =>
        obtain ⟨u, pw⟩ := up
        simp only [azure.ServeHTTP, hm, hba, ne_eq, not_true_eq_false, if_false,
          (azure.azureParsePath_none _ _).mpr hp]
        constructor <;> first | rfl | trivial
  · refine ⟨?_, ?_, ?_⟩
    · intro hm
      simp only [gcp.ServeHTTP, hm, ne_eq, not_false_eq_true, if_true]
      constructor <;> first | rfl | trivial
    · intro hm hb
      simp only [gcp.ServeHTTP, hm, hb, ne_eq, not_true_eq_false, if_false]
      constructor <;> first | rfl | trivial
    · intro hm hb hp
      cases hba : r.BasicAuth with
      | none => exact absurd hba hb
      | some up =>
        obtain ⟨u, pw⟩ := up
        simp only [gcp.ServeHTTP, hm, hba, ne_eq, not_true_eq_false, if_false,
          (gcp.gcpParsePath_none _ _).mpr hp]
        constructor <;> first | rfl | trivial

/-- C11 at a POST request to the GCP handler that carries no credentials and a
path without `/`. -/
theorem serve_checks_spec_witness :
    (("POST" : String) ≠ "GET" →
      (gcp.ServeHTTP scenario.serveOptions (fun _ => .error "unreachable")
          ⟨"POST", none, "us-central1", ""⟩).response.Status = 405 ∧
        (gcp.ServeHTTP scenario.serveOptions (fun _ => .error "unreachable")
          ⟨"POST", none, "us-central1", ""⟩).run = none) ∧
    (("POST" : String) = "GET" → (none : Option (String × String)) = none →
      (gcp.ServeHTTP scenario.serveOptions (fun _ => .error "unreachable")
          ⟨"POST", none, "us-central1", ""⟩).response.Status = 401 ∧
        (gcp.ServeHTTP scenario.serveOptions (fun _ => .error "unreachable")
          ⟨"POST", none, "us-central1", ""⟩).run = none) ∧
    (("POST" : String) = "GET" → (none : Option (String × String)) ≠ none →
      '/' ∉ "us-central1".toList →
      (gcp.ServeHTTP scenario.serveOptions (fun _ => .error "unreachable")
          ⟨"POST", none, "us-central1", ""⟩).response.Status = 400 ∧
        (gcp.ServeHTTP scenario.serveOptions (fun _ => .error "unreachable")
          ⟨"POST", none, "us-central1", ""⟩).run = none) :=
  serve_checks_spec scenario.serveOptions ⟨"POST", none, "us-central1", ""⟩ _
    (Or.inr (Or.inr ⟨fun _ => .error "unreachable", rfl⟩))

theorem string_eq_of_toList (a : String) (l : List Char) (h : a.toList = l) :
    a = String.mk l := by
  cases a
  simp only [String.toList] at h
  rw [h]

theorem mk_append_slash (a b : List Char) :
    String.mk a ++ "/" ++ String.mk b = String.mk (a ++ '/' :: b) := by
  apply String.ext
  simp [String.data_append]

theorem mk_append_slash3 (a b c : List Char) :
    String.mk a ++ "/" ++ String.mk b ++ "/" ++ String.mk c =
      String.mk (a ++ '/' :: (b ++ '/' :: c)) := by
  apply String.ext
  simp [String.data_append]

/-- C12, as stated, fails: the AWS handler parses `us-east-1/c1` and
`us-east-1/c1/` into the same options, so the parsed fields cannot reproduce
both paths; joined by `/` they give `us-east-1/c1/`, which is not the first
path. -/
theorem parsePath_join_counterexample :
    aws.parsePath ⟨"AKIA", "secret", "", "", ""⟩ "us-east-1/c1" =
      some ⟨"AKIA", "secret", "us-east-1", "c1", ""⟩ ∧
    aws.parsePath ⟨"AKIA", "secret", "", "", ""⟩ "us-east-1/c1/" =
      some ⟨"AKIA", "secret", "us-east-1", "c1", ""⟩ ∧
    Join ["us-east-1", "c1", ""] "/" ≠ "us-east-1/c1" := by
  decide

/-- C12, amended: for a stripped path `p` with at least one `/` the handlers
split only on the leading separators. AWS gets region = the text before the
first `/` and cluster = the text between the first and the second `/` (all
that follows the first one when there is no second); with a second `/` the
assume-role ARN is everything after it and region, cluster and ARN joined by
`/` give `p`; without one the ARN is left empty and region and cluster joined
by `/` give `p`. Azure gets tenant = the text before the first `/` and
resource = everything after it, GCP region and cluster likewise, and the two
fields joined by `/` give `p`. -/
theorem parsePath_spec :
    (∀ (o : aws.TokenOptions) (p : String), '/' ∈ p.toList →
      ∃ o', aws.parsePath o p = some o' ∧
        o'.AccessKeyID = o.AccessKeyID ∧ o'.SecretAccessKey = o.SecretAccessKey ∧
        o'.Region = String.mk (beforeSlash p.toList) ∧
        o'.Cluster = String.mk (beforeSlash (afterSlash p.toList)) ∧
        ('/' ∈ afterSlash p.toList →
          o'.AssumeRoleARN = String.mk (afterSlash (afterSlash p.toList)) ∧
          o'.Region ++ "/" ++ o'.Cluster ++ "/" ++ o'.AssumeRoleARN = p) ∧
        ('/' ∉ afterSlash p.toList →
          o'.AssumeRoleARN = o.AssumeRoleARN ∧ o'.Region ++ "/" ++ o'.Cluster = p)) ∧
    (∀ (o : azure.TokenOptions) (p : String), '/' ∈ p.toList →
      ∃ o', azure.parsePath o p = some o' ∧
        o'.ClientID = o.ClientID ∧ o'.ClientSecret = o.ClientSecret ∧
        o'.Tenant = String.mk (beforeSlash p.toList) ∧
        o'.Resource = String.mk (afterSlash p.toList) ∧
        o'.Tenant ++ "/" ++ o'.Resource = p) ∧
    (∀ (o : gcp.TokenOptions) (p : String), '/' ∈ p.toList →
      ∃ o', gcp.parsePath o p = some o' ∧
        o'.ClientID = o.ClientID ∧ o'.ClientSecret = o.ClientSecret ∧
        o'.Region = String.mk (beforeSlash p.toList) ∧
        o'.Cluster = String.mk (afterSlash p.toList) ∧
        o'.Region ++ "/" ++ o'.Cluster = p) := by
  refine ⟨?_, ?_, ?_⟩
  · intro o p hp
    have hp' := string_eq_of_toList p _ (before_after_slash p.toList hp).symm
    unfold aws.parsePath
    simp only [SplitN_three _ hp]
    by_cases h2 : '/' ∈ afterSlash p.toList
    · have e2 := before_after_slash _ h2
      simp only [h2, if_true, List.length_cons, List.length_nil, List.getD_cons_zero,
        List.getD_cons_succ]
      refine ⟨_, rfl, rfl, rfl, rfl, rfl, fun _ => ⟨rfl, ?_⟩, fun h => absurd trivial h⟩
      rw [mk_append_slash3, e2]
      exact hp'.symm
    · simp only [h2, if_false, List.length_cons, List.length_nil, List.getD_cons_zero,
        List.getD_cons_succ]
      have hb : beforeSlash (afterSlash p.toList) = afterSlash p.toList := by
        have := span_no_slash _ h2
        rw [List.span_eq_take_drop] at this
        exact (Prod.mk.inj this).1
      refine ⟨_, rfl, rfl, rfl, rfl, by rw [hb], fun h => h.elim, fun _ => ⟨rfl, ?_⟩⟩
      simp only [mk_append_slash]
      exact hp'.symm
  · intro o p hp
    have hp' := string_eq_of_toList p _ (before_after_slash p.toList hp).symm
    unfold azure.parsePath
    simp only [SplitN_two _ hp, List.length_cons, List.length_nil, List.getD_cons_zero,
      List.getD_cons_succ]
    refine ⟨_, rfl, rfl, rfl, rfl, rfl, ?_⟩
    simp only [mk_append_slash]
    exact hp'.symm
  · intro o p hp
    have hp' := string_eq_of_toList p _ (before_after_slash p.toList hp).symm
    unfold gcp.parsePath
    simp only [SplitN_two _ hp, List.length_cons, List.length_nil, List.getD_cons_zero,
      List.getD_cons_succ]
    refine ⟨_, rfl, rfl, rfl, rfl, rfl, ?_⟩
    simp only [mk_append_slash]
    exact hp'.symm

/-- C13, as stated, fails: a GET with Basic-Auth and the path `us-east-1/`
parses into options with an empty cluster, `GetToken` rejects them, and the AWS
handler answers 500 with the text of the error, not 400. -/
theorem serve_invalid_counterexample :
    aws.parsePath ⟨"AKIA", "secret", "", "", ""⟩ "us-east-1/" =
      some ⟨"AKIA", "secret", "us-east-1", "", ""⟩ ∧
    (aws.ServeHTTP scenario.serveOptions (fun _ => .error "unreachable")
      ⟨"GET", some ("AKIA", "secret"), "us-east-1/", ""⟩).response =
      ⟨500, "text/plain; charset=utf-8", utf8 "invalid options: cluster ID is required\n"⟩ := by
  decide

/-- C13, amended: in every provider handler, a GET request with Basic-Auth and
enough path parts whose parsed options fail `Validate` is answered with status
500 and the text `invalid options: ` followed by the validation error. -/
theorem serve_invalid_spec :
    (∀ (s : ServeOptions) (g : aws.TokenOptions → Except String Token) (r : http.Request)
        (u pw : String) (o : aws.TokenOptions) (err : String),
      r.Method = "GET" → r.BasicAuth = some (u, pw) →
      aws.parsePath ⟨u, pw, "", "", ""⟩ r.Path = some o → (o.Validate s.w).2 = some err →
      (aws.ServeHTTP s g r).response = http.Error ("invalid options: " ++ err) 500) ∧
    (∀ (s : ServeOptions) (g : azure.TokenOptions → Except String Token) (r : http.Request)
        (u pw : String) (o : azure.TokenOptions) (err : String),
      r.Method = "GET" → r.BasicAuth = some (u, pw) →
      azure.parsePath ⟨u, pw, "", ""⟩ r.Path = some o → (o.Validate s.w).2 = some err →
      (azure.ServeHTTP s g r).response = http.Error ("invalid options: " ++ err) 500) ∧
    (∀ (s : ServeOptions) (g : gcp.TokenOptions → Except String Token) (r : http.Request)
        (u pw : String) (o : gcp.TokenOptions) (err : String),
      r.Method = "GET" → r.BasicAuth = some (u, pw) →
      gcp.parsePath ⟨u, pw, "", ""⟩ r.Path = some o → (o.Validate s.w).2 = some err →
      (gcp.ServeHTTP s g r).response = http.Error ("invalid options: " ++ err) 500) := by
  refine ⟨?_, ?_, ?_⟩
  · intro s g r u pw o err hm hb hp hv
    have hrun : (aws.GetToken s.w g o s.Cache).result = .error ("invalid options: " ++ err) := by
      unfold aws.GetToken
      generalize o.Validate s.w = x at hv
      obtain ⟨o1, e⟩ := x
      simp only at hv
      subst hv
      rfl
    simp only [aws.ServeHTTP, hm, hb, hp, ne_eq, not_true_eq_false, if_false, hrun]
    rfl
  · intro s g r u pw o err hm hb hp hv
    have hrun : (azure.GetToken s.w g o s.Cache).result =
        .error ("invalid options: " ++ err) := by
      unfold azure.GetToken
      generalize o.Validate s.w = x at hv
      obtain ⟨o1, e⟩ := x
      simp only at hv
      subst hv
      rfl
    simp only [azure.ServeHTTP, hm, hb, hp, ne_eq, not_true_eq_false, if_false, hrun]
    rfl
  · intro s g r u pw o err hm hb hp hv
    have hrun : (gcp.GetToken s.w g o s.Cache).result = .error ("invalid options: " ++ err) := by
      unfold gcp.GetToken
      generalize o.Validate s.w = x at hv
      obtain ⟨o1, e⟩ := x
      simp only at hv
      subst hv
      rfl
    simp only [gcp.ServeHTTP, hm, hb, hp, ne_eq, not_true_eq_false, if_false, hrun]
    rfl

theorem IsServed.response_of_run {s : ServeOptions} {r : http.Request} {served : Served}
    (h : IsServed s r served) (run : Run) (tk : Token) (hrun : served.run = some run)
    (hres : run.result = .ok tk) : served.response = respond s r tk := by
  rcases h with ⟨g, rfl⟩ | ⟨g, rfl⟩ | ⟨g, rfl⟩
  · unfold aws.ServeHTTP at hrun ⊢
    by_cases hm : r.Method ≠ "GET"
    · rw [if_pos hm] at hrun
      cases hrun
    · rw [if_neg hm] at hrun ⊢
      cases hb : r.BasicAuth with
      | none =>
        simp only [hb] at hrun
        cases hrun
      | some up =>
        obtain ⟨u, pw⟩ := up
        cases hp : aws.parsePath ⟨u, pw, "", "", ""⟩ r.Path with
        | none =>
          simp only [hb, hp] at hrun
          cases hrun
        | some o =>
          cases he : (aws.GetToken s.w g o s.Cache).result with
          | error err =>
            simp only [hb, hp, he, Option.some.injEq] at hrun
            rw [← hrun, he] at hres
            cases hres
          | ok tk1 =>
            simp only [hb, hp, he, Option.some.injEq] at hrun ⊢
            rw [← hrun, he] at hres
            cases hres
            rfl
  · unfold azure.ServeHTTP at hrun ⊢
    by_cases hm : r.Method ≠ "GET"
    · rw [if_pos hm] at hrun
      cases hrun
    · rw [if_neg hm] at hrun ⊢
      cases hb : r.BasicAuth with
      | none =>
        simp only [hb] at hrun
        cases hrun
      | some up =>
        obtain ⟨u, pw⟩ := up
        cases hp : azure.parsePath ⟨u, pw, "", ""⟩ r.Path with
        | none =>
          simp only [hb, hp] at hrun
          cases hrun
        | some o =>
          cases he : (azure.GetToken s.w g o s.Cache).result with
          | error err =>
            simp only [hb, hp, he, Option.some.injEq] at hrun
            rw [← hrun, he] at hres
            cases hres
          | ok tk1 =>
            simp only [hb, hp, he, Option.some.injEq] at hrun ⊢
            rw [← hrun, he] at hres
            cases hres
            rfl
  · unfold gcp.ServeHTTP at hrun ⊢
    by_cases hm : r.Method ≠ "GET"
    · rw [if_pos hm] at hrun
      cases hrun
    · rw [if_neg hm] at hrun ⊢
      cases hb : r.BasicAuth with
      | none =>
        simp only [hb] at hrun
        cases hrun
      | some up =>
        obtain ⟨u, pw⟩ := up
        cases hp : gcp.parsePath ⟨u, pw, "", ""⟩ r.Path with
        | none =>
          simp only [hb, hp] at hrun
          cases hrun
        | some o =>
          cases he : (gcp.GetToken s.w g o s.Cache).result with
          | error err =>
            simp only [hb, hp, he, Option.some.injEq] at hrun
            rw [← hrun, he] at hres
            cases hres
          | ok tk1 =>
            simp only [hb, hp, he, Option.some.injEq] at hrun ⊢
            rw [← hrun, he] at hres
            cases hres
            rfl

/-- C14: when the token pipeline succeeds with the token `tk`, every provider
handler answers 200 with content type `application/json`; the body is the raw
token JSON when the header `X-KubeCIA-DeCapsuled` equals `true`, and otherwise
the encoding of the exec-credential document with apiVersion
`client.authentication.k8s.io/v1`, kind `ExecCredential`, `status.token` the
value of the token and `status.expirationTimestamp` its expiration. The
encoders are those of the JSON package, taken at a token they encode. -/
theorem serve_success_spec (s : ServeOptions) (r : http.Request) (served : Served) (run : Run)
    (tk : Token) (h : IsServed s r served) (hrun : served.run = some run)
    (hres : run.result = .ok tk) :
    (r.DeCapsuled = "true" → ∀ bs, tk.MarshalJSON s.codec = .ok bs →
      served.response = ⟨200, "application/json", bs⟩) ∧
    (r.DeCapsuled ≠ "true" → ∀ bs,
      s.marshal ⟨"client.authentication.k8s.io/v1", "ExecCredential",
        some ⟨some tk.Expiration, tk.Value⟩⟩ = .ok bs →
      served.response = ⟨200, "application/json", bs⟩) := by
  rw [h.response_of_run run tk hrun hres]
  constructor
  · intro hd bs hbs
    simp only [respond, hd, if_true, hbs]
    rfl
  · intro hd bs hbs
    have e : tk.ToKubeClientExecCredentialJSON s.marshal = .ok bs := by
      rw [← hbs]
      rfl
    simp only [respond, hd, if_false, e]
    rfl

/-- C14 at the well-formed AWS request of the scenario, which asks for the raw
token. -/
theorem serve_success_spec_witness :
    (scenario.goodRequest.DeCapsuled = "true" → ∀ bs,
      Token.MarshalJSON scenario.serveOptions.codec
        ⟨⟨63900000840, 0, some 0⟩, [107, 56, 115, 1]⟩ = .ok bs →
      (aws.ServeHTTP scenario.serveOptions
        (scenario.minted scenario.firstCall.Now [107, 56, 115, 1])
        scenario.goodRequest).response = ⟨200, "application/json", bs⟩) ∧
    (scenario.goodRequest.DeCapsuled ≠ "true" → ∀ bs,
      scenario.serveOptions.marshal ⟨"client.authentication.k8s.io/v1", "ExecCredential",
        some ⟨some (Time.mk 63900000840 0 (some 0)), [107, 56, 115, 1]⟩⟩ = .ok bs →
      (aws.ServeHTTP scenario.serveOptions
        (scenario.minted scenario.firstCall.Now [107, 56, 115, 1])
        scenario.goodRequest).response = ⟨200, "application/json", bs⟩) :=
  serve_success_spec scenario.serveOptions scenario.goodRequest _ scenario.firstRun
    ⟨⟨63900000840, 0, some 0⟩, [107, 56, 115, 1]⟩
    (Or.inl ⟨scenario.minted scenario.firstCall.Now [107, 56, 115, 1], rfl⟩) rfl rfl

/-! ## The client side -/

theorem client.getTokenWith_other (e : client.World) (msg : String) (h : e.isSocket = true) :
    client.getTokenWith e (some (.error (.other msg))) = ⟨some (.error (.other msg)), false⟩ := by
  simp only [client.getTokenWith, h, if_true]

theorem client.getTokenWith_remoteCall (e : client.World) (msg : String) :
    (client.getTokenWith e (some (.error (.remoteCall msg)))).ranLocally = true ∧
    (client.getTokenWith e (some (.error (.remoteCall msg)))).result =
      (match e.getToken with
        | .ok tk => some (.ok tk)
        | .error err => some (.error (.other ("error getting token locally: " ++ err)))) := by
  unfold client.getTokenWith
  cases e.isSocket <;> cases e.getToken <;> exact ⟨rfl, rfl⟩

/-- C17 fails on the code: for the AWS namespace and the arguments `us-east-1`,
`c1` and an empty assume-role ARN, `Route` yields the relative path
`http/aws/us-east-1/c1`. It is not an absolute `http://` URL and it does not
begin with the prefix `/aws/` under which the handler is registered. -/
theorem route_not_absolute :
    apis.Route aws.Namespace ["us-east-1", "c1", ""] = "http/aws/us-east-1/c1" ∧
    apis.RoutePrefix aws.Namespace = "/aws/" ∧
    HasPrefix (apis.Route aws.Namespace ["us-east-1", "c1", ""]) "http://" = false ∧
    HasPrefix (apis.Route aws.Namespace ["us-east-1", "c1", ""])
      (apis.RoutePrefix aws.Namespace) = false ∧
    apis.Route gcp.Namespace ["us-central1", "c1"] = "http/gcp/us-central1/c1" := by
  decide

/-! ## Cleaned paths -/

theorem splitSlash_ne_nil (s : List Char) : splitSlash s ≠ [] := by
  cases s with
  | nil => simp [splitSlash]
  | cons c cs =>
    unfold splitSlash
    split
    · simp
    · split <;> simp

theorem splitSlash_append (a b : List Char) :
    splitSlash (a ++ '/' :: b) = splitSlash a ++ splitSlash b := by
  induction a with
  | nil => simp [splitSlash]
  | cons c cs ih =>
    by_cases hc : c = '/'
    · simp [splitSlash, hc, ih]
    · cases hs : splitSlash cs with
      | nil => exact absurd hs (splitSlash_ne_nil cs)
      | cons seg segs => simp [splitSlash, hc, ih, hs]

theorem splitSlash_no_slash (s : List Char) (h : '/' ∉ s) : splitSlash s = [s] := by
  induction s with
  | nil => rfl
  | cons c cs ih =>
    have hc : c ≠ '/' := fun e => h (by simp [e])
    have hcs : '/' ∉ cs := fun e => h (by simp [e])
    simp [splitSlash, hc, ih hcs]

theorem joinSlash_splitSlash (s : List Char) : joinSlash (splitSlash s) = s := by
  induction s with
  | nil => rfl
  | cons c cs ih =>
    cases hs : splitSlash cs with
    | nil => exact absurd hs (splitSlash_ne_nil cs)
    | cons seg segs =>
      rw [hs] at ih
      by_cases hc : c = '/'
      · simp [splitSlash, hc, hs, joinSlash, ih]
      · cases segs with
        | nil =>
          simp only [joinSlash] at ih
          simp [splitSlash, hc, hs, joinSlash, ih]
        | cons s2 rest =>
          simp only [joinSlash] at ih
          simp [splitSlash, hc, hs, joinSlash, ih]

theorem joinSlash_append (l1 l2 : List (List Char)) (h1 : l1 ≠ []) (h2 : l2 ≠ []) :
    joinSlash (l1 ++ l2) = joinSlash l1 ++ '/' :: joinSlash l2 := by
  induction l1 with
  | nil => exact absurd rfl h1
  | cons seg rest ih =>
    cases rest with
    | nil =>
      cases l2 with
      | nil => exact absurd rfl h2
      | cons x xs => simp [joinSlash]
    | cons s2 rest2 =>
      have := ih (by simp)
      simp only [List.cons_append] at this ⊢
      simp [joinSlash, this]

theorem filter_nonempty_id (segs : List (List Char)) (h : ∀ seg ∈ segs, seg ≠ []) :
    segs.filter (fun seg => seg ≠ []) = segs := by
  rw [List.filter_eq_self]
  intro seg hseg
  simpa using h seg hseg

theorem path.foldl_cleanStep (rooted : Bool) (segs kept : List (List Char))
    (h : ∀ seg ∈ segs, seg ≠ ['.'] ∧ seg ≠ ['.', '.']) :
    segs.foldl (path.cleanStep rooted) kept =
      (segs.filter (fun seg => seg ≠ [])).reverse ++ kept := by
  induction segs generalizing kept with
  | nil => rfl
  | cons seg rest ih =>
    have hseg := h seg (by simp)
    have hrest : ∀ s ∈ rest, s ≠ ['.'] ∧ s ≠ ['.', '.'] := fun s hs => h s (by simp [hs])
    rw [List.foldl_cons, ih _ hrest]
    by_cases he : seg = []
    · simp [path.cleanStep, he]
    · simp [path.cleanStep, he, hseg.1, hseg.2]

theorem path.Clean_rooted (s : List Char)
    (h : ∀ seg ∈ splitSlash s, seg ≠ ['.'] ∧ seg ≠ ['.', '.']) :
    path.Clean (String.mk ('/' :: s)) =
      String.mk ('/' :: joinSlash ((splitSlash s).filter (fun seg => seg ≠ []))) := by
  have hne : String.mk ('/' :: s) ≠ "" := by
    intro e
    have := congrArg String.data e
    simp at this
  have hall : ∀ seg ∈ splitSlash ('/' :: s), seg ≠ ['.'] ∧ seg ≠ ['.', '.'] := by
    intro seg hseg
    simp only [splitSlash, if_true, List.mem_cons] at hseg
    rcases hseg with rfl | hseg
    · exact ⟨by decide, by decide⟩
    · exact h seg hseg
  unfold path.Clean
  rw [if_neg hne]
  simp only [String.toList, List.head?_cons, decide_True, if_true]
  rw [path.foldl_cleanStep true _ _ hall]
  simp [splitSlash]

theorem path.Join_root (a b : String)
    (ha : ∀ seg ∈ splitSlash a.toList, seg ≠ ['.'] ∧ seg ≠ ['.', '.'])
    (hb : ∀ seg ∈ splitSlash b.toList, seg ≠ ['.'] ∧ seg ≠ ['.', '.']) :
    path.Join ["/", a, b] =
      String.mk ('/' :: joinSlash
        ((splitSlash a.toList ++ splitSlash b.toList).filter (fun seg => seg ≠ []))) := by
  have hsize : ¬ ((["/", a, b].map String.length).sum = 0) := by
    simp only [List.map_cons, List.map_nil, List.sum_cons, List.sum_nil]
    have : ("/" : String).length = 1 := rfl
    omega
  have hbuf : path.joinBuf [] ["/", a, b] = '/' :: ('/' :: (a.toList ++ '/' :: b.toList)) := by
    have e1 : ("/" : String).toList = ['/'] := rfl
    have e2 : ("/" : String) ≠ "" := by decide
    simp [path.joinBuf, e1, e2]
  unfold path.Join
  rw [if_neg hsize, hbuf]
  have hall : ∀ seg ∈ splitSlash ('/' :: (a.toList ++ '/' :: b.toList)),
      seg ≠ ['.'] ∧ seg ≠ ['.', '.'] := by
    intro seg hseg
    simp only [splitSlash, if_true, List.mem_cons, splitSlash_append, List.mem_append] at hseg
    rcases hseg with rfl | hseg | hseg
    · exact ⟨by decide, by decide⟩
    · exact ha seg hseg
    · exact hb seg hseg
  rw [path.Clean_rooted _ hall]
  simp [splitSlash, splitSlash_append]

theorem digitChar_isDigit : ∀ d, d < 10 → (digitChar d).isDigit = true := by decide

theorem formatUintAux_digits (fuel x : Nat) (acc : List Char)
    (h : ∀ c ∈ acc, c.isDigit = true) : ∀ c ∈ formatUintAux fuel x acc, c.isDigit = true := by
  induction fuel generalizing x acc with
  | zero => exact h
  | succ fuel ih =>
    unfold formatUintAux
    split
    · rename_i hx
      intro c hc
      rcases List.mem_cons.mp hc with rfl | hc
      · exact digitChar_isDigit x hx
      · exact h c hc
    · apply ih
      intro c hc
      rcases List.mem_cons.mp hc with rfl | hc
      · exact digitChar_isDigit _ (Nat.mod_lt _ (by decide))
      · exact h c hc

theorem formatUintAux_ne_nil (fuel x : Nat) (acc : List Char) (h : acc ≠ [] ∨ 0 < fuel) :
    formatUintAux fuel x acc ≠ [] := by
  induction fuel generalizing x acc with
  | zero =>
    rcases h with h | h
    · exact h
    · exact absurd h (by decide)
  | succ fuel ih =>
    unfold formatUintAux
    split
    · simp
    · exact ih _ _ (Or.inl (by simp))

/-- The text of `FormatUint` is a single path segment that `path.Clean`
keeps. -/
theorem FormatUint_segment (x : Nat) :
    splitSlash (FormatUint x).toList = [(FormatUint x).toList] ∧
    (FormatUint x).toList ≠ [] ∧ (FormatUint x).toList ≠ ['.'] ∧
    (FormatUint x).toList ≠ ['.', '.'] := by
  have hd : ∀ c ∈ (FormatUint x).toList, c.isDigit = true :=
    formatUintAux_digits 20 x [] (by simp)
  refine ⟨splitSlash_no_slash _ ?_, formatUintAux_ne_nil 20 x [] (Or.inr (by decide)), ?_, ?_⟩
  · intro hm
    exact absurd (hd _ hm) (by decide)
  · intro e
    exact absurd (hd '.' (by rw [e]; simp)) (by decide)
  · intro e
    exact absurd (hd '.' (by rw [e]; simp)) (by decide)

theorem path.Clean_rooted_clean (s : List Char)
    (h : ∀ seg ∈ splitSlash s, seg ≠ [] ∧ seg ≠ ['.'] ∧ seg ≠ ['.', '.']) :
    path.Clean (String.mk ('/' :: s)) = String.mk ('/' :: s) := by
  rw [path.Clean_rooted s (fun seg hseg => (h seg hseg).2),
    filter_nonempty_id _ (fun seg hseg => (h seg hseg).1), joinSlash_splitSlash]

theorem cache.memoryWrapKey_clean (ns k : String) (hns : CleanName ns) (hk : CleanName k) :
    cache.memoryWrapKey ns k = String.mk ('/' :: (ns.toList ++ '/' :: k.toList)) := by
  unfold cache.memoryWrapKey
  rw [path.Join_root ns k (fun seg hseg => (hns seg hseg).2) (fun seg hseg => (hk seg hseg).2)]
  rw [filter_nonempty_id, joinSlash_append _ _ (splitSlash_ne_nil _) (splitSlash_ne_nil _),
    joinSlash_splitSlash, joinSlash_splitSlash]
  intro seg hseg
  rcases List.mem_append.mp hseg with hseg | hseg
  · exact (hns seg hseg).1
  · exact (hk seg hseg).1

theorem cache.memoryWrapKey_empty (k : String) (hk : CleanName k) :
    cache.memoryWrapKey "" k = String.mk ('/' :: k.toList) := by
  unfold cache.memoryWrapKey
  rw [path.Join_root "" k (by decide) (fun seg hseg => (hk seg hseg).2)]
  have e : splitSlash ("" : String).toList = [[]] := rfl
  rw [e]
  simp only [List.singleton_append, List.filter_cons, ne_eq, not_true_eq_false, decide_False,
    Bool.false_eq_true, if_false]
  rw [filter_nonempty_id _ (fun seg hseg => (hk seg hseg).1), joinSlash_splitSlash]

theorem cache.wrapKey_of_root (c : cache.fileCache) (k : String) (body : List Char)
    (hr : path.Join ["/", c.namespace_, k] = String.mk ('/' :: body))
    (hbody : ∀ seg ∈ splitSlash body, seg ≠ [] ∧ seg ≠ ['.'] ∧ seg ≠ ['.', '.']) :
    c.wrapKey k =
      String.mk ('/' :: ((FormatUint
        (fnv1a64 (utf8 (String.mk ('/' :: body))) % c.bucket)).toList ++ '/' :: body)) := by
  unfold cache.fileCache.wrapKey
  simp only [cache.pathSep]
  rw [hr]
  generalize fnv1a64 (utf8 (String.mk ('/' :: body))) % c.bucket = b
  obtain ⟨hp1, hp2, hp3, hp4⟩ := FormatUint_segment b
  have hall : ∀ seg ∈ splitSlash (String.mk ('/' :: body)).toList,
      seg ≠ ['.'] ∧ seg ≠ ['.', '.'] := by
    intro seg hseg
    simp only [String.toList, splitSlash, if_true, List.mem_cons] at hseg
    rcases hseg with rfl | hseg
    · exact ⟨by decide, by decide⟩
    · exact (hbody seg hseg).2
  rw [path.Join_root _ _ (by rw [hp1]; simpa using ⟨hp3, hp4⟩) hall, hp1]
  have hp2d : (FormatUint b).data ≠ [] := hp2
  simp only [String.toList, splitSlash, if_true, List.singleton_append, List.filter_cons,
    ne_eq, hp2d, not_false_eq_true, decide_True, not_true_eq_false, decide_False,
    Bool.false_eq_true, if_false]
  rw [filter_nonempty_id _ (fun seg hseg => (hbody seg hseg).1)]
  have := joinSlash_append [(FormatUint b).data] (splitSlash body) (by simp)
    (splitSlash_ne_nil _)
  simp only [List.singleton_append] at this
  rw [this, joinSlash_splitSlash]
  rfl

/-! ## Key wrapping of the caches -/

theorem mk_slash_append (a : List Char) : "/" ++ String.mk a = String.mk ('/' :: a) := by
  apply String.ext
  simp [String.data_append]

theorem append_mk (a b : List Char) : String.mk a ++ String.mk b = String.mk (a ++ b) := by
  apply String.ext
  simp [String.data_append]

set_option maxRecDepth 100000 in
/-- C20, as stated, fails: with the empty namespace of `NewFile` and twelve
buckets the AWS key of the scenario is stored at `/9/aws_AKIA_us-east-1_c1_self`,
not at `/0//aws_AKIA_us-east-1_c1_self`, the path and bucket the claim gives;
and in the namespace `kubecia` an Azure key with a doubled `/` lands in bucket
5 with the `/` collapsed, not in bucket 8 under its own text. -/
theorem wrapKey_counterexample :
    (scenario.fileCache false).wrapKey scenario.key = "/9/aws_AKIA_us-east-1_c1_self" ∧
    "/" ++ FormatUint (fnv1a64 (utf8 ("/" ++ "" ++ "/" ++ scenario.key)) % 12) ++ "/" ++ ""
      ++ "/" ++ scenario.key = "/0//aws_AKIA_us-east-1_c1_self" ∧
    (cache.fileCache.mk 12 "kubecia" 900000000000 false).wrapKey
      "azure_cid_tenant_https://vault.azure.net" =
      "/5/kubecia/azure_cid_tenant_https:/vault.azure.net" ∧
    "/" ++ FormatUint (fnv1a64 (utf8 ("/" ++ "kubecia" ++ "/" ++
      "azure_cid_tenant_https://vault.azure.net")) % 12) ++ "/" ++ "kubecia" ++ "/" ++
      "azure_cid_tenant_https://vault.azure.net" =
      "/8/kubecia/azure_cid_tenant_https://vault.azure.net" := by
  decide

/-- C20, amended: for a bucket count of at least one the bucket number, the
FNV-1a hash of the cleaned join of `/`, namespace and key taken modulo the
count, is below the count, and the stored path is the cleaned join of `/`, the
decimal bucket number and that cleaned join. For a key whose segments between
`/` are all non-empty and none of which is `.` or `..`: in a namespace of the
same kind the path is `/<b>/<ns>/<k>` with `b` the hash of `/<ns>/<k>` modulo
the count, and in the empty namespace it is `/<b>/<k>` with `b` the hash of
`/<k>` modulo the count. -/
theorem wrapKey_spec (c : cache.fileCache) (k : String) (hn : 0 < c.bucket)
    (hk : CleanName k) :
    fnv1a64 (utf8 (path.Join ["/", c.namespace_, k])) % c.bucket < c.bucket ∧
    c.wrapKey k =
      path.Join ["/", FormatUint (fnv1a64 (utf8 (path.Join ["/", c.namespace_, k])) % c.bucket),
        path.Join ["/", c.namespace_, k]] ∧
    (CleanName c.namespace_ →
      c.wrapKey k =
        "/" ++ FormatUint (fnv1a64 (utf8 ("/" ++ c.namespace_ ++ "/" ++ k)) % c.bucket) ++ "/"
          ++ c.namespace_ ++ "/" ++ k) ∧
    (c.namespace_ = "" →
      c.wrapKey k = "/" ++ FormatUint (fnv1a64 (utf8 ("/" ++ k)) % c.bucket) ++ "/" ++ k) := by
  refine ⟨Nat.mod_lt _ hn, rfl, ?_, ?_⟩
  · intro hns
    have hr := cache.memoryWrapKey_clean c.namespace_ k hns hk
    unfold cache.memoryWrapKey at hr
    have hbody : ∀ seg ∈ splitSlash (c.namespace_.toList ++ '/' :: k.toList),
        seg ≠ [] ∧ seg ≠ ['.'] ∧ seg ≠ ['.', '.'] := by
      intro seg hseg
      rw [splitSlash_append] at hseg
      rcases List.mem_append.mp hseg with hseg | hseg
      · exact hns seg hseg
      · exact hk seg hseg
    rw [cache.wrapKey_of_root c k _ hr hbody]
    have e : "/" ++ c.namespace_ ++ "/" ++ k =
        String.mk ('/' :: (c.namespace_.toList ++ '/' :: k.toList)) := by
      apply String.ext
      simp [String.data_append]
    rw [e]
    apply String.ext
    simp [String.data_append]
  · intro hns
    have hr := cache.memoryWrapKey_empty k hk
    unfold cache.memoryWrapKey at hr
    rw [← hns] at hr
    rw [cache.wrapKey_of_root c k _ hr hk]
    have e : "/" ++ k = String.mk ('/' :: k.toList) := by
      apply String.ext
      simp [String.data_append]
    rw [e]
    apply String.ext
    simp [String.data_append]

/-- C20, amended, at the cache of `NewFile` and the AWS key of the scenario. -/
theorem wrapKey_spec_witness :
    fnv1a64 (utf8 (path.Join ["/", "", scenario.key])) % 12 < 12 ∧
    (scenario.fileCache false).wrapKey scenario.key =
      "/" ++ FormatUint (fnv1a64 (utf8 ("/" ++ scenario.key)) % 12) ++ "/" ++ scenario.key :=
  ⟨(wrapKey_spec (scenario.fileCache false) scenario.key (by decide) (by decide)).1,
    (wrapKey_spec (scenario.fileCache false) scenario.key (by decide) (by decide)).2.2.2 rfl⟩

theorem cache.memoryWrapKey_inj (ns k1 k2 : String) (hns : ns = "" ∨ CleanName ns)
    (h1 : CleanName k1) (h2 : CleanName k2)
    (h : cache.memoryWrapKey ns k1 = cache.memoryWrapKey ns k2) : k1 = k2 := by
  rcases hns with rfl | hns
  · rw [cache.memoryWrapKey_empty k1 h1, cache.memoryWrapKey_empty k2 h2] at h
    have := congrArg String.data h
    simp only [List.cons.injEq, true_and] at this
    exact String.ext this
  · rw [cache.memoryWrapKey_clean ns k1 hns h1, cache.memoryWrapKey_clean ns k2 hns h2] at h
    have := congrArg String.data h
    simp only [List.cons.injEq, true_and, List.append_cancel_left_eq] at this
    exact String.ext this

theorem append_slash_cancel (p1 p2 b1 b2 : List Char) (h1 : '/' ∉ p1) (h2 : '/' ∉ p2)
    (h : p1 ++ '/' :: b1 = p2 ++ '/' :: b2) : b1 = b2 := by
  induction p1 generalizing p2 with
  | nil =>
    cases p2 with
    | nil => simpa using h
    | cons c cs =>
      simp only [List.nil_append, List.cons_append, List.cons.injEq] at h
      exact absurd (by simp [← h.1]) h2
  | cons c cs ih =>
    cases p2 with
    | nil =>
      simp only [List.nil_append, List.cons_append, List.cons.injEq] at h
      exact absurd (by simp [h.1]) h1
    | cons d ds =>
      simp only [List.cons_append, List.cons.injEq] at h
      exact ih ds (fun e => h1 (by simp [e])) (fun e => h2 (by simp [e])) h.2

theorem FormatUint_no_slash (x : Nat) : '/' ∉ (FormatUint x).toList := by
  intro hm
  exact absurd (formatUintAux_digits 20 x [] (by simp) _ hm) (by decide)

/-- C27, as stated, fails: two Azure keys whose resources differ only by a
trailing `/` are different keys, yet both back-ends wrap them to the same
stored key, and in the filesystem cache a `Set` on the first turns the miss of
a `Get` on the second into a hit. -/
theorem wrapKey_collision :
    azure.TokenOptions.Key ⟨"cid", "secret", "tenant", "https://vault.azure.net"⟩ ≠
      azure.TokenOptions.Key ⟨"cid", "secret", "tenant", "https://vault.azure.net/"⟩ ∧
    cache.memoryWrapKey ""
        (azure.TokenOptions.Key ⟨"cid", "secret", "tenant", "https://vault.azure.net"⟩) =
      cache.memoryWrapKey ""
        (azure.TokenOptions.Key ⟨"cid", "secret", "tenant", "https://vault.azure.net/"⟩) ∧
    (scenario.fileCache false).wrapKey
        (azure.TokenOptions.Key ⟨"cid", "secret", "tenant", "https://vault.azure.net"⟩) =
      (scenario.fileCache false).wrapKey
        (azure.TokenOptions.Key ⟨"cid", "secret", "tenant", "https://vault.azure.net/"⟩) ∧
    ((scenario.fileCache false).Get ⟨63900000001, 0, none⟩ 0 scenario.emptyFs
        "azure_cid_tenant_https://vault.azure.net/").2 = ([], some .ErrEntryNotFound) ∧
    ((scenario.fileCache false).Get ⟨63900000001, 0, none⟩ 0
        ((scenario.fileCache false).Set ⟨63900000000, 0, none⟩ scenario.emptyFs
          "azure_cid_tenant_https://vault.azure.net" [1, 2, 3]).1
        "azure_cid_tenant_https://vault.azure.net/").2 = ([1, 2, 3], none) := by
  decide

/-- C27, amended: for a fixed namespace that is empty or has only non-empty
segments other than `.` and `..`, the key wrapping of both back-ends is
injective on the keys whose segments between `/` are all non-empty and none of
which is `.` or `..`. -/
theorem wrapKey_injective (ns k1 k2 : String) (hns : ns = "" ∨ CleanName ns)
    (h1 : CleanName k1) (h2 : CleanName k2) :
    (cache.memoryWrapKey ns k1 = cache.memoryWrapKey ns k2 → k1 = k2) ∧
    (∀ c : cache.fileCache, c.namespace_ = ns → c.wrapKey k1 = c.wrapKey k2 → k1 = k2) := by
  refine ⟨cache.memoryWrapKey_inj ns k1 k2 hns h1 h2, ?_⟩
  intro c hc h
  subst hc
  have key : ∀ k, CleanName k → ∃ body,
      cache.memoryWrapKey c.namespace_ k = String.mk ('/' :: body) ∧
      ∀ seg ∈ splitSlash body, seg ≠ [] ∧ seg ≠ ['.'] ∧ seg ≠ ['.', '.'] := by
    intro k hk
    rcases hns with hns | hns
    · refine ⟨k.toList, ?_, hk⟩
      rw [hns]
      exact cache.memoryWrapKey_empty k hk
    · refine ⟨_, cache.memoryWrapKey_clean _ k hns hk, ?_⟩
      intro seg hseg
      rw [splitSlash_append] at hseg
      rcases List.mem_append.mp hseg with hseg | hseg
      · exact hns seg hseg
      · exact hk seg hseg
  obtain ⟨body1, hr1, hb1⟩ := key k1 h1
  obtain ⟨body2, hr2, hb2⟩ := key k2 h2
  rw [cache.wrapKey_of_root c k1 body1 hr1 hb1, cache.wrapKey_of_root c k2 body2 hr2 hb2] at h
  have hd := congrArg String.data h
  simp only [List.cons.injEq, true_and] at hd
  have hbody := append_slash_cancel _ _ _ _ (FormatUint_no_slash _) (FormatUint_no_slash _) hd
  apply cache.memoryWrapKey_inj c.namespace_ k1 k2 hns h1 h2
  rw [hr1, hr2, hbody]

/-- C27, amended, at the AWS key of the scenario and the GCP key of the same
identity in the empty namespace. -/
theorem wrapKey_injective_witness :
    (cache.memoryWrapKey "" scenario.key = cache.memoryWrapKey "" "gcp_cid_us-central1_c1" →
      scenario.key = "gcp_cid_us-central1_c1") ∧
    (∀ c : cache.fileCache, c.namespace_ = "" →
      c.wrapKey scenario.key = c.wrapKey "gcp_cid_us-central1_c1" →
      scenario.key = "gcp_cid_us-central1_c1") :=
  wrapKey_injective "" scenario.key "gcp_cid_us-central1_c1" (Or.inl rfl) (by decide)
    (by decide)

/-! ## The data directory -/

/-- C21, as stated, fails: when the home directory cannot be found, `DataDir`
returns `/var/run/kubecia/.kubecia`, not `/var/run/kubecia`. -/
theorem dataDir_counterexample :
    consts.DataDir (.error "$HOME is not defined") = "/var/run/kubecia/.kubecia" ∧
    consts.DataDir (.error "$HOME is not defined") ≠ "/var/run/kubecia" := by
  decide

/-- C21, amended: when the home directory is not discoverable `DataDir` returns
`/var/run/kubecia/.kubecia`; when it is the absolute path `/h`, where the
segments of `h` between `/` are all non-empty and none is `.` or `..`,
`DataDir` returns `/h/.kubecia`. -/
theorem dataDir_spec :
    (∀ err : String, consts.DataDir (.error err) = "/var/run/kubecia/.kubecia") ∧
    (∀ h : String, CleanName h → consts.DataDir (.ok ("/" ++ h)) = "/" ++ h ++ "/.kubecia") := by
  constructor
  · intro err
    rfl
  · intro h hh
    have hsize : ¬ ((["/" ++ h, ".kubecia"].map String.length).sum = 0) := by
      simp only [List.map_cons, List.map_nil, List.sum_cons, List.sum_nil]
      have : (".kubecia" : String).length = 8 := by decide
      omega
    have hne : "/" ++ h ≠ "" := by
      intro e
      have := congrArg String.data e
      simp [String.data_append] at this
    have hbuf : path.joinBuf [] ["/" ++ h, ".kubecia"] =
        '/' :: (h.toList ++ '/' :: (".kubecia" : String).toList) := by
      simp [path.joinBuf, hne, String.data_append]
    have hall : ∀ seg ∈ splitSlash (h.toList ++ '/' :: (".kubecia" : String).toList),
        seg ≠ [] ∧ seg ≠ ['.'] ∧ seg ≠ ['.', '.'] := by
      intro seg hseg
      rw [splitSlash_append] at hseg
      rcases List.mem_append.mp hseg with hseg | hseg
      · exact hh seg hseg
      · have e : splitSlash (".kubecia" : String).toList = [(".kubecia" : String).toList] := by
          decide
        rw [e] at hseg
        rw [List.mem_singleton.mp hseg]
        decide
    unfold consts.DataDir path.Join
    simp only
    rw [if_neg hsize, hbuf, path.Clean_rooted_clean _ hall, path.Clean_rooted_clean _ hall]
    apply String.ext
    simp [String.data_append]

/-! ## The filesystem cache -/

theorem Time.add_nanos (t : Time) (d : Int) (hns : t.nsec < 1000000000)
    (hlo : -(2 ^ 63 : Int) ≤ t.sec) (hd : 0 ≤ d) (hno : t.sec + d / 1000000000 + 1 < 2 ^ 63) :
    (t.Add d).nanos = t.nanos + d ∧ (t.Add d).nsec < 1000000000 := by
  have e63 : (2 : Int) ^ 63 = 9223372036854775808 := by norm_num
  have e64 : (2 : Int) ^ 64 = 18446744073709551616 := by norm_num
  rw [e63] at hlo hno
  have hdiv : Int.tdiv d 1000000000 = d / 1000000000 := Int.tdiv_eq_ediv hd (by decide)
  have hmod : Int.tmod d 1000000000 = d % 1000000000 := Int.tmod_eq_emod hd (by decide)
  have haddSec : ∀ (u : Time) (k : Int), 0 ≤ k → -9223372036854775808 ≤ u.sec →
      u.sec + k < 9223372036854775808 → u.addSec k = { u with sec := u.sec + k } := by
    intro u k hk hu1 hu2
    have hw : Time.wrapInt64 (u.sec + k) = u.sec + k := by
      simp only [Time.wrapInt64, e63, e64]
      omega
    simp only [Time.addSec, hw]
    rw [if_pos]
    rw [decide_eq_decide]
    constructor <;> intro h <;> omega
  simp only [Time.Add, hdiv, hmod]
  by_cases hc : (t.nsec : Int) + d % 1000000000 ≥ 1000000000
  · rw [if_pos hc, haddSec ⟨t.sec, ((t.nsec : Int) + d % 1000000000 - 1000000000).toNat, t.loc⟩
      (d / 1000000000 + 1) (by omega) hlo (by simp only; omega)]
    simp only [Time.nanos]
    omega
  · rw [if_neg hc, if_neg (by omega), haddSec ⟨t.sec, ((t.nsec : Int) + d % 1000000000).toNat, t.loc⟩
      (d / 1000000000) (by omega) hlo (by simp only; omega)]
    simp only [Time.nanos]
    omega

theorem cache.expired_iff (c : cache.fileCache) (zone : Int) (m now : Time) (hm : m.WF)
    (hnow : now.nsec < 1000000000) (hexp : 0 ≤ c.expiration)
    (hno : m.sec + c.expiration / 1000000000 + 1 < 2 ^ 63) :
    ((m.Local zone).Add c.expiration).Before now = true ↔
      m.nanos + c.expiration < now.nanos := by
  obtain ⟨h1, -, h3, -⟩ := hm
  have h := Time.add_nanos (m.Local zone) c.expiration h3 h1 hexp hno
  rw [Time.before_iff_nanos _ _ h.2 hnow, h.1]
  rfl

theorem cache.fileCache.Set_eq (c : cache.fileCache) (now : Time) (fs : afero.Fs)
    (key : String) (entry : List Nat) :
    (c.Set now fs key entry).2 = none ∧
    (c.Set now fs key entry).1 (c.wrapKey key) = some ⟨entry, now⟩ := by
  simp [cache.fileCache.Set, afero.MkdirAll, afero.WriteFile, afero.Chtimes]

theorem cache.fileCache.Get_shrink (c : cache.fileCache) (now : Time) (zone : Int)
    (fs : afero.Fs) (key p : String) :
    (c.Get now zone fs key).1 p = fs p ∨ (c.Get now zone fs key).1 p = none := by
  simp only [cache.fileCache.Get, afero.Stat, afero.ReadFile, afero.Remove]
  cases hf : fs (c.wrapKey key) with
  | none => exact Or.inl rfl
  | some f =>
    simp only
    by_cases hexp : ((f.modTime.Local zone).Add c.expiration).Before now = true
    · rw [if_pos hexp]
      cases c.lazyEvict
      · exact Or.inl rfl
      · by_cases hp : p = c.wrapKey key
        · right
          simp [hp]
        · left
          simp [hp]
    · rw [if_neg hexp]
      exact Or.inl rfl

theorem cache.fileCache.Get_keep (c : cache.fileCache) (now : Time) (zone : Int)
    (fs : afero.Fs) (key p : String) (f : afero.File) (hf : fs p = some f)
    (hfresh : ((f.modTime.Local zone).Add c.expiration).Before now = false) :
    (c.Get now zone fs key).1 p = some f := by
  simp only [cache.fileCache.Get, afero.Stat, afero.ReadFile, afero.Remove]
  cases hg : fs (c.wrapKey key) with
  | none => exact hf
  | some g =>
    simp only
    by_cases hexp : ((g.modTime.Local zone).Add c.expiration).Before now = true
    · rw [if_pos hexp]
      cases c.lazyEvict
      · exact hf
      · by_cases hp : p = c.wrapKey key
        · rw [hp, hg] at hf
          cases hf
          rw [hfresh] at hexp
          cases hexp
        · simp [hp, hf]
    · rw [if_neg hexp]
      exact hf

theorem cache.fileCache.sweep_shrink (c : cache.fileCache) (now : Time) (zone : Int)
    (fs : afero.Fs) (p : String) :
    c.sweep now zone fs p = fs p ∨ c.sweep now zone fs p = none := by
  unfold cache.fileCache.sweep
  cases c.lazyEvict
  · simp only [Bool.false_eq_true, if_false]
    cases fs p with
    | none => exact Or.inl rfl
    | some f =>
      simp only
      split
      · exact Or.inl rfl
      · exact Or.inr rfl
  · exact Or.inl rfl

theorem cache.fileCache.sweep_keep (c : cache.fileCache) (now : Time) (zone : Int)
    (fs : afero.Fs) (p : String) (f : afero.File) (hf : fs p = some f)
    (hfresh : ((f.modTime.Local zone).Add c.expiration).Before now = false) :
    c.sweep now zone fs p = some f := by
  unfold cache.fileCache.sweep
  cases c.lazyEvict
  · simp [hf, hfresh]
  · exact hf

theorem cache.fileCache.run_shrink (c : cache.fileCache) (zone : Int) (fs : afero.Fs)
    (steps : List cache.Step) (p : String) :
    c.run zone fs steps p = fs p ∨ c.run zone fs steps p = none := by
  induction steps generalizing fs with
  | nil => exact Or.inl rfl
  | cons st rest ih =>
    cases st with
    | get now key =>
      simp only [cache.fileCache.run]
      rcases ih (c.Get now zone fs key).1 with h | h
      · rw [h]
        exact c.Get_shrink now zone fs key p
      · exact Or.inr h
    | sweep now =>
      simp only [cache.fileCache.run]
      rcases ih (c.sweep now zone fs) with h | h
      · rw [h]
        exact c.sweep_shrink now zone fs p
      · exact Or.inr h

theorem cache.fileCache.run_keep (c : cache.fileCache) (zone : Int) (fs : afero.Fs)
    (steps : List cache.Step) (p : String) (f : afero.File) (hf : fs p = some f)
    (hfresh : ∀ st ∈ steps,
      ((f.modTime.Local zone).Add c.expiration).Before st.now = false) :
    c.run zone fs steps p = some f := by
  induction steps generalizing fs with
  | nil => exact hf
  | cons st rest ih =>
    have h1 := hfresh st (by simp)
    have h2 : ∀ s ∈ rest, ((f.modTime.Local zone).Add c.expiration).Before s.now = false :=
      fun s hs => hfresh s (by simp [hs])
    cases st with
    | get now key =>
      simp only [cache.fileCache.run]
      exact ih _ (c.Get_keep now zone fs key p f hf h1) h2
    | sweep now =>
      simp only [cache.fileCache.run]
      exact ih _ (c.sweep_keep now zone fs p f hf h1) h2

theorem cache.fileCache.Get_hit (c : cache.fileCache) (now : Time) (zone : Int)
    (fs : afero.Fs) (key : String) (f : afero.File) (hf : fs (c.wrapKey key) = some f)
    (hfresh : ((f.modTime.Local zone).Add c.expiration).Before now = false) :
    (c.Get now zone fs key).2 = (f.data, none) := by
  simp [cache.fileCache.Get, afero.Stat, afero.ReadFile, hf, hfresh]

theorem cache.fileCache.Get_expired (c : cache.fileCache) (now : Time) (zone : Int)
    (fs : afero.Fs) (key : String)
    (h : ∀ f, fs (c.wrapKey key) = some f →
      ((f.modTime.Local zone).Add c.expiration).Before now = true) :
    (c.Get now zone fs key).2 = ([], some .ErrEntryNotFound) := by
  simp only [cache.fileCache.Get, afero.Stat]
  cases hf : fs (c.wrapKey key) with
  | none => rfl
  | some f =>
    simp only
    rw [if_pos (h f hf)]

/-- C18: in the filesystem cache, whatever the eviction mode, a `Set(k, v)` at
time `t` succeeds, and with nothing but `Get` calls and rounds of the
background loop in between, none later than `t'`, a `Get(k)` at a time `t'`
not after `t` plus the lifetime returns exactly `v`, while a `Get(k)` at a time
`t'` after `t` plus the lifetime returns `ErrEntryNotFound`. The lifetime is
not negative and `t` plus the lifetime lies in the range of `time.Time`. -/
theorem fileCache_ttl_spec (c : cache.fileCache) (zone : Int) (fs : afero.Fs) (k : String)
    (v : List Nat) (t t' : Time) (steps : List cache.Step)
    (hexp : 0 ≤ c.expiration) (ht : t.WF) (ht' : t'.WF)
    (hno : t.sec + c.expiration / 1000000000 + 1 < 2 ^ 63)
    (hsteps : ∀ st ∈ steps, st.now.WF ∧ st.now.nanos ≤ t'.nanos) :
    (c.Set t fs k v).2 = none ∧
    (t'.nanos ≤ t.nanos + c.expiration →
      (c.Get t' zone (c.run zone (c.Set t fs k v).1 steps) k).2 = (v, none)) ∧
    (t.nanos + c.expiration < t'.nanos →
      (c.Get t' zone (c.run zone (c.Set t fs k v).1 steps) k).2 =
        ([], some .ErrEntryNotFound)) := by
  obtain ⟨hset, hfile⟩ := c.Set_eq t fs k v
  have hexpired : ∀ now : Time, now.nsec < 1000000000 →
      (((Time.Local t zone).Add c.expiration).Before now = true ↔
        t.nanos + c.expiration < now.nanos) :=
    fun now hnow => cache.expired_iff c zone t now ht hnow hexp hno
  refine ⟨hset, ?_, ?_⟩
  · intro hle
    have hfresh : ∀ now : Time, now.nsec < 1000000000 → now.nanos ≤ t'.nanos →
        ((Time.Local t zone).Add c.expiration).Before now = false := by
      intro now hnow hn
      cases hb : ((Time.Local t zone).Add c.expiration).Before now with
      | false => rfl
      | true =>
        have := (hexpired now hnow).mp hb
        omega
    have hrun := c.run_keep zone _ steps _ _ hfile
      (fun st hst => hfresh st.now (hsteps st hst).1.2.2.1 (hsteps st hst).2)
    exact c.Get_hit t' zone _ k _ hrun (hfresh t' ht'.2.2.1 (le_refl _))
  · intro hlt
    apply c.Get_expired
    intro f hf
    rcases c.run_shrink zone (c.Set t fs k v).1 steps (c.wrapKey k) with h | h
    · rw [h, hfile] at hf
      cases hf
      exact (hexpired t' ht'.2.2.1).mpr hlt
    · rw [h] at hf
      cases hf

/-- C18 at the cache of `NewFile` with lazy eviction: an entry set at one
instant, with a round of the background loop and a `Get` in between, is read
back fifteen minutes later to the nanosecond. -/
theorem fileCache_ttl_spec_witness :
    ((scenario.fileCache true).Get ⟨63900000900, 0, none⟩ 0
      ((scenario.fileCache true).run 0
        ((scenario.fileCache true).Set ⟨63900000000, 0, none⟩ scenario.emptyFs scenario.key
          [1, 2, 3]).1
        [.sweep ⟨63900000180, 0, none⟩, .get ⟨63900000200, 0, none⟩ scenario.key])
      scenario.key).2 = ([1, 2, 3], none) :=
  (fileCache_ttl_spec (scenario.fileCache true) 0 scenario.emptyFs scenario.key [1, 2, 3]
    ⟨63900000000, 0, none⟩ ⟨63900000900, 0, none⟩
    [.sweep ⟨63900000180, 0, none⟩, .get ⟨63900000200, 0, none⟩ scenario.key]
    (by decide) (by decide) (by decide) (by decide) (by decide)).2.1 (by decide)

set_option maxRecDepth 100000 in
/-- C19 fails on the code when eviction is not lazy: after `Set` and a first
`Delete` that returns the stored bytes, a second `Delete` one minute later
returns the same bytes again instead of `ErrEntryNotFound`, and a `Get` at the
very instant of the first `Delete` still returns the bytes. A `Get` one minute
later misses, and with lazy eviction the second `Delete` reports
`ErrEntryNotFound`. -/
theorem fileCache_delete_twice :
    ((scenario.fileCache false).Delete ⟨63900000060, 0, none⟩
      ((scenario.fileCache false).Set ⟨63900000000, 0, none⟩ scenario.emptyFs scenario.key
        [1, 2, 3]).1 scenario.key).2 = ([1, 2, 3], none) ∧
    ((scenario.fileCache false).Delete ⟨63900000120, 0, none⟩
      ((scenario.fileCache false).Delete ⟨63900000060, 0, none⟩
        ((scenario.fileCache false).Set ⟨63900000000, 0, none⟩ scenario.emptyFs scenario.key
          [1, 2, 3]).1 scenario.key).1 scenario.key).2 = ([1, 2, 3], none) ∧
    ((scenario.fileCache false).Get ⟨63900000060, 0, none⟩ 0
      ((scenario.fileCache false).Delete ⟨63900000060, 0, none⟩
        ((scenario.fileCache false).Set ⟨63900000000, 0, none⟩ scenario.emptyFs scenario.key
          [1, 2, 3]).1 scenario.key).1 scenario.key).2 = ([1, 2, 3], none) ∧
    ((scenario.fileCache false).Get ⟨63900000120, 0, none⟩ 0
      ((scenario.fileCache false).Delete ⟨63900000060, 0, none⟩
        ((scenario.fileCache false).Set ⟨63900000000, 0, none⟩ scenario.emptyFs scenario.key
          [1, 2, 3]).1 scenario.key).1 scenario.key).2 = ([], some .ErrEntryNotFound) ∧
    ((scenario.fileCache true).Delete ⟨63900000120, 0, none⟩
      ((scenario.fileCache true).Delete ⟨63900000060, 0, none⟩
        ((scenario.fileCache true).Set ⟨63900000000, 0, none⟩ scenario.emptyFs scenario.key
          [1, 2, 3]).1 scenario.key).1 scenario.key).2 = ([], some .ErrEntryNotFound) := by
  decide

/-! ## The in-memory cache configuration -/

theorem Time.wrapInt64_id (x : Int) (h1 : -(2 ^ 63 : Int) ≤ x) (h2 : x < 2 ^ 63) :
    Time.wrapInt64 x = x := by
  have e63 : (2 : Int) ^ 63 = 9223372036854775808 := by norm_num
  have e64 : (2 : Int) ^ 64 = 18446744073709551616 := by norm_num
  rw [e63] at h1 h2
  simp only [Time.wrapInt64, e63, e64]
  omega

theorem cache.memoryUnderlayConfig_eq (cfg : cache.MemoryConfig) (hage : 0 ≤ cfg.EntryMaxAge)
    (hB : 1 ≤ cfg.Buckets) (hC : 1 ≤ cfg.BucketCapacity) :
    cache.memoryUnderlayConfig cfg = .ok
      { Shards := cfg.Buckets
        LifeWindow := if cfg.EntryMaxAge = 0 then 15 * Time.Minute else cfg.EntryMaxAge
        CleanWindow := if cfg.LazyEntryEviction then 0 else 3 * Time.Minute
        MaxEntriesInWindow := cache.shl cfg.Buckets 4
        MaxEntrySize :=
          if cfg.LazyBucketCapacityScale then cache.shr (cache.shl cfg.BucketCapacity 16) 2
          else cache.shl cfg.BucketCapacity 16
        HardMaxCacheSize := Time.wrapInt64 (cfg.BucketCapacity * cfg.Buckets)
        StatsEnabled := false
        Verbose := false } := by
  obtain ⟨ns, age, lazyE, B, C, lazyS⟩ := cfg
  simp only at hage hB hC
  have hB0 : B ≠ 0 := by omega
  have hC0 : C ≠ 0 := by omega
  have hBn : ¬ B < 0 := by omega
  have hCn : ¬ C < 0 := by omega
  have h15 : ¬ (15 * Time.Minute < 0) := by decide
  have hagen : ¬ age < 0 := by omega
  by_cases hage0 : age = 0 <;> cases lazyE <;> cases lazyS <;>
    simp [cache.memoryUnderlayConfig, cache.MemoryConfig.Default, cache.MemoryConfig.Validate,
      hB0, hC0, hBn, hCn, hage0, h15, hagen]

/-- C25: for a `MemoryConfig` with at least one bucket and a bucket capacity of
at least one (and an entry lifetime that is not negative, so that the
configuration is accepted), with values small enough that the shifts and the
product stay below `2^63`, the configuration handed to the underlying cache
has one shard per bucket, a hard cap of `BucketCapacity * Buckets` MiB, and
`(MaxEntriesInWindow / Shards) * MaxEntrySize` equal to `BucketCapacity * 2^20`,
or to `BucketCapacity * 2^18` when `LazyBucketCapacityScale` is set. -/
theorem memory_capacity_spec (cfg : cache.MemoryConfig) (hage : 0 ≤ cfg.EntryMaxAge)
    (hB : 1 ≤ cfg.Buckets) (hC : 1 ≤ cfg.BucketCapacity)
    (hBs : cfg.Buckets * 2 ^ 4 < 2 ^ 63) (hCs : cfg.BucketCapacity * 2 ^ 16 < 2 ^ 63)
    (hcap : cfg.BucketCapacity * cfg.Buckets < 2 ^ 63) :
    ∃ u, cache.memoryUnderlayConfig cfg = .ok u ∧ u.Shards = cfg.Buckets ∧
      u.HardMaxCacheSize = cfg.BucketCapacity * cfg.Buckets ∧
      Int.tdiv u.MaxEntriesInWindow u.Shards * u.MaxEntrySize =
        if cfg.LazyBucketCapacityScale then cfg.BucketCapacity * 2 ^ 18
        else cfg.BucketCapacity * 2 ^ 20 := by
  refine ⟨_, cache.memoryUnderlayConfig_eq cfg hage hB hC, rfl, ?_, ?_⟩
  · have hpos : 0 ≤ cfg.BucketCapacity * cfg.Buckets := Int.mul_nonneg (by omega) (by omega)
    exact Time.wrapInt64_id _ (by
      have : -(2 ^ 63 : Int) ≤ 0 := by norm_num
      omega) hcap
  · have e1 : cache.shl cfg.Buckets 4 = cfg.Buckets * 16 := by
      unfold cache.shl
      rw [Time.wrapInt64_id _ (by
        have : -(2 ^ 63 : Int) ≤ 0 := by norm_num
        omega) hBs]
      norm_num
    have e2 : cache.shl cfg.BucketCapacity 16 = cfg.BucketCapacity * 65536 := by
      unfold cache.shl
      rw [Time.wrapInt64_id _ (by
        have : -(2 ^ 63 : Int) ≤ 0 := by norm_num
        omega) hCs]
      norm_num
    have e3 : Int.tdiv (cfg.Buckets * 16) cfg.Buckets = 16 :=
      Int.mul_tdiv_cancel_left 16 (by omega)
    simp only [e1, e2, e3]
    cases cfg.LazyBucketCapacityScale
    · simp only [Bool.false_eq_true, if_false]
      omega
    · simp only [if_true, cache.shr]
      have e4 : cfg.BucketCapacity * 65536 / 2 ^ 2 = cfg.BucketCapacity * 16384 := by
        omega
      rw [e4]
      omega

/-- C25 at the default sizes, 64 buckets of 1 MiB, with lazy scaling. -/
theorem memory_capacity_spec_witness :
    ∃ u, cache.memoryUnderlayConfig ⟨"", 0, false, 64, 1, true⟩ = .ok u ∧ u.Shards = 64 ∧
      u.HardMaxCacheSize = 1 * 64 ∧
      Int.tdiv u.MaxEntriesInWindow u.Shards * u.MaxEntrySize =
        if true = true then 1 * 2 ^ 18 else 1 * 2 ^ 20 :=
  memory_capacity_spec ⟨"", 0, false, 64, 1, true⟩ (by decide) (by decide) (by decide)
    (by decide) (by decide) (by decide)

/-! ## The buffer pool -/

theorem bytespool.GetBytes_fresh (pool : List bytespool.Bytes) (h : pool = []) :
    bytespool.GetBytes pool 0 =
      (⟨List.replicate bytespool.defaultBytesSize 0, bytespool.defaultBytesSize⟩, []) := by
  unfold bytespool.GetBytes
  generalize bytespool.defaultBytesSize = d
  subst h
  simp

theorem bytespool.GetBuffer_fresh (s : bytespool.Pools) (h1 : s.bytesPool = [])
    (h2 : s.bufferPool = []) :
    (bytespool.GetBuffer s).1 = ⟨List.replicate bytespool.defaultBytesSize 0⟩ := by
  unfold bytespool.GetBuffer
  rw [h2]
  simp only [bytespool.GetBytes_fresh _ h1, bytespool.NewBuffer]
  generalize bytespool.defaultBytesSize = d
  simp

/-- C28 fails on the code: while the pools hold nothing recycled, `GetBuffer`
builds its buffer from the 32768 zero bytes of `GetBytes(0)`, so the buffer has
length 32768 and after a body is copied into it its bytes are the zero bytes
followed by the body. A buffer that went through `Put` comes back empty. -/
theorem getBuffer_not_empty (s : bytespool.Pools) (h1 : s.bytesPool = [])
    (h2 : s.bufferPool = []) :
    bytespool.defaultBytesSize = 32768 ∧
    (bytespool.GetBuffer s).1.Len = bytespool.defaultBytesSize ∧
    (∀ body : List Nat, ((bytespool.GetBuffer s).1.Copy body).Bytes =
      List.replicate bytespool.defaultBytesSize 0 ++ body) ∧
    (∀ (t : bytespool.Buffer) (body : List Nat),
      (bytespool.GetBuffer (bytespool.PutBuffer s t)).1.Len = 0 ∧
      ((bytespool.GetBuffer (bytespool.PutBuffer s t)).1.Copy body).Bytes = body) := by
  refine ⟨by decide, ?_, ?_, fun t body => ⟨rfl, rfl⟩⟩
  · rw [bytespool.GetBuffer_fresh s h1 h2]
    unfold bytespool.Buffer.Len
    generalize bytespool.defaultBytesSize = d
    simp
  · intro body
    rw [bytespool.GetBuffer_fresh s h1 h2]
    unfold bytespool.Buffer.Copy bytespool.Buffer.Bytes
    generalize bytespool.defaultBytesSize = d
    simp

/-- C28 at the pools of a process that has recycled nothing yet. -/
theorem getBuffer_not_empty_witness :
    bytespool.defaultBytesSize = 32768 ∧
    (bytespool.GetBuffer ⟨[], []⟩).1.Len = bytespool.defaultBytesSize ∧
    (∀ body : List Nat, ((bytespool.GetBuffer ⟨[], []⟩).1.Copy body).Bytes =
      List.replicate bytespool.defaultBytesSize 0 ++ body) ∧
    (∀ (t : bytespool.Buffer) (body : List Nat),
      (bytespool.GetBuffer (bytespool.PutBuffer ⟨[], []⟩ t)).1.Len = 0 ∧
      ((bytespool.GetBuffer (bytespool.PutBuffer ⟨[], []⟩ t)).1.Copy body).Bytes = body) :=
  getBuffer_not_empty ⟨[], []⟩ rfl rfl

/-! ## Cache keys as identities -/

theorem append_sep_inj (c : Char) (p1 p2 b1 b2 : List Char) (h1 : c ∉ p1) (h2 : c ∉ p2)
    (h : p1 ++ c :: b1 = p2 ++ c :: b2) : p1 = p2 ∧ b1 = b2 := by
  induction p1 generalizing p2 with
  | nil =>
    cases p2 with
    | nil => exact ⟨rfl, by simpa using h⟩
    | cons d ds =>
      simp only [List.nil_append, List.cons_append, List.cons.injEq] at h
      exact absurd (by simp [← h.1]) h2
  | cons a as ih =>
    cases p2 with
    | nil =>
      simp only [List.nil_append, List.cons_append, List.cons.injEq] at h
      exact absurd (by simp [h.1]) h1
    | cons d ds =>
      simp only [List.cons_append, List.cons.injEq] at h
      obtain ⟨e1, e2⟩ := ih ds (fun e => h1 (by simp [e])) (fun e => h2 (by simp [e])) h.2
      exact ⟨by rw [h.1, e1], e2⟩

theorem aws.key_data (o : aws.TokenOptions) :
    o.Key.data = "aws".data ++ '_' :: (o.AccessKeyID.data ++ '_' :: (o.Region.data ++ '_' ::
      (o.Cluster.data ++ '_' ::
        (if o.AssumeRoleARN = "" then "self" else o.AssumeRoleARN).data))) := by
  unfold aws.TokenOptions.Key
  by_cases h : o.AssumeRoleARN = ""
  · simp only [h, if_true, List.length_cons, List.length_nil]
    have e : [aws.Namespace, o.AccessKeyID, o.Region, o.Cluster, ""].set (0 + 1 + 1 + 1 + 1 + 1 - 1)
        "self" = [aws.Namespace, o.AccessKeyID, o.Region, o.Cluster, "self"] := rfl
    rw [e, join5]
    simp [String.data_append, aws.Namespace]
  · simp only [h, if_false]
    rw [join5]
    simp [String.data_append, aws.Namespace]

/-- C26, as stated, fails: an empty assume-role ARN and the ARN `self` give the
same AWS key, and so do a cluster `dev_eu` with one ARN and a cluster `dev`
with the ARN that starts with `eu_`, although the records differ. -/
theorem key_collision :
    aws.TokenOptions.Key ⟨"AKIA", "secret", "us-east-1", "c1", ""⟩ =
      aws.TokenOptions.Key ⟨"AKIA", "secret", "us-east-1", "c1", "self"⟩ ∧
    aws.TokenOptions.Key ⟨"AKIA", "secret", "us-east-1", "dev_eu", "arn:aws:iam::1:role/r"⟩ =
      aws.TokenOptions.Key ⟨"AKIA", "secret", "us-east-1", "dev", "eu_arn:aws:iam::1:role/r"⟩ ∧
    (⟨"AKIA", "secret", "us-east-1", "c1", ""⟩ : aws.TokenOptions) ≠
      ⟨"AKIA", "secret", "us-east-1", "c1", "self"⟩ := by
  decide

/-- C26, amended: on AWS option records whose access key ID, region and cluster
contain no `_` and whose assume-role ARN is not the text `self`, `Key` is
injective on the identifying tuple: equal keys come from equal access key ID,
region, cluster and assume-role ARN. -/
theorem key_injective (o1 o2 : aws.TokenOptions)
    (ha1 : '_' ∉ o1.AccessKeyID.toList) (ha2 : '_' ∉ o2.AccessKeyID.toList)
    (hr1 : '_' ∉ o1.Region.toList) (hr2 : '_' ∉ o2.Region.toList)
    (hc1 : '_' ∉ o1.Cluster.toList) (hc2 : '_' ∉ o2.Cluster.toList)
    (hs1 : o1.AssumeRoleARN ≠ "self") (hs2 : o2.AssumeRoleARN ≠ "self")
    (h : o1.Key = o2.Key) :
    o1.AccessKeyID = o2.AccessKeyID ∧ o1.Region = o2.Region ∧ o1.Cluster = o2.Cluster ∧
      o1.AssumeRoleARN = o2.AssumeRoleARN := by
  have hd := congrArg String.data h
  rw [aws.key_data, aws.key_data] at hd
  have hd1 := List.append_cancel_left hd
  simp only [List.cons.injEq, true_and] at hd1
  obtain ⟨ea, hd2⟩ := append_sep_inj '_' _ _ _ _ ha1 ha2 hd1
  obtain ⟨er, hd3⟩ := append_sep_inj '_' _ _ _ _ hr1 hr2 hd2
  obtain ⟨ec, hd4⟩ := append_sep_inj '_' _ _ _ _ hc1 hc2 hd3
  have hx := String.ext hd4
  refine ⟨String.ext ea, String.ext er, String.ext ec, ?_⟩
  by_cases e1 : o1.AssumeRoleARN = "" <;> by_cases e2 : o2.AssumeRoleARN = ""
  · rw [e1, e2]
  · rw [if_pos e1, if_neg e2] at hx
    exact absurd hx.symm hs2
  · rw [if_neg e1, if_pos e2] at hx
    exact absurd hx hs1
  · rw [if_neg e1, if_neg e2] at hx
    exact hx

/-- C26, amended, at the options of the scenario and a record of the same
identity with another secret, which share their key. -/
theorem key_injective_witness :
    scenario.opts.AccessKeyID = "AKIA" ∧ scenario.opts.Region = "us-east-1" ∧
      scenario.opts.Cluster = "c1" ∧ scenario.opts.AssumeRoleARN = "" :=
  key_injective scenario.opts ⟨"AKIA", "other", "us-east-1", "c1", ""⟩ (by decide) (by decide)
    (by decide) (by decide) (by decide) (by decide) (by decide) (by decide) (by decide)

/-! ## Minting an AWS token -/

set_option maxRecDepth 100000 in
theorem base64.dec_enc : ∀ v, v < 64 → base64.dec (base64.enc v) = some v := by decide

set_option maxRecDepth 100000 in
theorem base64.enc_no_break : ∀ v, v < 64 → base64.enc v ≠ 13 ∧ base64.enc v ≠ 10 := by
  decide

theorem base64.decodeQuanta_encode (l : List Nat) (h : ∀ b ∈ l, b < 256) :
    base64.decodeQuanta (base64.EncodeToString l) = .ok l := by
  induction l using base64.EncodeToString.induct with
  | case1 a b c rest ih =>
    have ha : a < 256 := h a (by simp)
    have hb : b < 256 := h b (by simp)
    have hc : c < 256 := h c (by simp)
    have hrest : ∀ x ∈ rest, x < 256 := fun x hx => h x (by simp [hx])
    simp only [base64.EncodeToString, List.cons_append, List.nil_append, base64.decodeQuanta]
    rw [base64.dec_enc _ (Nat.mod_lt _ (by decide)), base64.dec_enc _ (Nat.mod_lt _ (by decide)),
      base64.dec_enc _ (Nat.mod_lt _ (by decide)), base64.dec_enc _ (Nat.mod_lt _ (by decide))]
    have e0 : ([] : List Nat).append (base64.EncodeToString rest) =
        base64.EncodeToString rest := rfl
    simp only [e0, ih hrest, List.cons_append, List.nil_append, Except.ok.injEq, List.cons.injEq,
      and_true]
    refine ⟨?_, ?_, ?_⟩ <;> omega
  | case2 a b =>
    have ha : a < 256 := h a (by simp)
    have hb : b < 256 := h b (by simp)
    simp only [base64.EncodeToString, base64.decodeQuanta]
    rw [base64.dec_enc _ (Nat.mod_lt _ (by decide)), base64.dec_enc _ (Nat.mod_lt _ (by decide)),
      base64.dec_enc _ (Nat.mod_lt _ (by decide))]
    simp only [Except.ok.injEq, List.cons.injEq, and_true]
    refine ⟨?_, ?_⟩ <;> omega
  | case3 a =>
    have ha : a < 256 := h a (by simp)
    simp only [base64.EncodeToString, base64.decodeQuanta]
    rw [base64.dec_enc _ (Nat.mod_lt _ (by decide)), base64.dec_enc _ (Nat.mod_lt _ (by decide))]
    simp only [Except.ok.injEq, List.cons.injEq, and_true]
    omega
  | case4 => rfl

theorem base64.encode_no_break (l : List Nat) :
    ∀ x ∈ base64.EncodeToString l, x ≠ 13 ∧ x ≠ 10 := by
  induction l using base64.EncodeToString.induct with
  | case1 a b c rest ih =>
    intro x hx
    simp only [base64.EncodeToString, List.cons_append, List.nil_append, List.mem_cons] at hx
    rcases hx with rfl | rfl | rfl | rfl | hx
    · exact base64.enc_no_break _ (Nat.mod_lt _ (by decide))
    · exact base64.enc_no_break _ (Nat.mod_lt _ (by decide))
    · exact base64.enc_no_break _ (Nat.mod_lt _ (by decide))
    · exact base64.enc_no_break _ (Nat.mod_lt _ (by decide))
    · exact ih x hx
  | case2 a b =>
    intro x hx
    simp only [base64.EncodeToString, List.mem_cons, List.not_mem_nil, or_false] at hx
    rcases hx with rfl | rfl | rfl
    · exact base64.enc_no_break _ (Nat.mod_lt _ (by decide))
    · exact base64.enc_no_break _ (Nat.mod_lt _ (by decide))
    · exact base64.enc_no_break _ (Nat.mod_lt _ (by decide))
  | case3 a =>
    intro x hx
    simp only [base64.EncodeToString, List.mem_cons, List.not_mem_nil, or_false] at hx
    rcases hx with rfl | rfl
    · exact base64.enc_no_break _ (Nat.mod_lt _ (by decide))
    · exact base64.enc_no_break _ (Nat.mod_lt _ (by decide))
  | case4 =>
    intro x hx
    simp [base64.EncodeToString] at hx

/-- Decoding what the encoder wrote gives the bytes back. -/
theorem base64.decodeString_encode (l : List Nat) (h : ∀ b ∈ l, b < 256) :
    base64.DecodeString (base64.EncodeToString l) = .ok l := by
  unfold base64.DecodeString
  rw [List.filter_eq_self.mpr, base64.decodeQuanta_encode l h]
  intro x hx
  have := base64.encode_no_break l x hx
  simp [this.1, this.2]

theorem utf8Char_lt (c : Char) : ∀ b ∈ utf8Char c, b < 256 := by
  have hv : c.toNat < 1114112 := by
    have := c.valid
    simp only [UInt32.isValidChar, Nat.isValidChar] at this
    have e : c.toNat = c.val.toNat := rfl
    rw [e]
    rcases this with h | h
    · have : c.val.toNat = c.val.val.val := rfl
      omega
    · have : c.val.toNat = c.val.val.val := rfl
      omega
  intro b hb
  unfold utf8Char at hb
  simp only at hb
  split at hb
  · simp only [List.mem_singleton] at hb
    omega
  · split at hb
    · simp only [List.mem_cons, List.mem_singleton, List.not_mem_nil, or_false] at hb
      rcases hb with rfl | rfl <;> omega
    · split at hb
      · simp only [List.mem_cons, List.mem_singleton, List.not_mem_nil, or_false] at hb
        rcases hb with rfl | rfl | rfl <;> omega
      · simp only [List.mem_cons, List.mem_singleton, List.not_mem_nil, or_false] at hb
        rcases hb with rfl | rfl | rfl | rfl <;> omega

theorem utf8_lt (s : String) : ∀ b ∈ utf8 s, b < 256 := by
  intro b hb
  unfold utf8 at hb
  rw [List.mem_flatMap] at hb
  obtain ⟨c, -, hc⟩ := hb
  exact utf8Char_lt c b hc

/-- C22: when the session is created and presigning yields the URL `u` at the
clock reading `now`, the minted token's value is `k8s-aws-v1.` followed by the
unpadded URL-safe base64 text of `u`, so that dropping the prefix and decoding
gives the bytes of `u` back, and its expiration is the instant 14 minutes after
`now` (which lies in the range of `time.Time`). -/
theorem getToken_mint_spec (now : Time) (zone : Int) (u : String) (hnow : now.WF)
    (hno : now.sec + 841 < 2 ^ 63) :
    ∃ tk, aws.getToken now zone none (.ok u) = .ok tk ∧
      tk.Value = utf8 "k8s-aws-v1." ++ base64.EncodeToString (utf8 u) ∧
      base64.DecodeString (tk.Value.drop (utf8 "k8s-aws-v1.").length) = .ok (utf8 u) ∧
      tk.Expiration.nanos = now.nanos + 14 * 60 * 1000000000 ∧
      tk.Expiration.nsec < 1000000000 := by
  have hd : aws.presignedURLExpiration - 1 * Time.Minute = 840000000000 := by decide
  have hadd := Time.add_nanos (now.Local zone) 840000000000 hnow.2.2.1 hnow.1 (by decide)
    (by
      have e : (840000000000 : Int) / 1000000000 = 840 := by decide
      rw [e]
      show now.sec + 840 + 1 < 2 ^ 63
      rw [show now.sec + 840 + 1 = now.sec + 841 by omega]
      exact hno)
  refine ⟨_, rfl, rfl, ?_, ?_, ?_⟩
  · simp only [List.drop_left]
    exact base64.decodeString_encode _ (utf8_lt u)
  · simp only [hd]
    rw [hadd.1]
    rfl
  · simp only [hd]
    exact hadd.2

/-- C22 at the first clock reading of the scenario and an STS URL. -/
theorem getToken_mint_spec_witness :
    ∃ tk, aws.getToken ⟨63900000000, 0, none⟩ 0 none
        (.ok "https://sts.us-east-1.amazonaws.com/?Action=GetCallerIdentity") = .ok tk ∧
      tk.Value = utf8 "k8s-aws-v1." ++ base64.EncodeToString
        (utf8 "https://sts.us-east-1.amazonaws.com/?Action=GetCallerIdentity") ∧
      base64.DecodeString (tk.Value.drop (utf8 "k8s-aws-v1.").length) =
        .ok (utf8 "https://sts.us-east-1.amazonaws.com/?Action=GetCallerIdentity") ∧
      tk.Expiration.nanos = Time.nanos ⟨63900000000, 0, none⟩ + 14 * 60 * 1000000000 ∧
      tk.Expiration.nsec < 1000000000 :=
  getToken_mint_spec ⟨63900000000, 0, none⟩ 0
    "https://sts.us-east-1.amazonaws.com/?Action=GetCallerIdentity" (by decide) (by decide)

/-! ## The single-flight wrapper -/

namespace singleflight

theorem run_cons (under : Underlay) (s : State) (e : Event) (evs : List Event) :
    run under s (e :: evs) = run under (step under s e) evs := rfl

theorem run_append (under : Underlay) (s : State) (a b : List Event) :
    run under s (a ++ b) = run under (run under s a) b := by
  simp [run, List.foldl_append]

theorem step_done_mono (under : Underlay) (s : State) (e : Event) (i : Nat)
    (h : s.done i = true) : (step under s e).done i = true := by
  cases e with
  | call caller key op =>
    simp only [step]
    split <;> exact h
  | finish key =>
    simp only [step]
    split <;> exact h
  | cancel caller =>
    simp only [step]
    split
    · rfl
    · exact h
  | receive caller preferDone =>
    simp only [step]
    split
    · exact h
    · split
      · exact h
      · exact h
      · split <;> exact h

theorem step_done_cancel (under : Underlay) (s : State) (e : Event) (i : Nat)
    (h : (step under s e).done i = true) : s.done i = true ∨ e = .cancel i := by
  cases e with
  | call caller key op =>
    simp only [step] at h
    split at h <;> exact Or.inl h
  | finish key =>
    simp only [step] at h
    split at h <;> exact Or.inl h
  | cancel caller =>
    simp only [step] at h
    by_cases hi : i = caller
    · exact Or.inr (by rw [hi])
    · rw [if_neg hi] at h
      exact Or.inl h
  | receive caller preferDone =>
    simp only [step] at h
    split at h
    · exact Or.inl h
    · split at h
      · exact Or.inl h
      · exact Or.inl h
      · split at h <;> exact Or.inl h

theorem run_done_cancel (under : Underlay) (evs : List Event) (s : State) (i : Nat)
    (h : (run under s evs).done i = true) : s.done i = true ∨ .cancel i ∈ evs := by
  induction evs generalizing s with
  | nil => exact Or.inl h
  | cons e rest ih =>
    rw [run_cons] at h
    rcases ih _ h with h1 | h1
    · rcases step_done_cancel under s e i h1 with h2 | h2
      · exact Or.inl h2
      · exact Or.inr (by simp [h2])
    · exact Or.inr (by simp [h1])

theorem step_returned_mono (under : Underlay) (s : State) (e : Event)
    (x : Nat × (List Nat × Option cache.Error)) (h : x ∈ s.returned) :
    x ∈ (step under s e).returned := by
  cases e with
  | call caller key op =>
    simp only [step]
    split <;> exact h
  | finish key =>
    simp only [step]
    split <;> exact h
  | cancel caller => exact h
  | receive caller preferDone =>
    simp only [step]
    split
    · exact h
    · split
      · exact h
      · exact List.mem_append_left _ h
      · split <;> exact List.mem_append_left _ h

theorem run_returned_mono (under : Underlay) (evs : List Event) (s : State)
    (x : Nat × (List Nat × Option cache.Error)) (h : x ∈ s.returned) :
    x ∈ (run under s evs).returned := by
  induction evs generalizing s with
  | nil => exact h
  | cons e rest ih => exact ih _ (step_returned_mono under s e x h)

end singleflight

namespace singleflight

theorem PreInv.init (k : String) : PreInv k [] init where
  map := rfl
  chan := fun _ => rfl
  started := rfl
  waiting := fun i op h => by cases h
  live := fun i hi => by cases hi
  returned := fun i out h => by cases h

theorem PreInv.call (under : Underlay) (k : String) (cs : List Nat) (s : State) (i : Nat)
    (h : PreInv k cs s) (hi : i ∉ cs) : PreInv k (cs ++ [i]) (step under s (.call i k .get)) := by
  cases cs with
  | nil =>
    have hm : s.m k = none := h.map
    simp only [step, hm, List.nil_append]
    refine ⟨by simp, h.chan, ?_, ?_, ?_, h.returned⟩
    · simp [h.started]
    · intro j op hj
      by_cases e : j = i
      · simp only [e, if_true, Option.some.injEq] at hj
        exact ⟨hj.symm, by simp [e]⟩
      · simp only [e, if_false] at hj
        exact absurd (h.waiting j op hj).2 (by simp)
    · intro j hj
      simp only [List.mem_singleton] at hj
      left
      simp [hj]
  | cons l t =>
    have hm : s.m k = some ⟨l, .get, l :: t⟩ := h.map
    simp only [step, hm, List.cons_append]
    refine ⟨by simp, h.chan, h.started, ?_, ?_, h.returned⟩
    · intro j op hj
      by_cases e : j = i
      · simp only [e, if_true, Option.some.injEq] at hj
        exact ⟨hj.symm, by simp [e]⟩
      · simp only [e, if_false] at hj
        obtain ⟨h1, h2⟩ := h.waiting j op hj
        exact ⟨h1, by
          rw [← List.cons_append]
          exact List.mem_append_left _ h2⟩
    · intro j hj
      by_cases e : j = i
      · left
        simp [e]
      · have hj2 : j ∈ l :: t := by
          rw [← List.cons_append] at hj
          rcases List.mem_append.mp hj with hj | hj
          · exact hj
          · exact absurd (List.mem_singleton.mp hj) e
        rcases h.live j hj2 with h1 | h1
        · left
          simp only [e, if_false]
          exact h1
        · exact Or.inr h1

theorem PreInv.pre_cancel (under : Underlay) (k : String) (cs : List Nat) (s : State) (i : Nat)
    (h : PreInv k cs s) : PreInv k cs (step under s (.cancel i)) := by
  refine ⟨h.map, h.chan, h.started, h.waiting, h.live, ?_⟩
  intro j out hj
  obtain ⟨h1, h2⟩ := h.returned j out hj
  exact ⟨step_done_mono under s (.cancel i) j h1, h2⟩

theorem PreInv.pre_receive (under : Underlay) (k : String) (cs : List Nat) (s : State) (i : Nat)
    (b : Bool) (h : PreInv k cs s) : PreInv k cs (step under s (.receive i b)) := by
  simp only [step]
  cases hw : s.waiting i with
  | none => exact h
  | some op =>
    simp only [h.chan i]
    cases hd : s.done i with
    | false => exact h
    | true =>
      simp only
      refine ⟨h.map, h.chan, h.started, ?_, ?_, ?_⟩
      · intro j op2 hj
        by_cases e : j = i
        · simp [e] at hj
        · simp only [e, if_false] at hj
          exact h.waiting j op2 hj
      · intro j hj
        by_cases e : j = i
        · right
          simp [e]
        · rcases h.live j hj with h1 | h1
          · left
            simp only [e, if_false]
            exact h1
          · exact Or.inr (List.mem_append_left _ h1)
      · intro j out hj
        rcases List.mem_append.mp hj with hj | hj
        · exact h.returned j out hj
        · simp only [List.mem_singleton, Prod.mk.injEq] at hj
          exact ⟨by rw [hj.1]; exact hd, hj.2⟩

/-- The pre-phase: calls of `Get` on one key by distinct callers, cancellations
and scheduled selects keep the invariant, the callers accumulating in order. -/
theorem PreInv.pre_run (under : Underlay) (k : String) (pre : List Event) (cs : List Nat)
    (s : State) (h : PreInv k cs s)
    (hpre : ∀ e ∈ pre, (∃ i, e = .call i k .get) ∨ (∃ i, e = .cancel i) ∨
      (∃ i b, e = .receive i b))
    (hnodup : (cs ++ callers pre).Nodup) :
    PreInv k (cs ++ callers pre) (singleflight.run under s pre) := by
  induction pre generalizing cs s with
  | nil => simpa [callers, singleflight.run] using h
  | cons e rest ih =>
    have hrest : ∀ e ∈ rest, (∃ i, e = .call i k .get) ∨ (∃ i, e = .cancel i) ∨
        (∃ i b, e = .receive i b) := fun e he => hpre e (by simp [he])
    rw [run_cons]
    rcases hpre e (by simp) with ⟨i, rfl⟩ | ⟨i, rfl⟩ | ⟨i, b, rfl⟩
    · have hi : i ∉ cs := by
        intro hi
        simp only [callers] at hnodup
        exact (List.nodup_append.mp hnodup).2.2 hi (by simp)
      have := ih (cs ++ [i]) _ (PreInv.call under k cs s i h hi) hrest
        (by simpa [callers] using hnodup)
      simpa [callers] using this
    · exact ih cs _ (PreInv.pre_cancel under k cs s i h) hrest hnodup
    · exact ih cs _ (PreInv.pre_receive under k cs s i b h) hrest hnodup

theorem PostInv.finish (under : Underlay) (k : String) (l : Nat) (t : List Nat) (s : State)
    (h : PreInv k (l :: t) s) :
    PostInv k l (under k .get (s.done l)) (l :: t) (step under s (.finish k)) := by
  have hm : s.m k = some ⟨l, .get, l :: t⟩ := h.map
  simp only [step, hm, closure]
  refine ⟨?_, h.waiting, ?_, ?_, h.started⟩
  · intro i hi
    simp only [hi, if_true]
  · intro i hi
    rcases h.live i hi with h1 | h1
    · exact Or.inl h1
    · exact Or.inr ⟨_, h1⟩
  · intro i out hi
    exact Or.inr (h.returned i out hi)

theorem PostInv.post_cancel (under : Underlay) (k : String) (l : Nat) (r : Result) (cs : List Nat)
    (s : State) (i : Nat) (h : PostInv k l r cs s) :
    PostInv k l r cs (step under s (.cancel i)) := by
  refine ⟨h.chan, h.waiting, h.live, ?_, h.started⟩
  intro j out hj
  rcases h.returned j out hj with h1 | ⟨h1, h2⟩
  · exact Or.inl h1
  · exact Or.inr ⟨step_done_mono under s (.cancel i) j h1, h2⟩

theorem PostInv.post_receive (under : Underlay) (k : String) (l : Nat) (r : Result)
    (cs : List Nat) (s : State) (i : Nat) (b : Bool) (h : PostInv k l r cs s) :
    PostInv k l r cs (step under s (.receive i b)) := by
  simp only [step]
  cases hw : s.waiting i with
  | none => exact h
  | some op =>
    obtain ⟨hop, hi⟩ := h.waiting i op hw
    subst hop
    simp only [h.chan i hi]
    have hwait : ∀ (j : Nat) (op2 : Op),
        (if j = i then none else s.waiting j) = some op2 → op2 = .get ∧ j ∈ cs := by
      intro j op2 hj
      by_cases e : j = i
      · simp [e] at hj
      · simp only [e, if_false] at hj
        exact h.waiting j op2 hj
    have hlive : ∀ (x : Nat × (List Nat × Option cache.Error)), ∀ j ∈ cs,
        x.1 = i → (if j = i then none else s.waiting j) = some Op.get ∨
          ∃ out, (j, out) ∈ s.returned ++ [x] := by
      intro x j hj hx
      by_cases e : j = i
      · right
        exact ⟨x.2, by simp [e, ← hx]⟩
      · rcases h.live j hj with h1 | ⟨out, h1⟩
        · left
          simp only [e, if_false]
          exact h1
        · exact Or.inr ⟨out, List.mem_append_left _ h1⟩
    split
    · rename_i hc
      simp only [Bool.and_eq_true] at hc
      refine ⟨h.chan, hwait, fun j hj => hlive (i, ([], some canceled)) j hj rfl, ?_,
        h.started⟩
      intro j out hj
      rcases List.mem_append.mp hj with hj | hj
      · exact h.returned j out hj
      · simp only [List.mem_singleton, Prod.mk.injEq] at hj
        exact Or.inr ⟨by rw [hj.1]; exact hc.1, hj.2⟩
    · refine ⟨h.chan, hwait, fun j hj => hlive (i, deliver .get r) j hj rfl, ?_,
        h.started⟩
      intro j out hj
      rcases List.mem_append.mp hj with hj | hj
      · exact h.returned j out hj
      · simp only [List.mem_singleton, Prod.mk.injEq] at hj
        exact Or.inl hj.2

theorem PostInv.post_run (under : Underlay) (k : String) (l : Nat) (r : Result) (cs : List Nat)
    (post : List Event) (s : State) (h : PostInv k l r cs s)
    (hpost : ∀ e ∈ post, (∃ i, e = .cancel i) ∨ (∃ i b, e = .receive i b)) :
    PostInv k l r cs (singleflight.run under s post) := by
  induction post generalizing s with
  | nil => exact h
  | cons e rest ih =>
    have hrest : ∀ e ∈ rest, (∃ i, e = .cancel i) ∨ (∃ i b, e = .receive i b) :=
      fun e he => hpost e (by simp [he])
    rw [run_cons]
    rcases hpost e (by simp) with ⟨i, rfl⟩ | ⟨i, b, rfl⟩
    · exact ih _ (PostInv.post_cancel under k l r cs s i h) hrest
    · exact ih _ (PostInv.post_receive under k l r cs s i b h) hrest

/-- Liveness after delivery: a subscribed caller whose context is never
cancelled returns the shared result at its first scheduled select. -/
theorem PostInv.served (under : Underlay) (k : String) (l : Nat) (r : Result) (cs : List Nat)
    (post : List Event) (s : State) (i : Nat) (b : Bool) (h : PostInv k l r cs s)
    (hpost : ∀ e ∈ post, (∃ i, e = .cancel i) ∨ (∃ i b, e = .receive i b))
    (hi : i ∈ cs) (hdone : s.done i = false) (hnc : Event.cancel i ∉ post)
    (hrecv : Event.receive i b ∈ post) :
    (i, (r.Val, r.Err)) ∈ (singleflight.run under s post).returned := by
  induction post generalizing s with
  | nil => cases hrecv
  | cons e rest ih =>
    have hrest : ∀ e ∈ rest, (∃ i, e = .cancel i) ∨ (∃ i b, e = .receive i b) :=
      fun e he => hpost e (by simp [he])
    have hnc2 : Event.cancel i ∉ rest := fun hc => hnc (by simp [hc])
    rw [run_cons]
    rcases hpost e (by simp) with ⟨j, rfl⟩ | ⟨j, b2, rfl⟩
    · have hji : j ≠ i := fun e => hnc (by simp [e])
      have hd : (step under s (.cancel j)).done i = false := by
        simp only [step]
        rw [if_neg (fun e => hji e.symm)]
        exact hdone
      have hr : Event.receive i b ∈ rest := by
        rcases List.mem_cons.mp hrecv with hr | hr
        · cases hr
        · exact hr
      exact ih _ (PostInv.post_cancel under k l r cs s j h) hrest hd hnc2 hr
    · by_cases hji : j = i
      · subst hji
        apply run_returned_mono
        rcases h.live j hi with hw | ⟨out, hout⟩
        · simp only [step, hw, h.chan j hi, hdone, Bool.false_and, Bool.false_eq_true, if_false]
          simp [deliver]
        · apply step_returned_mono
          rcases h.returned j out hout with h1 | ⟨h1, -⟩
          · rw [← h1]
            exact hout
          · rw [hdone] at h1
            cases h1
      · have hd : (step under s (.receive j b2)).done i = false := by
          cases hx : (step under s (.receive j b2)).done i with
          | false => rfl
          | true =>
            rcases step_done_cancel under s _ i hx with h1 | h1
            · rw [hdone] at h1
              cases h1
            · cases h1
        have hr : Event.receive i b ∈ rest := by
          rcases List.mem_cons.mp hrecv with hr | hr
          · cases hr
            exact absurd rfl hji
          · exact hr
        exact ih _ (PostInv.post_receive under k l r cs s j b2 h) hrest hd hnc2 hr

end singleflight

/-- C23, as stated, fails: two callers are in `Get` on the same key and the
first, whose closure runs, has its context cancelled. The one execution runs
under that cancelled context, and with a wrapped cache that honours its
context the second caller, whose own context is not cancelled, receives the
cancellation error as well. -/
theorem singleFlight_owner_cancelled :
    (singleflight.run scenario.honouring singleflight.init
      [.call 0 "k" .get, .call 1 "k" .get, .cancel 0, .finish "k", .receive 0 true,
        .receive 1 false]).started = [("k", .get, 0)] ∧
    (singleflight.run scenario.honouring singleflight.init
      [.call 0 "k" .get, .call 1 "k" .get, .cancel 0]).done 0 = true ∧
    (singleflight.run scenario.honouring singleflight.init
      [.call 0 "k" .get, .call 1 "k" .get, .cancel 0]).done 1 = false ∧
    (singleflight.run scenario.honouring singleflight.init
      [.call 0 "k" .get, .call 1 "k" .get, .cancel 0, .finish "k", .receive 0 true,
        .receive 1 false]).returned =
      [(0, ([], some singleflight.canceled)), (1, ([], some singleflight.canceled))] := by
  decide

/-- C23, amended: when distinct callers enter `Get` on one key before the call
in flight finishes, with cancellations and scheduled selects in any order, the
wrapped cache's `Get` is launched exactly once, under the context of the first
caller. Whatever a caller returns is either the result of that one execution
or, only for a caller whose own context was cancelled, the cancellation error;
and every subscribed caller whose context is never cancelled does return that
result once its select is scheduled after the delivery. The result is what the
wrapped cache answers given whether the first caller's context was cancelled
by then. -/
theorem singleFlight_get_spec (under : singleflight.Underlay) (k : String)
    (pre post : List singleflight.Event) (l : Nat) (t : List Nat)
    (hpre : ∀ e ∈ pre, (∃ i, e = .call i k .get) ∨ (∃ i, e = .cancel i) ∨
      (∃ i b, e = .receive i b))
    (hpost : ∀ e ∈ post, (∃ i, e = .cancel i) ∨ (∃ i b, e = .receive i b))
    (hcallers : singleflight.callers pre = l :: t)
    (hnodup : (singleflight.callers pre).Nodup) :
    (singleflight.run under singleflight.init (pre ++ .finish k :: post)).started =
      [(k, .get, l)] ∧
    (∀ i out,
      (i, out) ∈ (singleflight.run under singleflight.init (pre ++ .finish k :: post)).returned →
      out = ((under k .get ((singleflight.run under singleflight.init pre).done l)).Val,
          (under k .get ((singleflight.run under singleflight.init pre).done l)).Err) ∨
        (singleflight.Event.cancel i ∈ pre ++ post ∧ out = ([], some singleflight.canceled))) ∧
    (∀ i b, i ∈ singleflight.callers pre → singleflight.Event.receive i b ∈ post →
      singleflight.Event.cancel i ∉ pre ++ post →
      (i, ((under k .get ((singleflight.run under singleflight.init pre).done l)).Val,
          (under k .get ((singleflight.run under singleflight.init pre).done l)).Err)) ∈
        (singleflight.run under singleflight.init (pre ++ .finish k :: post)).returned) := by
  have h1 := singleflight.PreInv.pre_run under k pre [] singleflight.init
    (singleflight.PreInv.init k) hpre (by simpa using hnodup)
  rw [List.nil_append, hcallers] at h1
  have h2 := singleflight.PostInv.finish under k l t _ h1
  have h3 := singleflight.PostInv.post_run under k l _ _ post _ h2 hpost
  have hrun : singleflight.run under singleflight.init (pre ++ .finish k :: post) =
      singleflight.run under (singleflight.step under
        (singleflight.run under singleflight.init pre) (.finish k)) post := by
    rw [singleflight.run_append, singleflight.run_cons]
  rw [hrun]
  refine ⟨h3.started, ?_, ?_⟩
  · intro i out hi
    rcases h3.returned i out hi with h | ⟨hd, hc⟩
    · exact Or.inl h
    · right
      refine ⟨?_, hc⟩
      rw [← hrun] at hd
      rcases singleflight.run_done_cancel under _ singleflight.init i hd with h | h
      · cases h
      · rcases List.mem_append.mp h with h | h
        · exact List.mem_append_left _ h
        · rcases List.mem_cons.mp h with h | h
          · cases h
          · exact List.mem_append_right _ h
  · intro i b hi hrecv hnc
    have hd : (singleflight.step under (singleflight.run under singleflight.init pre)
        (.finish k)).done i = false := by
      cases hx : (singleflight.step under (singleflight.run under singleflight.init pre)
        (.finish k)).done i with
      | false => rfl
      | true =>
        have hx2 : (singleflight.run under singleflight.init (pre ++ [.finish k])).done i =
            true := by
          rw [singleflight.run_append]
          exact hx
        rcases singleflight.run_done_cancel under _ singleflight.init i hx2 with h | h
        · cases h
        · rcases List.mem_append.mp h with h | h
          · exact absurd (List.mem_append_left _ h) hnc
          · simp at h
    exact singleflight.PostInv.served under k l _ _ post _ i b h2 hpost (by rw [← hcallers]; exact hi)
      hd (fun h => hnc (List.mem_append_right _ h)) hrecv

/-- C23, amended, at two callers of which the second cancels: one execution
under the first caller's context, and the first caller returns its bytes. -/
theorem singleFlight_get_spec_witness :
    (singleflight.run scenario.honouring singleflight.init
      ([.call 0 "k" .get, .call 1 "k" .get, .cancel 1] ++
        .finish "k" :: [.receive 1 true, .receive 0 false])).started = [("k", .get, 0)] ∧
    (0, ([1, 2, 3], none)) ∈
      (singleflight.run scenario.honouring singleflight.init
        ([.call 0 "k" .get, .call 1 "k" .get, .cancel 1] ++
          .finish "k" :: [.receive 1 true, .receive 0 false])).returned :=
  ⟨(singleFlight_get_spec scenario.honouring "k"
      [.call 0 "k" .get, .call 1 "k" .get, .cancel 1] [.receive 1 true, .receive 0 false] 0 [1]
      (by simp) (by simp) rfl (by decide)).1,
    (singleFlight_get_spec scenario.honouring "k"
      [.call 0 "k" .get, .call 1 "k" .get, .cancel 1] [.receive 1 true, .receive 0 false] 0 [1]
      (by simp) (by simp) rfl (by decide)).2.2 0 false (by decide) (by decide) (by decide)⟩

/-- C24 fails on the code: a `Set` entered while a `Get` on the same key is in
flight joins the `Get`: the wrapped cache sees no `Set` at all and the `Set`
returns the error of the `Get`. In the same way a `Delete` entered during a
`Get` returns the bytes of the `Get` without any `Delete` being run, and a
`Get` entered during a `Set` returns the entry being set. -/
theorem singleFlight_coalesces_kinds :
    (singleflight.run scenario.missing singleflight.init
      [.call 0 "k" .get, .call 1 "k" (.set [9]), .finish "k", .receive 0 false,
        .receive 1 false]).started = [("k", .get, 0)] ∧
    (singleflight.run scenario.missing singleflight.init
      [.call 0 "k" .get, .call 1 "k" (.set [9]), .finish "k", .receive 0 false,
        .receive 1 false]).returned =
      [(0, ([], some .ErrEntryNotFound)), (1, ([], some .ErrEntryNotFound))] ∧
    (singleflight.run scenario.honouring singleflight.init
      [.call 0 "k" .get, .call 1 "k" .delete, .finish "k", .receive 0 false,
        .receive 1 false]).started = [("k", .get, 0)] ∧
    (singleflight.run scenario.honouring singleflight.init
      [.call 0 "k" .get, .call 1 "k" .delete, .finish "k", .receive 0 false,
        .receive 1 false]).returned = [(0, ([1, 2, 3], none)), (1, ([1, 2, 3], none))] ∧
    (singleflight.run scenario.missing singleflight.init
      [.call 0 "k" (.set [9]), .call 1 "k" .get, .finish "k", .receive 0 false,
        .receive 1 false]).returned = [(0, ([], none)), (1, ([9], none))] := by
  decide

/-! ## The delegate call of the clients -/

theorem hasDoubleSlash_append (seg rest : List Char) (h : '/' ∉ seg) :
    hasDoubleSlash (seg ++ rest) = hasDoubleSlash rest := by
  induction seg with
  | nil => rfl
  | cons c cs ih =>
    have hc : c ≠ '/' := fun e => h (by simp [e])
    have hcs : '/' ∉ cs := fun e => h (by simp [e])
    simp [hasDoubleSlash, hc, ih hcs]

theorem joinSlash_no_double (segs : List (List Char))
    (h : ∀ seg ∈ segs, seg ≠ [] ∧ '/' ∉ seg) :
    hasDoubleSlash (joinSlash segs) = false ∧ (joinSlash segs).head? ≠ some '/' := by
  induction segs with
  | nil => exact ⟨rfl, by simp [joinSlash]⟩
  | cons seg rest ih =>
    obtain ⟨hne, hns⟩ := h seg (by simp)
    have hrest : ∀ s ∈ rest, s ≠ [] ∧ '/' ∉ s := fun s hs => h s (by simp [hs])
    have hhead : ∀ tail : List Char, (seg ++ tail).head? ≠ some '/' := by
      intro tail
      cases seg with
      | nil => exact absurd rfl hne
      | cons c cs =>
        intro e
        simp only [List.cons_append, List.head?_cons, Option.some.injEq] at e
        exact hns (by simp [e])
    cases rest with
    | nil =>
      simp only [joinSlash]
      refine ⟨?_, ?_⟩
      · have := hasDoubleSlash_append seg [] hns
        rw [List.append_nil] at this
        rw [this]
        rfl
      · have := hhead []
        rwa [List.append_nil] at this
    | cons s2 rest2 =>
      obtain ⟨ih1, ih2⟩ := ih hrest
      simp only [joinSlash]
      refine ⟨?_, hhead _⟩
      rw [hasDoubleSlash_append seg _ hns]
      simp only [hasDoubleSlash, beq_self_eq_true, Bool.true_and, Bool.or_eq_false_iff]
      refine ⟨?_, ih1⟩
      cases hh : (joinSlash (s2 :: rest2)).head? with
      | none => rfl
      | some c =>
        have hc : c ≠ '/' := fun e => ih2 (by rw [hh, e])
        simp [hc]

theorem splitSlash_no_slash_mem (s : List Char) : ∀ seg ∈ splitSlash s, '/' ∉ seg := by
  induction s with
  | nil =>
    intro seg hseg
    simp only [splitSlash, List.mem_singleton] at hseg
    rw [hseg]
    simp
  | cons c cs ih =>
    intro seg hseg
    by_cases hc : c = '/'
    · simp only [splitSlash, hc, if_true, List.mem_cons] at hseg
      rcases hseg with rfl | hseg
      · simp
      · exact ih seg hseg
    · cases hs : splitSlash cs with
      | nil => exact absurd hs (splitSlash_ne_nil cs)
      | cons first others =>
        simp only [splitSlash, hc, if_false, hs, List.mem_cons] at hseg
        rcases hseg with rfl | hseg
        · intro hm
          rcases List.mem_cons.mp hm with e | hm
          · exact hc e.symm
          · exact ih first (by rw [hs]; simp) hm
        · exact ih seg (by rw [hs]; simp [hseg])

theorem path.cleanStep_kept (rooted : Bool) (kept : List (List Char)) (seg : List Char)
    (hseg : '/' ∉ seg) (hkept : ∀ k ∈ kept, k ≠ [] ∧ '/' ∉ k) :
    ∀ k ∈ path.cleanStep rooted kept seg, k ≠ [] ∧ '/' ∉ k := by
  unfold path.cleanStep
  split
  · exact hkept
  · rename_i h1
    split
    · rename_i h2
      cases kept with
      | nil =>
        simp only
        split
        · intro k hk
          cases hk
        · intro k hk
          rw [List.mem_singleton.mp hk]
          exact ⟨by rw [h2]; simp, hseg⟩
      | cons top below =>
        simp only
        split
        · intro k hk
          rcases List.mem_cons.mp hk with rfl | hk
          · exact ⟨by rw [h2]; simp, hseg⟩
          · exact hkept k hk
        · intro k hk
          exact hkept k (by simp [hk])
    · intro k hk
      rcases List.mem_cons.mp hk with rfl | hk
      · exact ⟨fun e => h1 (Or.inl e), hseg⟩
      · exact hkept k hk

theorem path.foldl_cleanStep_kept (rooted : Bool) (segs kept : List (List Char))
    (hsegs : ∀ seg ∈ segs, '/' ∉ seg) (hkept : ∀ k ∈ kept, k ≠ [] ∧ '/' ∉ k) :
    ∀ k ∈ segs.foldl (path.cleanStep rooted) kept, k ≠ [] ∧ '/' ∉ k := by
  induction segs generalizing kept with
  | nil => exact hkept
  | cons seg rest ih =>
    rw [List.foldl_cons]
    exact ih _ (fun s hs => hsegs s (by simp [hs]))
      (path.cleanStep_kept rooted kept seg (hsegs seg (by simp)) hkept)

/-- The result of `path.Clean` never contains `//`. -/
theorem path.Clean_no_double (p : String) : hasDoubleSlash (path.Clean p).toList = false := by
  unfold path.Clean
  split
  · rfl
  · have hk : ∀ rooted : Bool,
        ∀ k ∈ ((splitSlash p.toList).foldl (path.cleanStep rooted) []).reverse,
          k ≠ [] ∧ '/' ∉ k := by
      intro rooted k hk
      exact path.foldl_cleanStep_kept rooted _ [] (splitSlash_no_slash_mem _)
        (fun k hk => by cases hk) k (List.mem_reverse.mp hk)
    simp only
    split
    · rename_i hr
      obtain ⟨h1, h2⟩ := joinSlash_no_double _ (hk (decide (p.toList.head? = some '/')))
      simp only [String.toList, hasDoubleSlash, beq_self_eq_true, Bool.true_and,
        Bool.or_eq_false_iff]
      exact ⟨beq_eq_false_iff_ne.mpr h2, h1⟩
    · split
      · rfl
      · exact (joinSlash_no_double _ (hk (decide (p.toList.head? = some '/')))).1

theorem path.Join_no_double (elem : List String) :
    hasDoubleSlash (path.Join elem).toList = false := by
  unfold path.Join
  split
  · rfl
  · exact path.Clean_no_double _

/-- No route has an authority: whatever the namespace and the arguments, the
text `Route` returns does not contain `//`. -/
theorem apis.Route_no_authority (namespace_ : String) (paths : List String) :
    hasDoubleSlash (apis.Route namespace_ paths).toList = false :=
  path.Join_no_double _

theorem client.transport_route (e : client.World) (namespace_ : String) (paths : List String) :
    (∃ err, client.transport e (apis.Route namespace_ paths) = .requestFailed err) ∨
    (∃ err, client.transport e (apis.Route namespace_ paths) = .doFailed err) := by
  unfold client.transport
  rw [apis.Route_no_authority]
  simp only [Bool.false_eq_true, if_false]
  have href : ∀ u, (∃ err, client.refusal u = .requestFailed err) ∨
      (∃ err, client.refusal u = .doFailed err) := by
    intro u
    unfold client.refusal
    split
    · exact Or.inl ⟨_, rfl⟩
    · split
      · exact Or.inr ⟨_, rfl⟩
      · exact Or.inr ⟨_, rfl⟩
  cases e.exchange (apis.Route namespace_ paths) with
  | requestFailed err => exact Or.inl ⟨err, rfl⟩
  | doFailed err => exact href _
  | responded code status body => exact href _

theorem client.getTokenByURL_route (e : client.World) (namespace_ : String)
    (paths : List String) :
    ∃ msg, client.getTokenByURL e (apis.Route namespace_ paths) =
      some (.error (.remoteCall msg)) := by
  unfold client.getTokenByURL
  rcases client.transport_route e namespace_ paths with ⟨err, h⟩ | ⟨err, h⟩
  · rw [h]
    exact ⟨_, rfl⟩
  · rw [h]
    exact ⟨_, rfl⟩

/-- C15 fails on the code: the socket is in place and the daemon would answer
500, but the URL the AWS client builds is `http/aws/us-east-1/c1`, which the
transport refuses before anything is sent. The delegate call ends in a
remote-call error, and `Client.GetToken` runs the in-process pipeline and
returns its token instead of the daemon's error. -/
theorem client_refused_not_reached :
    aws.Client.GetTokenByHTTP ⟨"/var/run/kubecia.sock", "AKIA", "secret", "us-east-1", "c1", ""⟩
      ⟨true, fun _ => .responded 500 "500 Internal Server Error" (.ok []), [],
        scenario.zeroTokenCodec, 1000, .ok ⟨⟨63900000840, 0, some 0⟩, [107, 56, 115, 1]⟩⟩ =
      some (.error (.remoteCall
        "error making remote request: Get \"http/aws/us-east-1/c1\": unsupported protocol scheme \"\"")) ∧
    aws.Client.GetToken ⟨"/var/run/kubecia.sock", "AKIA", "secret", "us-east-1", "c1", ""⟩
      ⟨true, fun _ => .responded 500 "500 Internal Server Error" (.ok []), [],
        scenario.zeroTokenCodec, 1000, .ok ⟨⟨63900000840, 0, some 0⟩, [107, 56, 115, 1]⟩⟩ =
      ⟨some (.ok ⟨⟨63900000840, 0, some 0⟩, [107, 56, 115, 1]⟩), true⟩ := by
  constructor <;> rfl

/-- C16: whatever stands between the client and the daemon (the connection
cannot be made, the body of the response cannot be read, a 200 body is not
valid token JSON), the delegate call of the AWS and of the GCP client ends in a
remote-call error, and with the socket in place `Client.GetToken` falls through
to the in-process pipeline and returns its answer instead of that error. -/
theorem client_transport_spec (e : client.World) (hsock : e.isSocket = true) :
    (∀ cli : aws.Client,
      (∃ msg, cli.GetTokenByHTTP e = some (.error (.remoteCall msg))) ∧
      (cli.GetToken e).ranLocally = true ∧
      (cli.GetToken e).result =
        (match e.getToken with
          | .ok tk => some (.ok tk)
          | .error err => some (.error (.other ("error getting token locally: " ++ err))))) ∧
    (∀ cli : gcp.Client,
      (∃ msg, cli.GetTokenByHTTP e = some (.error (.remoteCall msg))) ∧
      (cli.GetToken e).ranLocally = true ∧
      (cli.GetToken e).result =
        (match e.getToken with
          | .ok tk => some (.ok tk)
          | .error err => some (.error (.other ("error getting token locally: " ++ err))))) := by
  constructor
  · intro cli
    obtain ⟨msg, hm⟩ := client.getTokenByURL_route e aws.Namespace
      [cli.Region, cli.Cluster, cli.AssumeRoleARN]
    have hb : cli.GetTokenByHTTP e = some (.error (.remoteCall msg)) := hm
    refine ⟨⟨msg, hb⟩, ?_⟩
    simp only [aws.Client.GetToken, hb, client.getTokenWith, hsock, if_true]
    cases e.getToken <;> exact ⟨rfl, rfl⟩
  · intro cli
    obtain ⟨msg, hm⟩ := client.getTokenByURL_route e gcp.Namespace [cli.Region, cli.Cluster]
    have hb : cli.GetTokenByHTTP e = some (.error (.remoteCall msg)) := hm
    refine ⟨⟨msg, hb⟩, ?_⟩
    simp only [gcp.Client.GetToken, hb, client.getTokenWith, hsock, if_true]
    cases e.getToken <;> exact ⟨rfl, rfl⟩

/-- C16 at an AWS client whose daemon would answer 200 with a body that
cannot be read: the in-process pipeline runs and its token is returned. -/
theorem client_transport_spec_witness :
    (aws.Client.GetToken ⟨"/var/run/kubecia.sock", "AKIA", "secret", "us-east-1", "c1", ""⟩
      ⟨true, fun _ => .responded 200 "200 OK" (.error "unexpected EOF"), [],
        scenario.zeroTokenCodec, 1000,
        .ok ⟨⟨63900000840, 0, some 0⟩, [107, 56, 115, 1]⟩⟩).ranLocally = true ∧
    (aws.Client.GetToken ⟨"/var/run/kubecia.sock", "AKIA", "secret", "us-east-1", "c1", ""⟩
      ⟨true, fun _ => .responded 200 "200 OK" (.error "unexpected EOF"), [],
        scenario.zeroTokenCodec, 1000,
        .ok ⟨⟨63900000840, 0, some 0⟩, [107, 56, 115, 1]⟩⟩).result =
      some (.ok ⟨⟨63900000840, 0, some 0⟩, [107, 56, 115, 1]⟩) :=
  ((client_transport_spec
    ⟨true, fun _ => .responded 200 "200 OK" (.error "unexpected EOF"), [],
      scenario.zeroTokenCodec, 1000, .ok ⟨⟨63900000840, 0, some 0⟩, [107, 56, 115, 1]⟩⟩
    rfl).1 ⟨"/var/run/kubecia.sock", "AKIA", "secret", "us-east-1", "c1", ""⟩).2

end Kubecia
